import Mathlib

/-!
Verification of the deterministic assembly engine of Quantum-Forge.

The development shallowly embeds the pure string- and list-processing code of
`src/core/import_manager.py`, `src/core/pipeline_composer.py` and
`src/core/code_assembler.py`, together with spec-modelled definitions for the
parts of the engine that the repository delegates to external collaborators
(the needs/provides topological sort described in spec §4.1, whose only trace
in the source is the LLM prompt in `src/core/llm_engine.py`, and the emission
templates of the missing module `code_templates.py`).

Python strings are modelled as lists of characters (`PyStr`), which matches
Python's code-point view of `str`; the Python whitespace set is modelled by its
ASCII members, which is exact for every string the engine manipulates.
-/

/-- Python strings, viewed as their sequence of code points. -/
abbrev PyStr := List Char

/-- Conversion of a Lean string literal into the `PyStr` model. -/
def pstr (s : String) : PyStr := s.data

/-- ASCII fragment of Python's `str.isspace` character class, used by
`str.strip`/`str.split` with no separator argument. -/
def pyIsSpace (c : Char) : Bool :=
  c = ' ' || c = '\t' || c = '\n' || c = '\r' || c = '\x0b' || c = '\x0c'

/-- Python `str.lstrip()` (whitespace only). -/
def pyStripLeft (s : PyStr) : PyStr := s.dropWhile pyIsSpace

/-- Python `str.rstrip()` (whitespace only). -/
def pyStripRight (s : PyStr) : PyStr := (s.reverse.dropWhile pyIsSpace).reverse

/-- Python `str.strip()` (whitespace only). -/
def pyStrip (s : PyStr) : PyStr := pyStripRight (pyStripLeft s)

/-- Accumulator worker for `pyWords`; `cur` holds the reversed current word. -/
def wordsAux (cur : PyStr) : PyStr → List PyStr
  | [] => if cur = [] then [] else [cur.reverse]
  | c :: rest =>
      if pyIsSpace c then
        if cur = [] then wordsAux [] rest else cur.reverse :: wordsAux [] rest
      else
        wordsAux (c :: cur) rest

/-- Python `str.split()` with no argument: maximal runs of non-whitespace. -/
def pyWords (s : PyStr) : List PyStr := wordsAux [] s

/-- Python `sep.join(parts)`. -/
def pyJoin (sep : PyStr) : List PyStr → PyStr
  | [] => []
  | [x] => x
  | x :: y :: rest => x ++ sep ++ pyJoin sep (y :: rest)

/-- The whitespace normalisation `' '.join(s.strip().split())` used by
`ImportManager._deduplicate`. -/
def pyNormWs (s : PyStr) : PyStr := pyJoin [' '] (pyWords (pyStrip s))

/-- First-occurrence split: `splitFirst sep s = some (a, b)` when `s = a ++ sep ++ b`
with `a` shortest; `none` when `sep` does not occur. -/
def splitFirst (sep : PyStr) : PyStr → Option (PyStr × PyStr)
  | [] => if sep.isPrefixOf ([] : PyStr) then some ([], []) else none
  | c :: r =>
      if sep.isPrefixOf (c :: r) then some ([], (c :: r).drop sep.length)
      else (splitFirst sep r).map (fun p => (c :: p.1, p.2))

/-- Python `s.split(sep)[0]` for a non-empty separator: the text before the first
occurrence of `sep`, or all of `s` when `sep` does not occur. -/
def takeBefore (sep s : PyStr) : PyStr :=
  match splitFirst sep s with
  | some p => p.1
  | none => s

/-- Python `s.split(sep, 1)` tail component: the text after the first occurrence
of `sep`, when it occurs. -/
def afterFirst (sep s : PyStr) : Option PyStr :=
  match splitFirst sep s with
  | some p => some p.2
  | none => none

/-- Fuel-indexed worker for `replaceAll`; the fuel always dominates the length
of the remaining input, so the `0, s => s` fallback is never reached. -/
def replaceAllAux (old new : PyStr) : Nat → PyStr → PyStr
  | _, [] => []
  | 0, s => s
  | fuel + 1, c :: r =>
      if old ≠ [] ∧ old.isPrefixOf (c :: r) then
        new ++ replaceAllAux old new fuel (r.drop (old.length - 1))
      else
        c :: replaceAllAux old new fuel r

/-- Python `s.replace(old, new)` for a non-empty `old`: all non-overlapping
occurrences, scanned left to right. -/
def replaceAll (old new s : PyStr) : PyStr := replaceAllAux old new s.length s

/-- Python `sub in s` (substring test). -/
def occursIn (sub : PyStr) : PyStr → Bool
  | [] => sub.isPrefixOf ([] : PyStr)
  | c :: r => sub.isPrefixOf (c :: r) || occursIn sub r

/-- ASCII fragment of Python `str.isalnum` on a character. -/
def pyIsAlnumChar (c : Char) : Bool := c.isAlpha || c.isDigit

/-- Python `s.isalnum()`: non-empty and all characters alphanumeric. -/
def pyIsAlnumStr (s : PyStr) : Bool := (decide (s ≠ [])) && s.all pyIsAlnumChar

/-- Python `s.upper()` on the ASCII range. -/
def pyUpper (s : PyStr) : PyStr := s.map Char.toUpper

/-- Python `s.split(sep)` for a non-empty separator (all pieces), with fuel. -/
def splitAllAux (sep : PyStr) : Nat → PyStr → List PyStr
  | 0, s => [s]
  | fuel + 1, s =>
      match splitFirst sep s with
      | some p => p.1 :: splitAllAux sep fuel p.2
      | none => [s]

/-- Python `s.split(sep)` for a non-empty separator. -/
def splitAll (sep s : PyStr) : List PyStr := splitAllAux sep s.length s

/-- Lexicographic comparison of `PyStr` by code point, Python's `<=` on `str`. -/
def pyLe (a b : PyStr) : Bool := a.isPrefixOf b || decide (List.Lex (· < ·) a b)

/-- Python `sorted` on a list of strings: the sorted permutation under the
code-point order. Equal strings are syntactically identical, so stability is
vacuous and insertion sort computes exactly Python's result. -/
def pySorted (l : List PyStr) : List PyStr :=
  l.insertionSort (fun a b => pyLe a b = true)

/-- First-occurrence deduplication of a list (Python `seen`-set loop shape). -/
def dedupKeepFirst (seen : List PyStr) : List PyStr → List PyStr
  | [] => []
  | x :: xs =>
      if x ∈ seen then dedupKeepFirst seen xs
      else x :: dedupKeepFirst (x :: seen) xs

/-! ## Import manager (`src/core/import_manager.py`) -/

/-- The import groups of `ImportManager._group_imports`; `loc` renders the
source's `'local'` group (a Lean keyword). -/
inductive ImpGroup where
  | stdlib
  | third_party
  | qiskit
  | loc
deriving DecidableEq

/-- `ImportManager.stdlib_modules`: the standard-library root-module names. -/
def stdlib_modules : List PyStr :=
  [pstr ("os"), pstr ("sys"), pstr ("time"), pstr ("datetime"), pstr ("json"),
   pstr ("math"), pstr ("random"), pstr ("typing"), pstr ("dataclasses"),
   pstr ("abc"), pstr ("itertools"), pstr ("functools"), pstr ("collections"),
   pstr ("pathlib"), pstr ("re"), pstr ("copy"), pstr ("pickle")]

/-- `ImportManager.qiskit_prefixes`. -/
def qiskit_prefixes : List PyStr := [pstr ("qiskit"), pstr ("qiskit_")]

/-- The `from\s+([^\s]+)\s+import` branch of `ImportManager._extract_module_name`,
on the text after the leading `from`: `re.match` anchored at the start, greedy
`\s+`/`[^\s]+` runs (backtracking can never rescue a failed run, so the maximal
runs are forced). -/
def from_regex_capture (rest : PyStr) : PyStr :=
  let ws1 := rest.takeWhile pyIsSpace
  if ws1 = [] then []
  else
    let r1 := rest.dropWhile pyIsSpace
    let w := r1.takeWhile (fun c => !pyIsSpace c)
    if w = [] then []
    else
      let r2 := r1.dropWhile (fun c => !pyIsSpace c)
      let ws2 := r2.takeWhile pyIsSpace
      if ws2 = [] then []
      else
        let r3 := r2.dropWhile pyIsSpace
        if (pstr ("import")).isPrefixOf r3 then w else []

/-- `ImportManager._extract_module_name`. -/
def extract_module_name (stmt : PyStr) : PyStr :=
  let s := pyStrip stmt
  if (pstr ("import ")).isPrefixOf s then
    pyStrip (takeBefore (pstr (",")) (pyStrip (takeBefore (pstr (" as ")) (s.drop 7))))
  else if (pstr ("from ")).isPrefixOf s then
    from_regex_capture (s.drop 4)
  else []

/-- `ImportManager._classify_import`. -/
def classify_import (stmt : PyStr) : ImpGroup :=
  let module_name := extract_module_name stmt
  if (pstr ("from .")).isPrefixOf (pyStrip stmt) then ImpGroup.loc
  else if qiskit_prefixes.any (fun p => p.isPrefixOf module_name) then ImpGroup.qiskit
  else if (takeBefore (pstr (".")) module_name) ∈ stdlib_modules then ImpGroup.stdlib
  else ImpGroup.third_party

/-- Worker of `ImportManager._deduplicate`: whitespace-normalise each entry,
drop empty entries and exact duplicates, keep first-occurrence order. -/
def dedupAux (seen : List PyStr) : List PyStr → List PyStr
  | [] => []
  | x :: xs =>
      let n := pyNormWs x
      if n ≠ [] ∧ n ∉ seen then n :: dedupAux (n :: seen) xs
      else dedupAux seen xs

/-- `ImportManager._deduplicate`. -/
def deduplicate (imports : List PyStr) : List PyStr := dedupAux [] imports

/-- `ImportManager._group_imports`: the single append pass is the filter by
classification, in input order. -/
def group_imports (imports : List PyStr) (g : ImpGroup) : List PyStr :=
  imports.filter (fun s => classify_import s = g)

/-- The separator condition of `ImportManager._sort_and_format` for one group:
`group_name != 'local' and any(grouped[g] for g in ['third_party', 'qiskit',
'local'] if g != group_name)`. -/
def sep_after (grouped : ImpGroup → List PyStr) (g : ImpGroup) : Bool :=
  g ≠ ImpGroup.loc &&
    (([ImpGroup.third_party, ImpGroup.qiskit, ImpGroup.loc].filter (fun x => x ≠ g)).any
      (fun x => grouped x ≠ []))

/-- One group's contribution in `ImportManager._sort_and_format`. -/
def format_group (grouped : ImpGroup → List PyStr) (g : ImpGroup) : List PyStr :=
  if grouped g = [] then []
  else pySorted (grouped g) ++ (if sep_after grouped g then [([] : PyStr)] else [])

/-- `ImportManager._sort_and_format`. -/
def sort_and_format (grouped : ImpGroup → List PyStr) : List PyStr :=
  format_group grouped ImpGroup.stdlib ++ format_group grouped ImpGroup.third_party ++
    format_group grouped ImpGroup.qiskit ++ format_group grouped ImpGroup.loc

/-- `ImportManager.normalize` (and the convenience `normalize_imports`). -/
def normalize_imports (imports : List PyStr) : List PyStr :=
  if imports = [] then []
  else sort_and_format (group_imports (deduplicate imports))

/-! ## Pipeline response parsing (`src/core/pipeline_composer.py`) -/

/-- The filtering loop of `IntelligentPipelineComposer._parse_pipeline_response`
(lines 148-153): keep entries that name a valid component, dropping repeats.
A non-string JSON entry never passes the membership test, so entries are
modelled as strings. -/
def build_valid_pipeline (valid_components : List PyStr) (acc : List PyStr) :
    List PyStr → List PyStr
  | [] => acc
  | c :: cs =>
      if c ∈ valid_components ∧ c ∉ acc then
        build_valid_pipeline valid_components (acc ++ [c]) cs
      else build_valid_pipeline valid_components acc cs

/-- The success path of `IntelligentPipelineComposer._parse_pipeline_response`
(lines 139-159) on an already-JSON-parsed list: filter to valid components,
drop repeats, then append the missing components in input order. -/
def parse_pipeline_response (pipeline valid_components : List PyStr) : List PyStr :=
  let valid_pipeline := build_valid_pipeline valid_components [] pipeline
  valid_pipeline ++ valid_components.filter (fun c => c ∉ valid_pipeline)

/-! ## Code assembler: symbol extraction and conflict resolution
(`src/core/code_assembler.py`) -/

/-- `CodeCell` (from `src/core/schemas.py`); `exports` maps logical names to
produced symbol names. -/
structure CodeCell where
  id : PyStr
  imports : List PyStr
  helpers : List PyStr
  definitions : List PyStr
  invoke : PyStr
  exports : List (PyStr × PyStr)

/-- `_extract_function_name`. -/
def extract_function_name (code_line : PyStr) : PyStr :=
  let s := pyStrip code_line
  if (pstr ("def ")).isPrefixOf s then pyStrip (takeBefore (pstr ("(")) (s.drop 4))
  else []

/-- `_extract_definition_name`. -/
def extract_definition_name (code_line : PyStr) : PyStr :=
  let s := pyStrip code_line
  if occursIn (pstr (" = ")) s ∧ ¬ (pstr ("def ")).isPrefixOf s then
    pyStrip (takeBefore (pstr (" = ")) s)
  else []

/-- `_resolve_naming_conflict`: rename an already-used symbol by appending
`__<cellId>`, through the source's four sequential `str.replace` calls. -/
def resolve_naming_conflict (code_line : PyStr) (used_names : List PyStr)
    (cell_id : PyStr) : PyStr :=
  let fn := extract_function_name code_line
  let name := if fn ≠ [] then fn else extract_definition_name code_line
  if name ≠ [] ∧ name ∈ used_names then
    let new_name := name ++ pstr ("__") ++ cell_id
    let l1 := replaceAll (pstr (" ") ++ name ++ pstr ("(")) (pstr (" ") ++ new_name ++ pstr ("(")) code_line
    let l2 := replaceAll (pstr ("def ") ++ name ++ pstr ("(")) (pstr ("def ") ++ new_name ++ pstr ("(")) l1
    let l3 := replaceAll (pstr (" ") ++ name ++ pstr (" =")) (pstr (" ") ++ new_name ++ pstr (" =")) l2
    replaceAll (name ++ pstr (" =")) (new_name ++ pstr (" =")) l3
  else code_line

/-- `_is_definition_not_invoke`: keep only simple constant definitions. -/
def is_definition_not_invoke (definition : PyStr) : Bool :=
  let d := pyStrip definition
  if d = [] then false
  else if [pstr ("build_"), pstr ("run_"), pstr ("create_"), pstr ("tfim_hea(")].any
      (fun p => occursIn p d) then false
  else if occursIn (pstr ("(")) d && occursIn (pstr (")")) d && occursIn (pstr ("=")) d then
    false
  else if occursIn (pstr ("=")) d then
    pyIsAlnumStr (replaceAll (pstr ("__")) [] (replaceAll (pstr ("_")) [] (pyStrip (takeBefore (pstr ("=")) d))))
  else false

/-- The helper loop of `_merge_code_sections_fixed`: resolve each helper against
the running used-name set, then record its extracted function name. -/
def process_helpers (cell_id : PyStr) (used : List PyStr) :
    List PyStr → List PyStr × List PyStr
  | [] => ([], used)
  | h :: hs =>
      let ph := resolve_naming_conflict h used cell_id
      let fn := extract_function_name ph
      let used1 := if fn ≠ [] then fn :: used else used
      let rest := process_helpers cell_id used1 hs
      (ph :: rest.1, rest.2)

/-- The definition loop of `_merge_code_sections_fixed`: filter by
`_is_definition_not_invoke`, resolve, record the extracted definition name. -/
def process_defs (cell_id : PyStr) (used : List PyStr) :
    List PyStr → List PyStr × List PyStr
  | [] => ([], used)
  | d :: ds =>
      if is_definition_not_invoke d then
        let pd := resolve_naming_conflict d used cell_id
        let dn := extract_definition_name pd
        let used1 := if dn ≠ [] then dn :: used else used
        let rest := process_defs cell_id used1 ds
        (pd :: rest.1, rest.2)
      else process_defs cell_id used ds

/-- Per-cell step of `_merge_code_sections_fixed`: helpers first, then
definitions, threading the used-name set. -/
def merge_cell (used : List PyStr) (cell : CodeCell) :
    List PyStr × List PyStr × List PyStr :=
  let hs := process_helpers cell.id used cell.helpers
  let ds := process_defs cell.id hs.2 cell.definitions
  (hs.1, ds.1, ds.2)

/-- The cell loop of `_merge_code_sections_fixed`. -/
def merge_loop (used : List PyStr) : List CodeCell → List PyStr × List PyStr
  | [] => ([], [])
  | c :: cs =>
      let step := merge_cell used c
      let rest := merge_loop step.2.2 cs
      (step.1 ++ rest.1, step.2.1 ++ rest.2)

/-- `_merge_code_sections_fixed`: returns `(all_helpers, filtered_definitions)`. -/
def merge_code_sections_fixed (cells : List CodeCell) : List PyStr × List PyStr :=
  merge_loop [] cells

/-! ## Code assembler: definition cleaning and parameter names -/

/-- The reserved words checked in `_clean_param_name`. -/
def reserved_param_words : List PyStr :=
  [pstr ("def"), pstr ("class"), pstr ("import"), pstr ("from"), pstr ("if"),
   pstr ("else"), pstr ("return")]

/-- Fuel-indexed decimal rendering worker. -/
def natDigitsAux : Nat → Nat → PyStr
  | 0, _ => []
  | fuel + 1, n =>
      if n < 10 then [Char.ofNat (48 + n)]
      else natDigitsAux fuel (n / 10) ++ [Char.ofNat (48 + n % 10)]

/-- Python `str(n)` for a natural number (decimal). -/
def natDigits (n : Nat) : PyStr := natDigitsAux (n + 1) n

/-- `_clean_param_name`; `py_hash` is Python's process-seeded `hash` on strings,
reduced mod 1000 as in the source's `hash(param_name) % 1000`. -/
def clean_param_name (py_hash : PyStr → Nat) (param_name : PyStr) : PyStr :=
  let clean := param_name.map (fun c => if pyIsAlnumChar c || c = '_' then c else '_')
  let clean2 :=
    if clean ≠ [] ∧ (clean.headD ' ').isDigit then pstr ("param_") ++ clean else clean
  if clean2 = [] ∨ clean2 ∈ reserved_param_words then
    pstr ("param_") ++ natDigits (py_hash param_name % 1000)
  else clean2

/-- The per-assignment cleaned left-hand name of `_clean_definitions`: truncate
at the first `__`, then sanitize. -/
def cleaned_lhs (py_hash : PyStr → Nat) (var_name : PyStr) : PyStr :=
  if occursIn (pstr ("__")) var_name then
    clean_param_name py_hash (takeBefore (pstr ("__")) var_name)
  else clean_param_name py_hash var_name

/-- The loop of `_clean_definitions`, threading the `seen_vars` set. -/
def clean_defs_aux (py_hash : PyStr → Nat) (seen : List PyStr) :
    List PyStr → List PyStr
  | [] => []
  | d :: ds =>
      if pyStrip d = [] then clean_defs_aux py_hash seen ds
      else if occursIn (pstr ("=")) d then
        match splitFirst (pstr ("=")) d with
        | some p =>
            let clean_var := cleaned_lhs py_hash (pyStrip p.1)
            if clean_var ∉ seen then
              (clean_var ++ pstr (" = ") ++ pyStrip p.2) ::
                clean_defs_aux py_hash (clean_var :: seen) ds
            else clean_defs_aux py_hash seen ds
        | none => clean_defs_aux py_hash seen ds
      else d :: clean_defs_aux py_hash seen ds

/-- `_clean_definitions`. -/
def clean_definitions (py_hash : PyStr → Nat) (definitions : List PyStr) : List PyStr :=
  clean_defs_aux py_hash [] definitions

/-! ## Code assembler: typed values and the argument specification -/

/-- Tagged model of the duck-typed Python values carried in parameter maps.
A float's payload is its literal text; the engine never computes with it. -/
inductive PyVal where
  | none
  | bool (b : Bool)
  | int (i : Int)
  | float (text : PyStr)
  | str (s : PyStr)
  | list (xs : List PyVal)
  | dict (xs : List (PyStr × PyVal))

/-- `_infer_param_type` (the `bool` test precedes the `int` test, as in the
source, where `isinstance(True, int)` would otherwise shadow it). -/
def infer_param_type : PyVal → PyStr
  | PyVal.none => pstr ("Any")
  | PyVal.bool _ => pstr ("bool")
  | PyVal.int _ => pstr ("int")
  | PyVal.float _ => pstr ("float")
  | PyVal.str _ => pstr ("str")
  | PyVal.list _ => pstr ("List")
  | PyVal.dict _ => pstr ("Dict")

/-- Association-list lookup, modelling Python `dict.get`. -/
def alistGet {α : Type} (d : List (PyStr × α)) (k : PyStr) : Option α :=
  (d.find? (fun p => p.1 = k)).map (fun p => p.2)

/-- Association-list store, modelling Python `dict[k] = v` (update in place,
else append), preserving insertion order. -/
def alistSet {α : Type} (d : List (PyStr × α)) (k : PyStr) (v : α) : List (PyStr × α) :=
  if d.any (fun p => p.1 = k) then d.map (fun p => if p.1 = k then (k, v) else p)
  else d ++ [(k, v)]

/-- Python `d1.update(d2)` over the insertion-ordered dict model. -/
def alistUpdate {α : Type} (d1 d2 : List (PyStr × α)) : List (PyStr × α) :=
  d2.foldl (fun acc p => alistSet acc p.1 p.2) d1

/-- The `param_map` dict as consumed by the assembler: `validated` is optional
(the source reads `param_map.get("validated", param_map.get("normalized_params",
{}))`), the other keys behave identically whether missing or empty. -/
structure ParamMapDict where
  validated : Option (List (PyStr × PyVal))
  normalized_params : List (PyStr × PyVal)
  aliases : List (PyStr × PyStr)
  defaults : List (PyStr × PyVal)

/-- One entry of the assembler's argument specification. -/
structure ArgSpec where
  type_tag : PyStr
  description : PyStr
  default : Option PyVal

/-- `_build_args_spec` (its `task_card` parameter is unused in the source body). -/
def build_args_spec (py_hash : PyStr → Nat) (param_map : ParamMapDict) :
    List (PyStr × ArgSpec) :=
  let normalized := param_map.validated.getD param_map.normalized_params
  let all_params := alistUpdate param_map.defaults normalized
  all_params.foldl
    (fun acc p =>
      let clean := clean_param_name py_hash p.1
      let dflt : Option PyVal :=
        match alistGet param_map.defaults p.1 with
        | some v => some v
        | Option.none =>
            match p.2 with
            | PyVal.none => Option.none
            | v => some v
      alistSet acc clean
        ⟨infer_param_type p.2, pstr ("Parameter ") ++ clean, dflt⟩)
    []

/-! ## Code assembler: main body synthesis -/

/-- The `pipeline_plan` dict handed to the assembler. -/
structure PipelinePlanDict where
  execution_order : List PyStr
  dependency_graph : List (PyStr × List PyStr)
  conflicts : List PyStr

/-- Modelled from the spec: `code_templates.generate_param_aliases` is imported
by `code_assembler.py` but the module is absent from the source tree. The spec
(§4.4) only requires a deterministic alias-normalisation block; it is modelled
as one indented comment line per alias pair. -/
def generate_param_aliases (aliases : List (PyStr × PyStr)) : PyStr :=
  pyJoin (pstr ("\n"))
    (aliases.map (fun p => pstr ("    # alias ") ++ p.1 ++ pstr (" -> ") ++ p.2))

/-- The invoke-line re-indentation loop of `_generate_main_body`: keep non-blank
lines, indenting any line that does not already start with four spaces. -/
def invoke_block_lines (invoke : PyStr) : List PyStr :=
  ((splitAll (pstr ("\n")) (pyStrip invoke)).filter (fun l => pyStrip l ≠ [])).map
    (fun l => if (pstr ("    ")).isPrefixOf l then l else pstr ("    ") ++ pyStrip l)

/-- One cell's contribution to the main body in `_generate_main_body`: a labeled
comment, the re-indented invoke lines, a blank separator; nothing when the
invoke block is blank. -/
def cell_body_chunk (cell : CodeCell) : List PyStr :=
  if pyStrip cell.invoke = [] then []
  else (pstr ("    # ") ++ cell.id) :: (invoke_block_lines cell.invoke ++ [([] : PyStr)])

/-- `_generate_main_body`: the alias block, then every cell's invoke chunk in
the stored cell order (the `pipeline_plan` argument is accepted but never read,
exactly as in the source), then the output lines when anything was emitted. -/
def generate_main_body (code_cells : List CodeCell) (_plan : PipelinePlanDict)
    (param_map : ParamMapDict) : PyStr :=
  let alias_code := generate_param_aliases param_map.aliases
  let body0 : List PyStr :=
    if param_map.aliases ≠ [] ∧ pyStrip alias_code ≠ [] then [pyStripRight alias_code]
    else []
  let body1 := body0 ++ (code_cells.map cell_body_chunk).flatten
  let body2 :=
    if body1 ≠ [] then
      body1 ++ [pstr ("    # Output results"),
        pstr ("    print(f'Ground state energy: \x7benergy:.6f\x7d')"),
        pstr ("    return energy")]
    else body1
  pyJoin (pstr ("\n")) body2

/-! ## Code assembler: typing-import post-processing -/

/-- The `PYTHON_TYPE_IMPORTS` table of `_add_typing_imports`. -/
def typing_table : List (PyStr × PyStr) :=
  [(pstr ("Dict"), pstr ("from typing import Dict")),
   (pstr ("List"), pstr ("from typing import List")),
   (pstr ("Optional"), pstr ("from typing import Optional")),
   (pstr ("Union"), pstr ("from typing import Union")),
   (pstr ("Tuple"), pstr ("from typing import Tuple")),
   (pstr ("Any"), pstr ("from typing import Any")),
   (pstr ("Callable"), pstr ("from typing import Callable"))]

/-- The detection scan of `_add_typing_imports`: a type name is needed when
`": Name"` or `"-> Name"` occurs in the emitted text. -/
def needed_typing_imports (code : PyStr) : List PyStr :=
  (typing_table.filter
    (fun p => occursIn (pstr (": ") ++ p.1) code || occursIn (pstr ("-> ") ++ p.1) code)).map
    (fun p => p.2)

/-- The last-import-line scan of `_add_typing_imports` (`import_end_idx`). -/
def last_import_idx_aux (acc i : Nat) : List PyStr → Nat
  | [] => acc
  | l :: ls =>
      last_import_idx_aux
        (if (pstr ("from ")).isPrefixOf l || (pstr ("import ")).isPrefixOf l then i else acc)
        (i + 1) ls

/-- Index of the last line starting with `from ` or `import `, 0 when none. -/
def last_import_idx (lines : List PyStr) : Nat := last_import_idx_aux 0 0 lines

/-- Python `list.insert` (clamping semantics). -/
def pyInsert {α : Type} (n : Nat) (a : α) (l : List α) : List α :=
  l.take n ++ a :: l.drop n

/-- The insertion loop of `_add_typing_imports`: each sorted needed import goes
right after the current end-of-imports index, which then advances. -/
def insert_typing_loop (st : List PyStr × Nat) (imps : List PyStr) : List PyStr × Nat :=
  imps.foldl (fun s t => (pyInsert (s.2 + 1) t s.1, s.2 + 1)) st

/-- `_add_typing_imports`. -/
def add_typing_imports (code : PyStr) : PyStr :=
  let needed := needed_typing_imports code
  if needed = [] then code
  else
    let lines := splitAll (pstr ("\n")) code
    let final := insert_typing_loop (lines, last_import_idx lines) (pySorted needed)
    pyJoin (pstr ("\n")) final.1

/-! ## Dependency resolver (spec §4.1)

The repository delegates the needs/provides topological sort to an external
reasoning service: the only traces in the source are the prompt
`LLMEngine.pipeline_prompt` (`src/core/llm_engine.py`, lines 144-151, which
instructs the collaborator to "implement linear topological sorting to resolve
component dependencies") and the validation/parse code around it. The resolver
itself is therefore modelled from the spec. -/

/-- `ComponentCard` (from `src/core/schemas.py`); schema-descriptor payloads are
carried as strings, the resolver never inspects them. -/
structure ComponentCard where
  name : PyStr
  kind : PyStr
  tags : List PyStr
  needs : List PyStr
  provides : List PyStr
  params_schema : List (PyStr × PyStr)
  yields : List (PyStr × PyStr)
  codegen_hint : List (PyStr × PyStr)
deriving DecidableEq

/-- Modelled from the spec (§4.1): the provider index, resource name to the
providing component names in input order. -/
def provider_index (cards : List ComponentCard) (r : PyStr) : List PyStr :=
  (cards.filter (fun c => r ∈ c.provides)).map (fun c => c.name)

/-- Modelled from the spec (§4.1): a component's direct dependency set, the
union over its needed resources of all components providing that resource. -/
def direct_deps (cards : List ComponentCard) (c : ComponentCard) : List PyStr :=
  dedupKeepFirst [] ((c.needs.map (provider_index cards)).flatten)

/-- Lookup in the in-degree table. -/
def indegGet (m : List (PyStr × Nat)) (k : PyStr) : Nat :=
  ((m.find? (fun p => p.1 = k)).map (fun p => p.2)).getD 0

/-- Modelled from the spec (§4.1): after dequeuing `d`, decrement every
dependent's in-degree (the components whose dependency set includes `d`) and
collect those that newly reach zero — had in-degree one — in the order
encountered while scanning the component list. -/
def scan_decrement (cards : List ComponentCard) (d : PyStr)
    (m : List (PyStr × Nat)) : List (PyStr × Nat) × List PyStr :=
  (m.map (fun p =>
      if cards.any (fun c => c.name = p.1 ∧ d ∈ direct_deps cards c) then (p.1, p.2 - 1)
      else p),
   (cards.filter (fun c => d ∈ direct_deps cards c ∧ indegGet m c.name = 1)).map
     (fun c => c.name))

/-- Modelled from the spec (§4.1): the Kahn loop — dequeue from the front,
append to the result, enqueue the dependents that newly reached zero. The fuel
equals the component count, which dominates the number of dequeues. -/
def kahn_loop (cards : List ComponentCard) :
    Nat → List (PyStr × Nat) → List PyStr → List PyStr → List PyStr
  | 0, _, _, result => result
  | _ + 1, _, [], result => result
  | fuel + 1, m, d :: q, result =>
      let st := scan_decrement cards d m
      kahn_loop cards fuel st.1 (q ++ st.2) (result ++ [d])

/-- Modelled from the spec (§4.1): initial in-degrees from the derived edges. -/
def initial_indeg (cards : List ComponentCard) : List (PyStr × Nat) :=
  cards.map (fun c => (c.name, (direct_deps cards c).length))

/-- Modelled from the spec (§4.1): the ready queue seeded with zero-in-degree
components in original input order. -/
def initial_queue (cards : List ComponentCard) : List PyStr :=
  (cards.filter (fun c => direct_deps cards c = [])).map (fun c => c.name)

/-- Modelled from the spec (§4.1): Kahn's algorithm over the needs/provides
graph. -/
def kahn (cards : List ComponentCard) : List PyStr :=
  kahn_loop cards cards.length (initial_indeg cards) (initial_queue cards) []

/-- The `CycleDetected` error of spec §7: carries the unscheduled names. -/
structure CycleDetected where
  remaining : List PyStr
deriving DecidableEq

/-- Modelled from the spec (§4.1/§6): `Resolve(componentCards)`; fails with
`CycleDetected{remaining}` when the sort scheduled fewer components than given. -/
def resolve (cards : List ComponentCard) : Except CycleDetected (List PyStr) :=
  let order := kahn cards
  if order.length < cards.length then
    Except.error ⟨(cards.map (fun c => c.name)).filter (fun nm => nm ∉ order)⟩
  else Except.ok order

/-- Modelled from the spec (§4.1): the multi-provider conflict entries, one per
resource provided by more than one component; never blocks resolution. -/
def plan_conflicts (cards : List ComponentCard) : List (PyStr × List PyStr) :=
  ((dedupKeepFirst [] ((cards.map (fun c => c.provides)).flatten)).filter
    (fun r => 1 < (provider_index cards r).length)).map
    (fun r => (r, provider_index cards r))

/-- The dependency relation derived from needs/provides: `a` depends on `b`
when `b` provides a resource `a` needs. -/
def DependsOn (a b : ComponentCard) : Prop :=
  ∃ r, r ∈ a.needs ∧ r ∈ b.provides

/-- A dependency cycle inside `cards`: a non-empty list of member cards in
which each card depends on the next, cyclically (the last depends on the
first). -/
def IsDepCycle (cards : List ComponentCard) (l : List ComponentCard) : Prop :=
  l ≠ [] ∧ (∀ x ∈ l, x ∈ cards) ∧
    ∀ i : Fin l.length,
      DependsOn (l.get i)
        (l.get ⟨(i.val + 1) % l.length,
          Nat.mod_lt _ (Nat.lt_of_le_of_lt (Nat.zero_le i.val) i.isLt)⟩)

/-! ## Program assembler (`src/core/code_assembler.py`, `assemble`) -/

/-- The ambient inputs `assemble` draws on beyond its arguments: the banner's
generation time (the spec's §4.4 step 5 "generation time";`code_templates.py`
is absent from the source tree), the process-seeded Python string hash used by
`_clean_param_name`, and the result of `helper_loader.load_helper_functions`,
which re-reads helper files from disk and iterates a Python `set` of function
names (both process-state dependent). -/
structure Ambient where
  gen_time : PyStr
  py_hash : PyStr → Nat
  load_helpers : List PyStr → List PyStr

/-- The `task_card` dict as consumed by the assembler: only `problem` and
`algorithm` are read, each through `.get` with a fallback. -/
structure TaskCardDict where
  domain : PyStr
  problem : Option PyStr
  algorithm : Option PyStr
  backend : PyStr
  params : List (PyStr × PyVal)

/-- Modelled from the spec (§3): the ordered, insertion-order-preserving
CodeCell store, overwritten in place when an id is re-added (`Memory.add`). -/
def memory_add (mem : List CodeCell) (cell : CodeCell) : List CodeCell :=
  if mem.any (fun c => c.id = cell.id) then
    mem.map (fun c => if c.id = cell.id then cell else c)
  else mem ++ [cell]

/-- Modelled from the spec (§3): `Memory.export`, the cells in first-insertion
order. -/
def memory_export (mem : List CodeCell) : List CodeCell := mem

/-- Flat rendering of a default value for the parameter list; container values
are elided (spec §4.4 step 4 fixes no textual format for them). -/
def render_atom : PyVal → PyStr
  | PyVal.none => pstr ("None")
  | PyVal.bool true => pstr ("True")
  | PyVal.bool false => pstr ("False")
  | PyVal.int i => (toString i).data
  | PyVal.float t => t
  | PyVal.str s => pstr ("'") ++ s ++ pstr ("'")
  | PyVal.list _ => pstr ("[...]")
  | PyVal.dict _ => pstr ("\x7b...\x7d")

/-- The synthesized entry routine's parameter list, from the argument spec. -/
def main_sig (args_spec : List (PyStr × ArgSpec)) : PyStr :=
  pyJoin (pstr (", "))
    (args_spec.map (fun p =>
      p.1 ++ (match p.2.default with
              | some v => pstr ("=") ++ render_atom v
              | none => [])))

/-- Modelled from the spec (§4.4 step 5): the banner's first line carries the
title, the algorithm label and the generation time, time last. -/
def banner_line (gen_time query algorithm : PyStr) : PyStr :=
  pstr ("# ") ++ query ++ pstr (" | ") ++ algorithm ++ pstr (" | Generated: ") ++ gen_time

/-- Modelled from the spec (§4.4 step 5): everything after the banner line —
the normalized import block, the helpers, the definitions, the entry routine
and the run-when-invoked-directly trailer. `param_aliases` is threaded through
as in the source call, the alias block itself already being part of the body. -/
def program_rest (imports helpers definitions : List PyStr) (main_body : PyStr)
    (args_spec : List (PyStr × ArgSpec)) (_param_aliases : List (PyStr × PyStr)) : PyStr :=
  pyJoin (pstr ("\n")) imports ++ pstr ("\n\n") ++
    pyJoin (pstr ("\n\n")) helpers ++ pstr ("\n\n") ++
    pyJoin (pstr ("\n")) definitions ++ pstr ("\n\ndef main(") ++
    main_sig args_spec ++ pstr ("):\n") ++ main_body ++
    pstr ("\n\nif __name__ == '__main__':\n    main()\n")

/-- Modelled from the spec (§4.4 step 5): `code_templates.create_complete_program`
(the module is imported by `code_assembler.py` but absent from the source tree). -/
def create_complete_program (gen_time query algorithm : PyStr)
    (imports helpers definitions : List PyStr) (main_body : PyStr)
    (args_spec : List (PyStr × ArgSpec)) (param_aliases : List (PyStr × PyStr)) : PyStr :=
  banner_line gen_time query algorithm ++ pstr ("\n") ++
    program_rest imports helpers definitions main_body args_spec param_aliases

/-- `assemble` (`src/core/code_assembler.py`, lines 25-92): collect imports,
normalize; merge helpers/definitions with conflict resolution; reload helper
implementations (ambient); clean definitions; synthesize the main body and the
argument spec; emit through the template; post-process typing imports. -/
def assemble (amb : Ambient) (memory : List CodeCell) (plan : PipelinePlanDict)
    (task_card : TaskCardDict) (param_map : ParamMapDict) : Except PyStr PyStr :=
  let code_cells := memory_export memory
  if code_cells.isEmpty then Except.error (pstr ("Memory中没有CodeCells，无法装配代码"))
  else
    let all_imports := (code_cells.map (fun c => c.imports)).flatten
    let merged := merge_code_sections_fixed code_cells
    let all_helpers := amb.load_helpers merged.1
    let normalized_imports := normalize_imports all_imports
    let all_definitions := clean_definitions amb.py_hash merged.2
    let main_body := generate_main_body code_cells plan param_map
    let args_spec := build_args_spec amb.py_hash param_map
    let complete := create_complete_program amb.gen_time
      (task_card.problem.getD (pstr ("Unknown query")))
      (pyUpper (task_card.algorithm.getD (pstr ("VQE"))))
      normalized_imports all_helpers all_definitions main_body args_spec
      param_map.aliases
    Except.ok (add_typing_imports complete)

/-- `DependsOn` is decided by scanning the needed resources. -/
instance (a b : ComponentCard) : Decidable (DependsOn a b) :=
  decidable_of_iff (∃ r ∈ a.needs, r ∈ b.provides) (by
    constructor
    · rintro ⟨r, hr, hp⟩; exact ⟨r, hr, hp⟩
    · rintro ⟨r, hr, hp⟩; exact ⟨r, hr, hp⟩)

instance (cards l : List ComponentCard) : Decidable (IsDepCycle cards l) := by
  unfold IsDepCycle
  infer_instance

/-! ## Claim-level reference definitions

Each of the following definitions renders a claim's own wording (not the
source), for comparison with the embedded code. -/

/-- The emitted symbol names of one conflict-resolution run: the function names
of the merged helper lines and the definition names of the merged definition
lines, as the resolver itself extracts and records them (empty extractions are
not names). -/
def emitted_symbol_names (cells : List CodeCell) : List PyStr :=
  let m := merge_code_sections_fixed cells
  (m.1.map extract_function_name).filter (fun n => n ≠ []) ++
    (m.2.map extract_definition_name).filter (fun n => n ≠ [])

/-- The four sorted buckets named by claim C6, over the deduplicated
whitespace-normalised entries, in fixed priority order. -/
def spec_buckets (l : List PyStr) : List (List PyStr) :=
  let d := deduplicate l
  [pySorted (d.filter (fun s => classify_import s = ImpGroup.stdlib)),
   pySorted (d.filter (fun s => classify_import s = ImpGroup.third_party)),
   pySorted (d.filter (fun s => classify_import s = ImpGroup.qiskit)),
   pySorted (d.filter (fun s => classify_import s = ImpGroup.loc))]

/-- Concatenation of blocks with a single blank entry between consecutive
blocks (used on the non-empty buckets). -/
def interBlank : List (List PyStr) → List PyStr
  | [] => []
  | [b] => b
  | b :: c :: bs => b ++ [([] : PyStr)] ++ interBlank (c :: bs)

/-- Claim C6's described normaliser output: the non-empty buckets concatenated
in priority order with a blank separator entry between any two of them. -/
def spec_normalize_claimed (l : List PyStr) : List PyStr :=
  interBlank ((spec_buckets l).filter (fun b => b ≠ []))

/-- The amended normaliser output: as claimed, plus the trailing blank entry
the code emits exactly when the third-party and domain-specific buckets are
both non-empty while the local bucket is empty. -/
def spec_normalize_amended (l : List PyStr) : List PyStr :=
  let d := deduplicate l
  spec_normalize_claimed l ++
    (if d.filter (fun s => classify_import s = ImpGroup.third_party) ≠ [] ∧
        d.filter (fun s => classify_import s = ImpGroup.qiskit) ≠ [] ∧
        d.filter (fun s => classify_import s = ImpGroup.loc) = [] then [([] : PyStr)]
     else [])

/-- Claim C9's described cell iteration: the cells matched from
`executionOrder`, falling back to the stored insertion order when the order
cannot be matched to the cells. -/
def cells_in_execution_order (cells : List CodeCell) (order : List PyStr) :
    List CodeCell :=
  let ordered := order.filterMap (fun nm => cells.find? (fun c => c.id = nm))
  if ordered.length = cells.length then ordered else cells

/-- Claim C9's described per-cell emission: a labeled comment naming the cell,
the non-blank statements of the invoke block re-indented to the body
indentation (lines already at body indentation kept), then a blank separator;
nothing for a blank invoke block. -/
def spec_cell_chunk (cell : CodeCell) : List PyStr :=
  if pyStrip cell.invoke = [] then []
  else
    (pstr ("    # ") ++ cell.id) ::
      (((splitAll (pstr ("\n")) (pyStrip cell.invoke)).filter
          (fun l => pyStrip l ≠ [])).map
        (fun l => if (pstr ("    ")).isPrefixOf l then l else pstr ("    ") ++ pyStrip l) ++
        [([] : PyStr)])

/-- Claim C9's described body: iterate `executionOrder` (with fallback), emit
each cell's chunk, then the assembler's closing output lines. -/
def spec_main_body_claimed (cells : List CodeCell) (plan : PipelinePlanDict) : PyStr :=
  let chunks := ((cells_in_execution_order cells plan.execution_order).map
    spec_cell_chunk).flatten
  pyJoin (pstr ("\n"))
    (if chunks ≠ [] then
      chunks ++ [pstr ("    # Output results"),
        pstr ("    print(f'Ground state energy: \x7benergy:.6f\x7d')"),
        pstr ("    return energy")]
    else chunks)

/-- The amended body description: the same per-cell emission, but iterating the
cells in stored insertion order, with `executionOrder` never consulted. -/
def spec_main_body_amended (cells : List CodeCell) : PyStr :=
  let chunks := (cells.map spec_cell_chunk).flatten
  pyJoin (pstr ("\n"))
    (if chunks ≠ [] then
      chunks ++ [pstr ("    # Output results"),
        pstr ("    print(f'Ground state energy: \x7benergy:.6f\x7d')"),
        pstr ("    return energy")]
    else chunks)

/-- First line of a text (the piece before the first newline). -/
def first_line (s : PyStr) : PyStr := takeBefore (pstr ("\n")) s

/-- Occurrence count of an exact string in a list (instance-free form). -/
def countEq (x : PyStr) (l : List PyStr) : Nat := l.countP (fun y => decide (y = x))

/-- The left-hand names of the assignment lines of a definitions list, through
the same first-`=` extraction `_clean_definitions` itself applies. -/
def cleaned_assignment_names (out : List PyStr) : List PyStr :=
  (out.filter (fun d => occursIn (pstr ("=")) d)).map
    (fun d => pyStrip (takeBefore (pstr ("=")) d))

/-- Concrete two-card input of spec test scenario 1: `A` provides `"x"`,
`B` needs `"x"` (used to witness the acyclic-resolution claim). -/
def cardW_A : ComponentCard := ⟨pstr ("A"), [], [], [], [pstr ("x")], [], [], []⟩

/-- Scenario 1's consumer card. -/
def cardW_B : ComponentCard := ⟨pstr ("B"), [], [], [pstr ("x")], [pstr ("y")], [], [], []⟩

/-- Card `A` of spec test scenario 4 extended: needs `"y"`, provides `"x"`. -/
def cardC_A : ComponentCard := ⟨pstr ("A"), [], [], [pstr ("y")], [pstr ("x")], [], [], []⟩

/-- Card `B` of spec test scenario 4 extended: needs `"x"`, provides `"y"`. -/
def cardC_B : ComponentCard := ⟨pstr ("B"), [], [], [pstr ("x")], [pstr ("y")], [], [], []⟩

/-- A bystander card outside the `A`/`B` cycle that needs `"x"` and provides
nothing: it can never be scheduled, yet belongs to no dependency cycle. -/
def cardC_C : ComponentCard := ⟨pstr ("C"), [], [], [pstr ("x")], [], [], [], []⟩

/-- A Python identifier character: alphanumeric or underscore. -/
def pyIsIdentChar (c : Char) : Bool := pyIsAlnumChar c || c = '_'

/-- Hypothesis vocabulary for the conflict-resolution analysis (C3): a plain
identifier as the renamer can handle it — non-empty, made of alphanumerics and
underscores, with no doubled underscore and no leading or trailing underscore
(so that a `__<cellId>` suffix can be split off again unambiguously). The
repository's own symbol names (`build_tfim_h`, `PAULI_X`, cell ids such as
`Circuit_TFIM_HEA`) all satisfy this. -/
def IdentName (n : PyStr) : Bool :=
  decide (n ≠ []) && n.all pyIsIdentChar && !occursIn (pstr ("__")) n &&
    !(pstr ("_")).isPrefixOf n && !(pstr ("_")).isSuffixOf n

/-- A helper line is a `def` signature `def <name>(<tail>` whose name is an
identifier and whose parenthesis follows the name immediately; the signature
tail after the `(` is arbitrary (defaulted parameters, spaces, quotes, anything). -/
def HelperLine (h : PyStr) : Prop :=
  ∃ n rest, h = pstr ("def ") ++ n ++ pstr ("(") ++ rest ∧ IdentName n = true

/-- A definition line `<name> = <value>` with an identifier name other than the
keyword `def` and a non-blank value; the value text is otherwise arbitrary. -/
def DefLine (d : PyStr) : Prop :=
  ∃ n rhs, d = n ++ pstr (" = ") ++ rhs ∧
    IdentName n = true ∧ n ≠ pstr ("def") ∧ ∃ c ∈ rhs, pyIsSpace c = false

/-! ## Theorems -/

theorem build_valid_pipeline_mem (valid : List PyStr) :
    ∀ (pipeline acc : List PyStr) (c : PyStr),
      c ∈ build_valid_pipeline valid acc pipeline → c ∈ acc ∨ c ∈ valid := by
  intro pipeline
  induction pipeline with
  | nil => intro acc c hc; exact Or.inl hc
  | cons x xs ih =>
      intro acc c hc
      simp only [build_valid_pipeline] at hc
      by_cases hx : x ∈ valid ∧ x ∉ acc
      · rw [if_pos hx] at hc
        rcases ih (acc ++ [x]) c hc with h | h
        · rcases List.mem_append.mp h with h' | h'
          · exact Or.inl h'
          · have hcx : c = x := List.mem_singleton.mp h'
            exact Or.inr (hcx ▸ hx.1)
        · exact Or.inr h
      · rw [if_neg hx] at hc
        exact ih acc c hc

theorem build_valid_pipeline_acc_mem (valid : List PyStr) :
    ∀ (pipeline acc : List PyStr) (c : PyStr),
      c ∈ acc → c ∈ build_valid_pipeline valid acc pipeline := by
  intro pipeline
  induction pipeline with
  | nil => intro acc c hc; exact hc
  | cons x xs ih =>
      intro acc c hc
      simp only [build_valid_pipeline]
      by_cases hx : x ∈ valid ∧ x ∉ acc
      · rw [if_pos hx]; exact ih _ _ (List.mem_append.mpr (Or.inl hc))
      · rw [if_neg hx]; exact ih _ _ hc

theorem build_valid_pipeline_nodup (valid : List PyStr) :
    ∀ (pipeline acc : List PyStr), acc.Nodup →
      (build_valid_pipeline valid acc pipeline).Nodup := by
  intro pipeline
  induction pipeline with
  | nil => intro acc h; exact h
  | cons x xs ih =>
      intro acc h
      simp only [build_valid_pipeline]
      by_cases hx : x ∈ valid ∧ x ∉ acc
      · rw [if_pos hx]
        exact ih _ (by simpa [List.nodup_append] using ⟨h, hx.2⟩)
      · rw [if_neg hx]; exact ih _ h

/-- C5: whenever the resolution parse succeeds, every input component name
appears exactly once in the produced execution order, and the set of names in
the order equals the input component-name set, with no additions and no
omissions (for inputs whose component names are unique, spec §3). -/
theorem c5_execution_order_exact_names (pipeline valid : List PyStr)
    (h : valid.Nodup) :
    (parse_pipeline_response pipeline valid).Nodup ∧
      ∀ c, c ∈ parse_pipeline_response pipeline valid ↔ c ∈ valid := by
  unfold parse_pipeline_response
  set vp := build_valid_pipeline valid [] pipeline with hvp
  constructor
  · refine List.Nodup.append (build_valid_pipeline_nodup valid pipeline [] List.nodup_nil)
      (h.filter _) ?_
    intro a ha hafil
    have hnot : a ∉ vp := by simpa using List.of_mem_filter hafil
    exact hnot ha
  · intro c
    constructor
    · intro hc
      rcases List.mem_append.mp hc with h' | h'
      · rcases build_valid_pipeline_mem valid pipeline [] c h' with h'' | h''
        · simp at h''
        · exact h''
      · exact List.mem_of_mem_filter h'
    · intro hc
      by_cases hin : c ∈ vp
      · exact List.mem_append.mpr (Or.inl hin)
      · exact List.mem_append.mpr (Or.inr (List.mem_filter.mpr ⟨hc, by simpa using hin⟩))

/-- Witness for `c5_execution_order_exact_names` at a concrete input. -/
theorem c5_witness :
    ([pstr ("A"), pstr ("B")] : List PyStr).Nodup ∧
      ((parse_pipeline_response [pstr ("B")] [pstr ("A"), pstr ("B")]).Nodup ∧
        ∀ c, c ∈ parse_pipeline_response [pstr ("B")] [pstr ("A"), pstr ("B")] ↔
          c ∈ [pstr ("A"), pstr ("B")]) :=
  ⟨by decide, c5_execution_order_exact_names [pstr ("B")] [pstr ("A"), pstr ("B")] (by decide)⟩

/-! ### Singleton-separator split lemmas -/

theorem splitFirst_singleton_none {c : Char} :
    ∀ {s : PyStr}, c ∉ s → splitFirst [c] s = none := by
  intro s
  induction s with
  | nil => intro _; simp [splitFirst, List.isPrefixOf]
  | cons a r ih =>
      intro h
      have hca : ¬ c = a := fun hc => h (hc ▸ List.mem_cons_self a r)
      have hpre : ([c]).isPrefixOf (a :: r) = false := by
        simp [List.isPrefixOf, hca]
      simp only [splitFirst, hpre, Bool.false_eq_true, if_false]
      rw [ih (fun hc => h (List.mem_cons_of_mem a hc))]
      rfl

theorem splitFirst_singleton_split {c : Char} :
    ∀ {a : PyStr} (b : PyStr), c ∉ a → splitFirst [c] (a ++ c :: b) = some (a, b) := by
  intro a
  induction a with
  | nil =>
      intro b _
      have hpre : ([c]).isPrefixOf (c :: b) = true := by simp [List.isPrefixOf]
      simp [splitFirst, hpre]
  | cons x xs ih =>
      intro b h
      have hcx : ¬ c = x := fun hc => h (hc ▸ List.mem_cons_self x xs)
      have hpre : ([c]).isPrefixOf (x :: (xs ++ c :: b)) = false := by
        simp [List.isPrefixOf, hcx]
      have hstep : (x :: xs) ++ c :: b = x :: (xs ++ c :: b) := rfl
      rw [hstep]
      simp only [splitFirst, hpre, Bool.false_eq_true, if_false,
        ih b (fun hc => h (List.mem_cons_of_mem x hc)), Option.map]

theorem splitFirst_singleton_fst_not_mem {c : Char} :
    ∀ {s a b : PyStr}, splitFirst [c] s = some (a, b) → c ∉ a := by
  intro s
  induction s with
  | nil =>
      intro a b h
      simp [splitFirst, List.isPrefixOf] at h
  | cons x r ih =>
      intro a b h
      by_cases hpre : ([c]).isPrefixOf (x :: r) = true
      · simp only [splitFirst, hpre, if_true] at h
        cases h
        simp
      · simp only [splitFirst, hpre, if_false] at h
        cases ha : splitFirst [c] r with
        | none => rw [ha] at h; simp [Option.map] at h
        | some p =>
            rw [ha] at h
            simp only [Option.map, Option.some.injEq] at h
            cases h
            have hcx : ¬ c = x := by
              intro hc
              exact hpre (by simp [List.isPrefixOf, hc])
            intro hmem
            rcases List.mem_cons.mp hmem with h' | h'
            · exact hcx h'
            · exact ih ha h'

theorem splitFirst_singleton_none_not_mem {c : Char} :
    ∀ {s : PyStr}, splitFirst [c] s = none → c ∉ s := by
  intro s
  induction s with
  | nil => intro _; simp
  | cons x r ih =>
      intro h
      by_cases hpre : ([c]).isPrefixOf (x :: r) = true
      · simp [splitFirst, hpre] at h
      · simp only [splitFirst, hpre, if_false] at h
        have hr : splitFirst [c] r = none := by
          cases ha : splitFirst [c] r with
          | none => rfl
          | some p => rw [ha] at h; simp [Option.map] at h
        have hcx : ¬ c = x := by
          intro hc
          exact hpre (by simp [List.isPrefixOf, hc])
        intro hmem
        rcases List.mem_cons.mp hmem with h' | h'
        · exact hcx h'
        · exact ih hr h'

theorem splitFirst_eq_some {sep : PyStr} :
    ∀ {s a b : PyStr}, splitFirst sep s = some (a, b) → s = a ++ sep ++ b := by
  intro s
  induction s with
  | nil =>
      intro a b h
      simp only [splitFirst] at h
      by_cases hpre : sep.isPrefixOf ([] : PyStr) = true
      · have hsep : sep = [] := by
          have := List.isPrefixOf_iff_prefix.mp hpre
          simpa using List.prefix_nil.mp this
        rw [if_pos hpre] at h
        cases h
        simp [hsep]
      · rw [if_neg hpre] at h; cases h
  | cons x r ih =>
      intro a b h
      simp only [splitFirst] at h
      by_cases hpre : sep.isPrefixOf (x :: r) = true
      · rw [if_pos hpre] at h
        cases h
        rcases List.isPrefixOf_iff_prefix.mp hpre with ⟨t, ht⟩
        have hlen : (x :: r).drop sep.length = t := by
          rw [← ht, List.drop_left' rfl]
        rw [hlen, List.nil_append, ← ht]
      · rw [if_neg hpre] at h
        cases ha : splitFirst sep r with
        | none => rw [ha] at h; simp [Option.map] at h
        | some p =>
            rw [ha] at h
            simp only [Option.map, Option.some.injEq] at h
            cases h
            have := ih ha
            simp [this]

theorem splitAllAux_join {c : Char} :
    ∀ (ls : List PyStr), ls ≠ [] → (∀ l ∈ ls, c ∉ l) →
      ∀ F, (pyJoin [c] ls).length ≤ F → splitAllAux [c] F (pyJoin [c] ls) = ls := by
  intro ls
  induction ls with
  | nil => intro h; exact absurd rfl h
  | cons x ys ih =>
      intro _ hfree F hF
      cases ys with
      | nil =>
          have hx : c ∉ x := hfree x (List.mem_cons_self x [])
          cases F with
          | zero => rfl
          | succ F' =>
              simp only [pyJoin, splitAllAux, splitFirst_singleton_none hx]
      | cons y rest =>
          have hx : c ∉ x := hfree x (List.mem_cons_self x _)
          have hjoin : pyJoin [c] (x :: y :: rest) = x ++ c :: pyJoin [c] (y :: rest) := by
            simp [pyJoin]
          rw [hjoin] at hF ⊢
          cases F with
          | zero =>
              exfalso
              simp only [List.length_append, List.length_cons] at hF
              omega
          | succ F' =>
              have hlen : (pyJoin [c] (y :: rest)).length ≤ F' := by
                simp only [List.length_append, List.length_cons] at hF
                omega
              simp only [splitAllAux, splitFirst_singleton_split _ hx]
              rw [ih (by simp) (fun l hl => hfree l (List.mem_cons_of_mem x hl)) F' hlen]

theorem splitAll_join {c : Char} (ls : List PyStr) (hne : ls ≠ [])
    (hfree : ∀ l ∈ ls, c ∉ l) : splitAll [c] (pyJoin [c] ls) = ls :=
  splitAllAux_join ls hne hfree _ le_rfl

theorem splitAllAux_pieces_free {c : Char} :
    ∀ (F : Nat) (s : PyStr), s.length ≤ F → ∀ p ∈ splitAllAux [c] F s, c ∉ p := by
  intro F
  induction F with
  | zero =>
      intro s hs p hp
      have hnil : s = [] := List.length_eq_zero.mp (Nat.le_zero.mp hs)
      subst hnil
      simp only [splitAllAux, List.mem_singleton] at hp
      subst hp
      simp
  | succ F' ih =>
      intro s hs p hp
      simp only [splitAllAux] at hp
      cases ha : splitFirst [c] s with
      | none =>
          rw [ha] at hp
          simp only [List.mem_singleton] at hp
          exact hp ▸ splitFirst_singleton_none_not_mem ha
      | some q =>
          rw [ha] at hp
          rcases List.mem_cons.mp hp with h' | h'
          · exact h' ▸ splitFirst_singleton_fst_not_mem ha
          · have hsq := splitFirst_eq_some ha
            have hq2 : q.2.length ≤ F' := by
              rw [hsq] at hs
              simp only [List.length_append, List.length_cons] at hs
              omega
            exact ih q.2 hq2 p h'

theorem splitAll_pieces_free {c : Char} (s : PyStr) :
    ∀ p ∈ splitAll [c] s, c ∉ p :=
  splitAllAux_pieces_free s.length s le_rfl

/-! ### C8: typing-import post-processing -/

theorem splitAll_ne_nil (sep s : PyStr) : splitAll sep s ≠ [] := by
  unfold splitAll
  cases hF : s.length with
  | zero => simp [splitAllAux]
  | succ F' =>
      simp only [splitAllAux]
      cases splitFirst sep s <;> simp

theorem countEq_append (x : PyStr) (l1 l2 : List PyStr) :
    countEq x (l1 ++ l2) = countEq x l1 + countEq x l2 := by
  unfold countEq
  exact List.countP_append _ _ _

theorem countEq_cons (x a : PyStr) (l : List PyStr) :
    countEq x (a :: l) = countEq x l + (if a = x then 1 else 0) := by
  unfold countEq
  rw [List.countP_cons]
  by_cases hax : a = x <;> simp [hax]

theorem countEq_one_of_nodup_mem {x : PyStr} :
    ∀ {l : List PyStr}, l.Nodup → x ∈ l → countEq x l = 1 := by
  intro l
  induction l with
  | nil => intro _ h; simp at h
  | cons a as ih =>
      intro hnd hx
      rw [countEq_cons]
      rcases List.mem_cons.mp hx with h' | h'
      · subst h'
        have hnot : x ∉ as := (List.nodup_cons.mp hnd).1
        have hz : countEq x as = 0 := by
          unfold countEq
          rw [List.countP_eq_zero]
          intro y hy
          simp only [decide_eq_true_eq]
          intro hyx
          exact hnot (hyx ▸ hy)
        simp [hz]
      · have ha : a ≠ x := by
          intro hax
          exact (List.nodup_cons.mp hnd).1 (hax ▸ h')
        rw [ih (List.nodup_cons.mp hnd).2 h']
        simp [ha]

theorem countEq_perm {l1 l2 : List PyStr} (h : l1.Perm l2) (x : PyStr) :
    countEq x l1 = countEq x l2 :=
  h.countP_eq _

theorem count_pyInsert (n : Nat) (a x : PyStr) (l : List PyStr) :
    countEq x (pyInsert n a l) = countEq x l + (if a = x then 1 else 0) := by
  unfold pyInsert
  rw [countEq_append, countEq_cons]
  conv_rhs => rw [← List.take_append_drop n l, countEq_append]
  omega

theorem mem_pyInsert {n : Nat} {a x : PyStr} {l : List PyStr}
    (h : x ∈ pyInsert n a l) : x ∈ l ∨ x = a := by
  unfold pyInsert at h
  rcases List.mem_append.mp h with h' | h'
  · exact Or.inl (List.mem_of_mem_take h')
  · rcases List.mem_cons.mp h' with h'' | h''
    · exact Or.inr h''
    · exact Or.inl (List.mem_of_mem_drop h'')

theorem pyInsert_ne_nil (n : Nat) (a : PyStr) (l : List PyStr) :
    pyInsert n a l ≠ [] := by
  unfold pyInsert
  intro h
  have := congrArg List.length h
  simp at this

theorem insert_typing_loop_count (x : PyStr) :
    ∀ (imps : List PyStr) (st : List PyStr × Nat),
      countEq x (insert_typing_loop st imps).1 = countEq x st.1 + countEq x imps := by
  intro imps
  induction imps with
  | nil => intro st; simp [insert_typing_loop, countEq]
  | cons i is ih =>
      intro st
      have hstep : insert_typing_loop st (i :: is) =
          insert_typing_loop (pyInsert (st.2 + 1) i st.1, st.2 + 1) is := rfl
      rw [hstep, ih, count_pyInsert, countEq_cons]
      omega

theorem insert_typing_loop_mem :
    ∀ (imps : List PyStr) (st : List PyStr × Nat) (y : PyStr),
      y ∈ (insert_typing_loop st imps).1 → y ∈ st.1 ∨ y ∈ imps := by
  intro imps
  induction imps with
  | nil => intro st y h; exact Or.inl h
  | cons i is ih =>
      intro st y h
      have hstep : insert_typing_loop st (i :: is) =
          insert_typing_loop (pyInsert (st.2 + 1) i st.1, st.2 + 1) is := rfl
      rw [hstep] at h
      rcases ih _ y h with h' | h'
      · rcases mem_pyInsert h' with h'' | h''
        · exact Or.inl h''
        · exact Or.inr (h'' ▸ List.mem_cons_self i is)
      · exact Or.inr (List.mem_cons_of_mem i h')

theorem insert_typing_loop_ne_nil :
    ∀ (imps : List PyStr) (st : List PyStr × Nat), st.1 ≠ [] →
      (insert_typing_loop st imps).1 ≠ [] := by
  intro imps
  induction imps with
  | nil => intro st h; exact h
  | cons i is ih =>
      intro st h
      have hstep : insert_typing_loop st (i :: is) =
          insert_typing_loop (pyInsert (st.2 + 1) i st.1, st.2 + 1) is := rfl
      rw [hstep]
      exact ih _ (pyInsert_ne_nil _ _ _)

theorem needed_typing_imports_sub (code : PyStr) :
    ∀ x ∈ needed_typing_imports code, x ∈ typing_table.map (fun p => p.2) := by
  intro x hx
  unfold needed_typing_imports at hx
  rcases List.mem_map.mp hx with ⟨p, hp, hpx⟩
  exact List.mem_map.mpr ⟨p, List.mem_of_mem_filter hp, hpx⟩

theorem needed_typing_imports_nodup (code : PyStr) :
    (needed_typing_imports code).Nodup := by
  unfold needed_typing_imports
  have hsub : List.Sublist
      ((typing_table.filter
        (fun p => occursIn (pstr (": ") ++ p.1) code ||
          occursIn (pstr ("-> ") ++ p.1) code)).map (fun p => p.2))
      (typing_table.map (fun p => p.2)) :=
    (List.filter_sublist _).map _
  exact (show (typing_table.map (fun p => p.2)).Nodup by decide).sublist hsub

theorem needed_typing_imports_newline_free (code : PyStr) :
    ∀ x ∈ needed_typing_imports code, ('\n') ∉ x := by
  intro x hx
  have hmem := needed_typing_imports_sub code x hx
  have hall : ∀ y ∈ typing_table.map (fun p => p.2), ('\n') ∉ y := by decide
  exact hall x hmem

/-- C8 counterexample: on a text that already contains `from typing import
Dict` and uses the `Dict` annotation, the post-processing step inserts a second
copy of the very same import line, so the type-import line is not present
exactly once afterwards and the insertion is not idempotent. -/
theorem c8_counterexample :
    add_typing_imports (pstr ("from typing import Dict\nx: Dict = 1")) =
      pstr ("from typing import Dict\nfrom typing import Dict\nx: Dict = 1") ∧
    countEq (pstr ("from typing import Dict"))
      (splitAll (pstr ("\n"))
        (add_typing_imports (pstr ("from typing import Dict\nx: Dict = 1")))) = 2 := by
  constructor
  · decide
  · decide

/-- C8 amended: for every emitted source text and every generic-type token the
scan detects, the post-processing step inserts the corresponding foundational
type-import line exactly once per run, after the last import line — it never
checks whether the line is already present, so each run adds exactly one more
copy of that line (in particular the step is not idempotent and a
pre-existing type-import line is duplicated). -/
theorem c8_insertion_adds_one_copy (code imp : PyStr)
    (h : imp ∈ needed_typing_imports code) :
    countEq imp (splitAll (pstr ("\n")) (add_typing_imports code))
      = countEq imp (splitAll (pstr ("\n")) code) + 1 := by
  have hne : needed_typing_imports code ≠ [] := List.ne_nil_of_mem h
  unfold add_typing_imports
  rw [if_neg hne]
  have hnl : pstr ("\n") = [('\n')] := rfl
  set lines := splitAll (pstr ("\n")) code with hlines
  set sorted := pySorted (needed_typing_imports code) with hsorted
  set final := insert_typing_loop (lines, last_import_idx lines) sorted with hfinal
  have hperm : sorted.Perm (needed_typing_imports code) :=
    List.perm_insertionSort _ _
  have hmemsorted : ∀ y ∈ sorted, y ∈ needed_typing_imports code := fun y hy =>
    hperm.mem_iff.mp hy
  have hfree : ∀ p ∈ final.1, ('\n') ∉ p := by
    intro p hp
    rcases insert_typing_loop_mem sorted (lines, last_import_idx lines) p hp with h' | h'
    · rw [hnl] at hlines
      exact splitAll_pieces_free code p (hlines ▸ h')
    · exact needed_typing_imports_newline_free code p (hmemsorted p h')
  have hnenil : final.1 ≠ [] := by
    apply insert_typing_loop_ne_nil
    exact splitAll_ne_nil _ _
  have hround : splitAll (pstr ("\n")) (pyJoin (pstr ("\n")) final.1) = final.1 := by
    rw [hnl]
    exact splitAll_join final.1 hnenil hfree
  rw [hround]
  have hcount := insert_typing_loop_count imp sorted (lines, last_import_idx lines)
  rw [← hfinal] at hcount
  rw [hcount]
  have hc1 : countEq imp sorted = countEq imp (needed_typing_imports code) :=
    countEq_perm hperm imp
  rw [hc1, countEq_one_of_nodup_mem (needed_typing_imports_nodup code) h]

/-- Witness for `c8_insertion_adds_one_copy` at a concrete input. -/
theorem c8_witness :
    pstr ("from typing import List") ∈ needed_typing_imports (pstr ("y: List = []")) ∧
      countEq (pstr ("from typing import List"))
          (splitAll (pstr ("\n")) (add_typing_imports (pstr ("y: List = []"))))
        = countEq (pstr ("from typing import List"))
            (splitAll (pstr ("\n")) (pstr ("y: List = []"))) + 1 :=
  ⟨by decide, c8_insertion_adds_one_copy (pstr ("y: List = []"))
    (pstr ("from typing import List")) (by decide)⟩

/-! ### C9: main-body synthesis order -/

/-- C9 counterexample: with cells stored as `[B, A]` and the plan's
`executionOrder = [A, B]` (every order entry matching a cell, all invoke blocks
non-empty), the synthesized body iterates the stored order and emits the `B`
chunk first, while the claim's iteration over `executionOrder` would emit the
`A` chunk first. -/
theorem c9_counterexample :
    generate_main_body
        [⟨pstr ("B"), [], [], [], pstr ("b()"), []⟩,
         ⟨pstr ("A"), [], [], [], pstr ("a()"), []⟩]
        ⟨[pstr ("A"), pstr ("B")], [], []⟩ ⟨Option.none, [], [], []⟩
      ≠ spec_main_body_claimed
          [⟨pstr ("B"), [], [], [], pstr ("b()"), []⟩,
           ⟨pstr ("A"), [], [], [], pstr ("a()"), []⟩]
          ⟨[pstr ("A"), pstr ("B")], [], []⟩ := by
  decide

/-- C9 amended: the synthesized entry-routine body iterates the cells in their
stored insertion order — the plan's `executionOrder` is never consulted — and
for each cell with a non-blank invoke block emits a labeled comment naming the
cell, the block's non-blank statements re-indented to the body indentation
(statements already at body indentation are kept as they are), and a blank
separator line; cells with blank invoke blocks contribute nothing (stated for
runs without parameter aliases, whose alias block precedes the cell chunks). -/
theorem c9_main_body_stored_order (cells : List CodeCell) (plan : PipelinePlanDict)
    (pm : ParamMapDict) (h : pm.aliases = []) :
    generate_main_body cells plan pm = spec_main_body_amended cells := by
  obtain ⟨v, np, al, df⟩ := pm
  simp only at h
  subst h
  rfl

/-- Witness for `c9_main_body_stored_order` at a concrete input. -/
theorem c9_witness :
    (⟨Option.none, [], [], []⟩ : ParamMapDict).aliases = [] ∧
      generate_main_body
          [⟨pstr ("A"), [], [], [], pstr ("a()"), []⟩]
          ⟨[], [], []⟩ ⟨Option.none, [], [], []⟩
        = spec_main_body_amended [⟨pstr ("A"), [], [], [], pstr ("a()"), []⟩] :=
  ⟨rfl, c9_main_body_stored_order _ _ _ rfl⟩

/-! ### C10: definition cleaning -/

theorem dropWhile_of_all_neg {p : Char → Bool} :
    ∀ {l : PyStr}, (∀ c ∈ l, p c = false) → l.dropWhile p = l := by
  intro l
  induction l with
  | nil => intro _; rfl
  | cons c r ih =>
      intro h
      rw [List.dropWhile_cons]
      simp only [h c (List.mem_cons_self c r), Bool.false_eq_true, if_false]

theorem natDigitsAux_chars :
    ∀ (fuel n : Nat), ∀ c ∈ natDigitsAux fuel n, pyIsAlnumChar c = true := by
  intro fuel
  induction fuel with
  | zero => intro n c hc; simp [natDigitsAux] at hc
  | succ f ih =>
      intro n c hc
      simp only [natDigitsAux] at hc
      by_cases hn : n < 10
      · rw [if_pos hn] at hc
        simp only [List.mem_singleton] at hc
        subst hc
        interval_cases n <;> decide
      · rw [if_neg hn] at hc
        rcases List.mem_append.mp hc with h' | h'
        · exact ih _ c h'
        · simp only [List.mem_singleton] at h'
          subst h'
          have hr : n % 10 < 10 := Nat.mod_lt _ (by omega)
          set r := n % 10 with hrr
          interval_cases r <;> decide

theorem clean_param_name_cases (py_hash : PyStr → Nat) (n : PyStr) :
    clean_param_name py_hash n
      = n.map (fun c => if pyIsAlnumChar c || c = '_' then c else '_')
    ∨ clean_param_name py_hash n
      = pstr ("param_") ++ n.map (fun c => if pyIsAlnumChar c || c = '_' then c else '_')
    ∨ clean_param_name py_hash n = pstr ("param_") ++ natDigits (py_hash n % 1000) := by
  unfold clean_param_name
  dsimp only
  set M := n.map (fun c => if pyIsAlnumChar c || c = '_' then c else '_') with hM
  by_cases h2 : M ≠ [] ∧ (M.headD (' ')).isDigit = true
  · rw [if_pos h2]
    by_cases h3 : pstr ("param_") ++ M = [] ∨ pstr ("param_") ++ M ∈ reserved_param_words
    · rw [if_pos h3]; exact Or.inr (Or.inr rfl)
    · rw [if_neg h3]; exact Or.inr (Or.inl rfl)
  · rw [if_neg h2]
    by_cases h3 : M = [] ∨ M ∈ reserved_param_words
    · rw [if_pos h3]; exact Or.inr (Or.inr rfl)
    · rw [if_neg h3]; exact Or.inl rfl

theorem clean_param_name_chars (py_hash : PyStr → Nat) (n : PyStr) :
    ∀ c ∈ clean_param_name py_hash n, pyIsAlnumChar c = true ∨ c = '_' := by
  intro c hc
  have hmap : ∀ x ∈ n.map (fun c => if pyIsAlnumChar c || c = '_' then c else '_'),
      pyIsAlnumChar x = true ∨ x = '_' := by
    intro x hx
    rcases List.mem_map.mp hx with ⟨a, _, ha⟩
    by_cases h' : (pyIsAlnumChar a || a = '_') = true
    · rw [if_pos h'] at ha
      subst ha
      rcases Bool.or_eq_true_iff.mp h' with h'' | h''
      · exact Or.inl h''
      · exact Or.inr (by simpa using h'')
    · rw [if_neg h'] at ha
      exact Or.inr ha.symm
  have hpw : ∀ x ∈ pstr ("param_"), pyIsAlnumChar x = true ∨ x = '_' := by decide
  rcases clean_param_name_cases py_hash n with h | h | h
  · rw [h] at hc
    exact hmap c hc
  · rw [h] at hc
    rcases List.mem_append.mp hc with h' | h'
    · exact hpw c h'
    · exact hmap c h'
  · rw [h] at hc
    rcases List.mem_append.mp hc with h' | h'
    · exact hpw c h'
    · exact Or.inl (natDigitsAux_chars _ _ c h')

theorem cleaned_lhs_chars (py_hash : PyStr → Nat) (v : PyStr) :
    ∀ c ∈ cleaned_lhs py_hash v, pyIsAlnumChar c = true ∨ c = '_' := by
  intro c hc
  unfold cleaned_lhs at hc
  by_cases h' : occursIn (pstr ("__")) v = true
  · rw [if_pos h'] at hc; exact clean_param_name_chars _ _ c hc
  · rw [if_neg h'] at hc; exact clean_param_name_chars _ _ c hc

theorem space_char_not_ident {c : Char} (h : pyIsSpace c = true) :
    pyIsAlnumChar c = false ∧ c ≠ '_' := by
  unfold pyIsSpace at h
  rcases Bool.or_eq_true_iff.mp h with h1 | h1
  rotate_left
  · have : c = '\x0c' := by simpa using h1
    subst this; exact ⟨by decide, by decide⟩
  rcases Bool.or_eq_true_iff.mp h1 with h2 | h2
  rotate_left
  · have : c = '\x0b' := by simpa using h2
    subst this; exact ⟨by decide, by decide⟩
  rcases Bool.or_eq_true_iff.mp h2 with h3 | h3
  rotate_left
  · have : c = '\r' := by simpa using h3
    subst this; exact ⟨by decide, by decide⟩
  rcases Bool.or_eq_true_iff.mp h3 with h4 | h4
  rotate_left
  · have : c = '\n' := by simpa using h4
    subst this; exact ⟨by decide, by decide⟩
  rcases Bool.or_eq_true_iff.mp h4 with h5 | h5
  · have : c = ' ' := by simpa using h5
    subst this; exact ⟨by decide, by decide⟩
  · have : c = '\t' := by simpa using h5
    subst this; exact ⟨by decide, by decide⟩

theorem cleaned_lhs_no_eq_no_space (py_hash : PyStr → Nat) (v : PyStr) :
    ('=') ∉ cleaned_lhs py_hash v ∧ ∀ c ∈ cleaned_lhs py_hash v, pyIsSpace c = false := by
  constructor
  · intro h
    rcases cleaned_lhs_chars py_hash v _ h with h' | h'
    · exact absurd h' (by decide)
    · exact absurd h' (by decide)
  · intro c hc
    cases hps : pyIsSpace c with
    | false => rfl
    | true =>
        exfalso
        rcases space_char_not_ident hps with ⟨ha, hu⟩
        rcases cleaned_lhs_chars py_hash v c hc with h' | h'
        · rw [ha] at h'; exact Bool.false_ne_true h'
        · exact hu h'

theorem pyStrip_append_space {x : PyStr} (h : ∀ c ∈ x, pyIsSpace c = false) :
    pyStrip (x ++ [(' ')]) = x := by
  cases x with
  | nil => decide
  | cons c r =>
      have hL : pyStripLeft ((c :: r) ++ [(' ')]) = (c :: r) ++ [(' ')] := by
        unfold pyStripLeft
        rw [List.cons_append, List.dropWhile_cons]
        simp only [h c (List.mem_cons_self c r), Bool.false_eq_true, if_false]
      have hR : pyStripRight ((c :: r) ++ [(' ')]) = c :: r := by
        unfold pyStripRight
        have hrev : ((c :: r) ++ [(' ')]).reverse = (' ') :: (c :: r).reverse := by
          rw [List.reverse_append]; rfl
        rw [hrev, List.dropWhile_cons]
        have hsp : pyIsSpace (' ') = true := by decide
        simp only [hsp, if_true]
        rw [dropWhile_of_all_neg
          (fun d hd => h d (List.mem_reverse.mp hd))]
        exact List.reverse_reverse _
      unfold pyStrip
      rw [hL, hR]

theorem occursIn_of_prefix {sub s : PyStr} (h : sub.isPrefixOf s = true) :
    occursIn sub s = true := by
  cases s with
  | nil => simpa [occursIn] using h
  | cons c r => simp [occursIn, h]

theorem occursIn_cons_of (sub : PyStr) (x : Char) {s : PyStr}
    (h : occursIn sub s = true) : occursIn sub (x :: s) = true := by
  simp [occursIn, h]

theorem occursIn_intro (sub a b : PyStr) : occursIn sub (a ++ sub ++ b) = true := by
  induction a with
  | nil =>
      apply occursIn_of_prefix
      rw [List.isPrefixOf_iff_prefix]
      exact ⟨b, by simp⟩
  | cons x xs ih =>
      have hcons : (x :: xs) ++ sub ++ b = x :: (xs ++ sub ++ b) := by simp
      rw [hcons]
      exact occursIn_cons_of _ _ ih

theorem extract_assignment_name (py_hash : PyStr → Nat) (v rhs : PyStr) :
    occursIn (pstr ("=")) (cleaned_lhs py_hash v ++ pstr (" = ") ++ rhs) = true ∧
      pyStrip (takeBefore (pstr ("="))
        (cleaned_lhs py_hash v ++ pstr (" = ") ++ rhs)) = cleaned_lhs py_hash v := by
  set x := cleaned_lhs py_hash v with hx
  have hshape : x ++ pstr (" = ") ++ rhs = (x ++ [(' ')]) ++ (('=') :: ((' ') :: rhs)) := by
    simp [pstr]
  constructor
  · rw [hshape]
    have : (x ++ [(' ')]) ++ ('=') :: ((' ') :: rhs)
        = (x ++ [(' ')]) ++ pstr ("=") ++ ((' ') :: rhs) := by simp [pstr]
    rw [this]
    exact occursIn_intro _ _ _
  · have hne : ('=') ∉ x ++ [(' ')] := by
      intro hmem
      rcases List.mem_append.mp hmem with h' | h'
      · exact (cleaned_lhs_no_eq_no_space py_hash v).1 h'
      · simp at h'
    have hsf : splitFirst (pstr ("=")) (x ++ pstr (" = ") ++ rhs)
        = some (x ++ [(' ')], (' ') :: rhs) := by
      rw [hshape]
      exact splitFirst_singleton_split _ hne
    unfold takeBefore
    rw [hsf]
    exact pyStrip_append_space (cleaned_lhs_no_eq_no_space py_hash v).2

theorem cleaned_assignment_names_cons_pos {d : PyStr} (l : List PyStr)
    (h : occursIn (pstr ("=")) d = true) :
    cleaned_assignment_names (d :: l)
      = pyStrip (takeBefore (pstr ("=")) d) :: cleaned_assignment_names l := by
  unfold cleaned_assignment_names
  rw [List.filter_cons, if_pos (by simpa using h)]
  rfl

theorem cleaned_assignment_names_cons_neg {d : PyStr} (l : List PyStr)
    (h : occursIn (pstr ("=")) d = false) :
    cleaned_assignment_names (d :: l) = cleaned_assignment_names l := by
  unfold cleaned_assignment_names
  rw [List.filter_cons, if_neg (by simp [h])]

theorem clean_defs_aux_blank {py_hash : PyStr → Nat} {seen : List PyStr} {d : PyStr}
    (ds : List PyStr) (h : pyStrip d = []) :
    clean_defs_aux py_hash seen (d :: ds) = clean_defs_aux py_hash seen ds := by
  simp only [clean_defs_aux, h]
  rfl

theorem clean_defs_aux_keep {py_hash : PyStr → Nat} {seen : List PyStr} {d : PyStr}
    {p : PyStr × PyStr} (ds : List PyStr) (h1 : pyStrip d ≠ [])
    (h2 : occursIn (pstr ("=")) d = true) (hsp : splitFirst (pstr ("=")) d = some p)
    (h3 : cleaned_lhs py_hash (pyStrip p.1) ∉ seen) :
    clean_defs_aux py_hash seen (d :: ds)
      = (cleaned_lhs py_hash (pyStrip p.1) ++ pstr (" = ") ++ pyStrip p.2) ::
          clean_defs_aux py_hash (cleaned_lhs py_hash (pyStrip p.1) :: seen) ds := by
  simp only [clean_defs_aux]
  rw [if_neg (by simpa using h1), if_pos (by simpa using h2), hsp]
  simp only [if_pos h3]

theorem clean_defs_aux_skip {py_hash : PyStr → Nat} {seen : List PyStr} {d : PyStr}
    {p : PyStr × PyStr} (ds : List PyStr) (h1 : pyStrip d ≠ [])
    (h2 : occursIn (pstr ("=")) d = true) (hsp : splitFirst (pstr ("=")) d = some p)
    (h3 : cleaned_lhs py_hash (pyStrip p.1) ∈ seen) :
    clean_defs_aux py_hash seen (d :: ds) = clean_defs_aux py_hash seen ds := by
  simp only [clean_defs_aux]
  rw [if_neg (by simpa using h1), if_pos (by simpa using h2), hsp]
  simp only [if_neg (by simpa using h3 : ¬ cleaned_lhs py_hash (pyStrip p.1) ∉ seen)]

theorem clean_defs_aux_none {py_hash : PyStr → Nat} {seen : List PyStr} {d : PyStr}
    (ds : List PyStr) (h1 : pyStrip d ≠ [])
    (h2 : occursIn (pstr ("=")) d = true) (hsp : splitFirst (pstr ("=")) d = none) :
    clean_defs_aux py_hash seen (d :: ds) = clean_defs_aux py_hash seen ds := by
  simp only [clean_defs_aux]
  rw [if_neg (by simpa using h1), if_pos (by simpa using h2), hsp]

theorem clean_defs_aux_verbatim {py_hash : PyStr → Nat} {seen : List PyStr} {d : PyStr}
    (ds : List PyStr) (h1 : pyStrip d ≠ [])
    (h2 : occursIn (pstr ("=")) d = false) :
    clean_defs_aux py_hash seen (d :: ds) = d :: clean_defs_aux py_hash seen ds := by
  simp only [clean_defs_aux]
  rw [if_neg (by simpa using h1), if_neg (by simp [h2])]

theorem clean_defs_aux_spec (py_hash : PyStr → Nat) :
    ∀ (defs seen : List PyStr),
      (cleaned_assignment_names (clean_defs_aux py_hash seen defs)).Nodup ∧
      (∀ n ∈ cleaned_assignment_names (clean_defs_aux py_hash seen defs), n ∉ seen) ∧
      (∀ d ∈ clean_defs_aux py_hash seen defs, occursIn (pstr ("=")) d = true →
        ∃ src p, src ∈ defs ∧ splitFirst (pstr ("=")) src = some p ∧
          d = cleaned_lhs py_hash (pyStrip p.1) ++ pstr (" = ") ++ pyStrip p.2) := by
  intro defs
  induction defs with
  | nil =>
      intro seen
      refine ⟨by simp [clean_defs_aux, cleaned_assignment_names], ?_, ?_⟩
      · intro n hn
        simp [clean_defs_aux, cleaned_assignment_names] at hn
      · intro d hd
        simp [clean_defs_aux] at hd
  | cons d ds ih =>
      intro seen
      by_cases hb : pyStrip d = []
      · rw [clean_defs_aux_blank ds hb]
        refine ⟨(ih seen).1, (ih seen).2.1, ?_⟩
        intro x hx he
        rcases (ih seen).2.2 x hx he with ⟨src, p, hsrc, hp, hx'⟩
        exact ⟨src, p, List.mem_cons_of_mem d hsrc, hp, hx'⟩
      · by_cases he : occursIn (pstr ("=")) d = true
        · cases hsp : splitFirst (pstr ("=")) d with
          | none =>
              rw [clean_defs_aux_none ds hb he hsp]
              refine ⟨(ih seen).1, (ih seen).2.1, ?_⟩
              intro x hx hex
              rcases (ih seen).2.2 x hx hex with ⟨src, p, hsrc, hp, hx'⟩
              exact ⟨src, p, List.mem_cons_of_mem d hsrc, hp, hx'⟩
          | some p =>
              by_cases hmem : cleaned_lhs py_hash (pyStrip p.1) ∈ seen
              · rw [clean_defs_aux_skip ds hb he hsp hmem]
                refine ⟨(ih seen).1, (ih seen).2.1, ?_⟩
                intro x hx hex
                rcases (ih seen).2.2 x hx hex with ⟨src, q, hsrc, hq, hx'⟩
                exact ⟨src, q, List.mem_cons_of_mem d hsrc, hq, hx'⟩
              · rw [clean_defs_aux_keep ds hb he hsp hmem]
                have hext := extract_assignment_name py_hash (pyStrip p.1) (pyStrip p.2)
                have hnames : cleaned_assignment_names
                    ((cleaned_lhs py_hash (pyStrip p.1) ++ pstr (" = ") ++ pyStrip p.2) ::
                      clean_defs_aux py_hash (cleaned_lhs py_hash (pyStrip p.1) :: seen) ds)
                    = cleaned_lhs py_hash (pyStrip p.1) ::
                        cleaned_assignment_names
                          (clean_defs_aux py_hash
                            (cleaned_lhs py_hash (pyStrip p.1) :: seen) ds) := by
                  rw [cleaned_assignment_names_cons_pos _ hext.1, hext.2]
                set seen' := cleaned_lhs py_hash (pyStrip p.1) :: seen with hseen'
                refine ⟨?_, ?_, ?_⟩
                · rw [hnames]
                  refine List.nodup_cons.mpr ⟨?_, (ih seen').1⟩
                  intro hbad
                  exact (ih seen').2.1 _ hbad (List.mem_cons_self _ _)
                · rw [hnames]
                  intro n hn
                  rcases List.mem_cons.mp hn with h' | h'
                  · exact h' ▸ hmem
                  · intro hns
                    exact (ih seen').2.1 n h' (List.mem_cons_of_mem _ hns)
                · intro x hx hex
                  rcases List.mem_cons.mp hx with h' | h'
                  · exact ⟨d, p, List.mem_cons_self d ds, hsp, h'⟩
                  · rcases (ih seen').2.2 x h' hex with ⟨src, q, hsrc, hq, hx'⟩
                    exact ⟨src, q, List.mem_cons_of_mem d hsrc, hq, hx'⟩
        · have he' : occursIn (pstr ("=")) d = false := by
            cases h' : occursIn (pstr ("=")) d with
            | false => rfl
            | true => exact absurd h' he
          rw [clean_defs_aux_verbatim ds hb he']
          refine ⟨?_, ?_, ?_⟩
          · rw [cleaned_assignment_names_cons_neg _ he']
            exact (ih seen).1
          · rw [cleaned_assignment_names_cons_neg _ he']
            exact (ih seen).2.1
          · intro x hx hex
            rcases List.mem_cons.mp hx with h' | h'
            · subst h'
              rw [hex] at he'
              exact absurd he' (by simp)
            · rcases (ih seen).2.2 x h' hex with ⟨src, q, hsrc, hq, hx'⟩
              exact ⟨src, q, List.mem_cons_of_mem d hsrc, hq, hx'⟩

/-- C10: the assembler's definition-cleaning pass, applied after symbol
conflict resolution, rewrites each assignment's left-hand name by truncating it
at the first `__` and sanitizing the base name (`cleaned_lhs`), emits the
assignment as that cleaned base name `= stripped right-hand side` — so a
definition renamed with a `__<cellId>` suffix surfaces under its original base
name — and drops any later assignment whose cleaned name equals that of an
earlier kept one: at most one definition per cleaned base name survives. -/
theorem c10_clean_definitions_base_names (py_hash : PyStr → Nat) (defs : List PyStr) :
    (cleaned_assignment_names (clean_definitions py_hash defs)).Nodup ∧
      ∀ d ∈ clean_definitions py_hash defs, occursIn (pstr ("=")) d = true →
        ∃ src p, src ∈ defs ∧ splitFirst (pstr ("=")) src = some p ∧
          d = cleaned_lhs py_hash (pyStrip p.1) ++ pstr (" = ") ++ pyStrip p.2 :=
  ⟨(clean_defs_aux_spec py_hash defs []).1, (clean_defs_aux_spec py_hash defs []).2.2⟩

/-- Witness for `c10_clean_definitions_base_names` at a concrete input: the
resolver-renamed definition `n__Circuit_TFIM_HEA = 8` is emitted as `n = 8`. -/
theorem c10_witness :
    (cleaned_assignment_names (clean_definitions (fun _ => 0)
        [pstr ("X = 1"), pstr ("X__b = 2"), pstr ("n__Circuit_TFIM_HEA = 8")])).Nodup ∧
      ∃ src p, src ∈ [pstr ("X = 1"), pstr ("X__b = 2"), pstr ("n__Circuit_TFIM_HEA = 8")] ∧
        splitFirst (pstr ("=")) src = some p ∧
        pstr ("n = 8") = cleaned_lhs (fun _ => 0) (pyStrip p.1) ++ pstr (" = ") ++ pyStrip p.2 :=
  ⟨(c10_clean_definitions_base_names (fun _ => 0)
      [pstr ("X = 1"), pstr ("X__b = 2"), pstr ("n__Circuit_TFIM_HEA = 8")]).1,
   (c10_clean_definitions_base_names (fun _ => 0)
      [pstr ("X = 1"), pstr ("X__b = 2"), pstr ("n__Circuit_TFIM_HEA = 8")]).2
      (pstr ("n = 8")) (by decide) (by decide)⟩

/-! ### Whitespace-normalisation lemmas (C6, C7) -/

theorem wordsAux_facts :
    ∀ (s cur : PyStr), (∀ c ∈ cur, pyIsSpace c = false) →
      ∀ w ∈ wordsAux cur s, w ≠ [] ∧ ∀ c ∈ w, pyIsSpace c = false := by
  intro s
  induction s with
  | nil =>
      intro cur hcur w hw
      simp only [wordsAux] at hw
      by_cases hc : cur = []
      · rw [if_pos hc] at hw; simp at hw
      · rw [if_neg hc] at hw
        simp only [List.mem_singleton] at hw
        subst hw
        exact ⟨by simpa using hc, fun c hcmem => hcur c (List.mem_reverse.mp hcmem)⟩
  | cons c rest ih =>
      intro cur hcur w hw
      simp only [wordsAux] at hw
      by_cases hsp : pyIsSpace c = true
      · rw [if_pos hsp] at hw
        by_cases hc : cur = []
        · rw [if_pos hc] at hw
          exact ih [] (by simp) w hw
        · rw [if_neg hc] at hw
          rcases List.mem_cons.mp hw with h' | h'
          · subst h'
            exact ⟨by simpa using hc, fun x hx => hcur x (List.mem_reverse.mp hx)⟩
          · exact ih [] (by simp) w h'
      · rw [if_neg hsp] at hw
        refine ih (c :: cur) ?_ w hw
        intro x hx
        rcases List.mem_cons.mp hx with h' | h'
        · subst h'; simpa using hsp
        · exact hcur x h'

theorem pyWords_facts (s : PyStr) :
    ∀ w ∈ pyWords s, w ≠ [] ∧ ∀ c ∈ w, pyIsSpace c = false :=
  wordsAux_facts s [] (by simp)

theorem wordsAux_run :
    ∀ (w : PyStr), (∀ c ∈ w, pyIsSpace c = false) →
      ∀ (cur s : PyStr), wordsAux cur (w ++ s) = wordsAux (w.reverse ++ cur) s := by
  intro w
  induction w with
  | nil => intro _ cur s; simp
  | cons x xs ih =>
      intro h cur s
      have hx : pyIsSpace x = false := h x (List.mem_cons_self x xs)
      have hxs : ∀ c ∈ xs, pyIsSpace c = false := fun c hc => h c (List.mem_cons_of_mem x hc)
      have hstep : (x :: xs) ++ s = x :: (xs ++ s) := rfl
      rw [hstep]
      simp only [wordsAux, hx, Bool.false_eq_true, if_false]
      rw [ih hxs (x :: cur) s]
      simp

theorem wordsAux_space (cur s : PyStr) :
    wordsAux cur ((' ') :: s)
      = if cur = [] then wordsAux [] s else cur.reverse :: wordsAux [] s := by
  simp [wordsAux, pyIsSpace]

theorem wordsAux_all_space :
    ∀ (sp cur : PyStr), (∀ c ∈ sp, pyIsSpace c = true) →
      wordsAux cur sp = if cur = [] then [] else [cur.reverse] := by
  intro sp
  induction sp with
  | nil => intro cur _; rfl
  | cons c rest ih =>
      intro cur h
      have hc : pyIsSpace c = true := h c (List.mem_cons_self c rest)
      have hrest : ∀ x ∈ rest, pyIsSpace x = true := fun x hx => h x (List.mem_cons_of_mem c hx)
      simp only [wordsAux, hc, if_true]
      by_cases hcur : cur = []
      · rw [if_pos hcur, if_pos hcur, ih [] hrest]
        simp
      · rw [if_neg hcur, if_neg hcur, ih [] hrest]
        simp

theorem wordsAux_append_space :
    ∀ (s cur sp : PyStr), (∀ c ∈ sp, pyIsSpace c = true) →
      wordsAux cur (s ++ sp) = wordsAux cur s := by
  intro s
  induction s with
  | nil =>
      intro cur sp h
      rw [List.nil_append, wordsAux_all_space sp cur h]
      rfl
  | cons c rest ih =>
      intro cur sp h
      have hstep : (c :: rest) ++ sp = c :: (rest ++ sp) := rfl
      rw [hstep]
      simp only [wordsAux]
      by_cases hc : pyIsSpace c = true
      · rw [if_pos hc, if_pos hc]
        by_cases hcur : cur = []
        · rw [if_pos hcur, if_pos hcur, ih [] sp h]
        · rw [if_neg hcur, if_neg hcur, ih [] sp h]
      · rw [if_neg hc, if_neg hc, ih (c :: cur) sp h]

theorem pyWords_stripRight (s : PyStr) : pyWords (pyStripRight s) = pyWords s := by
  have h1 : s.reverse.takeWhile pyIsSpace ++ s.reverse.dropWhile pyIsSpace = s.reverse :=
    List.takeWhile_append_dropWhile pyIsSpace s.reverse
  have hsp : ∀ c ∈ (s.reverse.takeWhile pyIsSpace).reverse, pyIsSpace c = true := by
    intro c hc
    exact List.mem_takeWhile_imp (List.mem_reverse.mp hc)
  have hdecomp : s = pyStripRight s ++ (s.reverse.takeWhile pyIsSpace).reverse := by
    unfold pyStripRight
    conv_lhs => rw [← List.reverse_reverse s, ← h1]
    rw [List.reverse_append]
  conv_rhs => rw [hdecomp]
  unfold pyWords
  rw [wordsAux_append_space _ _ _ hsp]

theorem pyWords_stripLeft (s : PyStr) : pyWords (pyStripLeft s) = pyWords s := by
  induction s with
  | nil => rfl
  | cons c r ih =>
      by_cases hc : pyIsSpace c = true
      · have h1 : pyStripLeft (c :: r) = pyStripLeft r := by
          unfold pyStripLeft; rw [List.dropWhile_cons, if_pos hc]
        have h2 : pyWords (c :: r) = pyWords r := by
          unfold pyWords
          simp [wordsAux, hc]
        rw [h1, ih, h2]
      · have h1 : pyStripLeft (c :: r) = c :: r := by
          unfold pyStripLeft; rw [List.dropWhile_cons, if_neg (by simpa using hc)]
        rw [h1]

theorem pyWords_strip (s : PyStr) : pyWords (pyStrip s) = pyWords s := by
  unfold pyStrip
  rw [pyWords_stripRight, pyWords_stripLeft]

theorem pyWords_join :
    ∀ (ws : List PyStr), (∀ w ∈ ws, w ≠ [] ∧ ∀ c ∈ w, pyIsSpace c = false) →
      pyWords (pyJoin [(' ')] ws) = ws := by
  intro ws
  induction ws with
  | nil => intro _; rfl
  | cons w ys ih =>
      intro h
      cases ys with
      | nil =>
          have hw := h w (List.mem_cons_self _ _)
          show pyWords (pyJoin [(' ')] [w]) = [w]
          have hj : pyJoin [(' ')] [w] = w := rfl
          rw [hj]
          unfold pyWords
          have h0 : wordsAux [] w = wordsAux (w.reverse ++ []) [] := by
            conv_lhs => rw [← List.append_nil w]
            exact wordsAux_run w hw.2 [] []
          rw [h0, List.append_nil]
          simp only [wordsAux]
          rw [if_neg (by simpa using hw.1)]
          simp
      | cons y rest =>
          have hw := h w (List.mem_cons_self _ _)
          have hrest : ∀ x ∈ y :: rest, x ≠ [] ∧ ∀ c ∈ x, pyIsSpace c = false :=
            fun x hx => h x (List.mem_cons_of_mem w hx)
          have hj : pyJoin [(' ')] (w :: y :: rest)
              = w ++ ((' ') :: pyJoin [(' ')] (y :: rest)) := by
            simp [pyJoin]
          rw [hj]
          unfold pyWords
          rw [wordsAux_run w hw.2 [] _, List.append_nil, wordsAux_space]
          rw [if_neg (by simpa using hw.1), List.reverse_reverse]
          have htail : wordsAux [] (pyJoin [(' ')] (y :: rest))
              = pyWords (pyJoin [(' ')] (y :: rest)) := rfl
          rw [htail, ih hrest]

theorem pyNormWs_eq_join (s : PyStr) : pyNormWs s = pyJoin [(' ')] (pyWords s) := by
  unfold pyNormWs
  rw [pyWords_strip]

theorem pyNormWs_idem (s : PyStr) : pyNormWs (pyNormWs s) = pyNormWs s := by
  rw [pyNormWs_eq_join s, pyNormWs_eq_join (pyJoin [(' ')] (pyWords s)),
    pyWords_join (pyWords s) (pyWords_facts s)]

/-! ### Order lemmas for the string sort (C6, C7) -/

theorem le_append_right : ∀ (a t : PyStr), a ≤ a ++ t := by
  intro a
  induction a with
  | nil => intro t; exact List.nil_le
  | cons c a' ih => intro t; exact List.cons_le_cons c (ih t)

theorem pyLe_iff_le (a b : PyStr) : pyLe a b = true ↔ a ≤ b := by
  unfold pyLe
  constructor
  · intro h
    rcases Bool.or_eq_true_iff.mp h with h' | h'
    · rcases List.isPrefixOf_iff_prefix.mp h' with ⟨t, ht⟩
      exact ht ▸ le_append_right a t
    · rw [decide_eq_true_eq] at h'
      exact le_of_lt (show a < b from h')
  · intro h
    rcases le_iff_lt_or_eq.mp h with h' | h'
    · refine Bool.or_eq_true_iff.mpr (Or.inr ?_)
      rw [decide_eq_true_eq]
      exact (show List.Lex (· < ·) a b from h')
    · subst h'
      exact Bool.or_eq_true_iff.mpr
        (Or.inl (List.isPrefixOf_iff_prefix.mpr (List.prefix_refl a)))

theorem pyLe_total (a b : PyStr) : pyLe a b = true ∨ pyLe b a = true := by
  rcases le_total a b with h | h
  · exact Or.inl ((pyLe_iff_le _ _).mpr h)
  · exact Or.inr ((pyLe_iff_le _ _).mpr h)

theorem pyLe_trans {a b c : PyStr} (h1 : pyLe a b = true) (h2 : pyLe b c = true) :
    pyLe a c = true :=
  (pyLe_iff_le _ _).mpr (le_trans ((pyLe_iff_le _ _).mp h1) ((pyLe_iff_le _ _).mp h2))

theorem pySorted_perm (l : List PyStr) : (pySorted l).Perm l :=
  List.perm_insertionSort _ l

theorem pySorted_sorted (l : List PyStr) :
    List.Sorted (fun a b => pyLe a b = true) (pySorted l) := by
  haveI htot : IsTotal PyStr (fun a b => pyLe a b = true) := ⟨pyLe_total⟩
  haveI htr : IsTrans PyStr (fun a b => pyLe a b = true) :=
    ⟨fun _ _ _ h1 h2 => pyLe_trans h1 h2⟩
  exact List.sorted_insertionSort _ l

theorem pySorted_of_sorted {l : List PyStr}
    (h : List.Sorted (fun a b => pyLe a b = true) l) : pySorted l = l :=
  List.Sorted.insertionSort_eq h

theorem pySorted_nil_iff (l : List PyStr) : pySorted l = [] ↔ l = [] := by
  constructor
  · intro h
    have := (pySorted_perm l).length_eq
    rw [h] at this
    exact List.length_eq_zero.mp this.symm
  · intro h; subst h; rfl

theorem pySorted_mem (l : List PyStr) (x : PyStr) : x ∈ pySorted l ↔ x ∈ l :=
  (pySorted_perm l).mem_iff

theorem pySorted_nodup {l : List PyStr} (h : l.Nodup) : (pySorted l).Nodup :=
  ((pySorted_perm l).nodup_iff).mpr h

theorem pySorted_nil : pySorted ([] : List PyStr) = [] := rfl

/-! ### Deduplication lemmas (C6, C7) -/

theorem dedupAux_spec :
    ∀ (l seen : List PyStr),
      (dedupAux seen l).Nodup ∧
        ∀ x ∈ dedupAux seen l, (x ≠ [] ∧ pyNormWs x = x) ∧ x ∉ seen := by
  intro l
  induction l with
  | nil =>
      intro seen
      exact ⟨List.nodup_nil, by intro x hx; simp [dedupAux] at hx⟩
  | cons a as ih =>
      intro seen
      by_cases hc : pyNormWs a ≠ [] ∧ pyNormWs a ∉ seen
      · have hstep : dedupAux seen (a :: as)
            = pyNormWs a :: dedupAux (pyNormWs a :: seen) as := by
          simp only [dedupAux]
          rw [if_pos hc]
        rw [hstep]
        constructor
        · refine List.nodup_cons.mpr ⟨?_, (ih _).1⟩
          intro hmem
          exact ((ih _).2 _ hmem).2 (List.mem_cons_self _ _)
        · intro x hx
          rcases List.mem_cons.mp hx with h' | h'
          · subst h'
            exact ⟨⟨hc.1, pyNormWs_idem a⟩, hc.2⟩
          · have := (ih (pyNormWs a :: seen)).2 x h'
            exact ⟨this.1, fun hmem => this.2 (List.mem_cons_of_mem _ hmem)⟩
      · have hstep : dedupAux seen (a :: as) = dedupAux seen as := by
          simp only [dedupAux]
          rw [if_neg hc]
        rw [hstep]
        exact ih seen

theorem deduplicate_nodup (l : List PyStr) : (deduplicate l).Nodup :=
  (dedupAux_spec l []).1

theorem deduplicate_facts (l : List PyStr) :
    ∀ x ∈ deduplicate l, x ≠ [] ∧ pyNormWs x = x :=
  fun x hx => ((dedupAux_spec l []).2 x hx).1

theorem dedupAux_of_clean :
    ∀ (L seen : List PyStr), (L.filter (fun s => s ≠ [])).Nodup →
      (∀ x ∈ L, x ≠ [] → pyNormWs x = x ∧ x ∉ seen) →
      dedupAux seen L = L.filter (fun s => s ≠ []) := by
  intro L
  induction L with
  | nil => intro seen _ _; rfl
  | cons a as ih =>
      intro seen hnd hcl
      by_cases ha : a = []
      · subst ha
        have hstep : dedupAux seen (([] : PyStr) :: as) = dedupAux seen as := by
          simp [dedupAux, pyNormWs, pyStrip, pyStripLeft, pyStripRight, pyWords,
            wordsAux, pyJoin]
        rw [hstep, List.filter_cons]
        rw [if_neg (by simp)]
        refine ih seen ?_ ?_
        · simpa [List.filter_cons] using hnd
        · intro x hx hxne
          exact hcl x (List.mem_cons_of_mem _ hx) hxne
      · have hfix := hcl a (List.mem_cons_self _ _) ha
        have hstep : dedupAux seen (a :: as) = a :: dedupAux (a :: seen) as := by
          simp only [dedupAux]
          rw [hfix.1, if_pos ⟨ha, hfix.2⟩]
        have hfc : (a :: as).filter (fun s => s ≠ []) = a :: as.filter (fun s => s ≠ []) := by
          rw [List.filter_cons, if_pos (by simpa using ha)]
        rw [hstep, hfc]
        have hnd' : (as.filter (fun s => s ≠ [])).Nodup := by
          rw [hfc] at hnd
          exact (List.nodup_cons.mp hnd).2
        have hnotin : a ∉ as.filter (fun s => s ≠ []) := by
          rw [hfc] at hnd
          exact (List.nodup_cons.mp hnd).1
        rw [ih (a :: seen) hnd' ?_]
        intro x hx hxne
        refine ⟨(hcl x (List.mem_cons_of_mem _ hx) hxne).1, ?_⟩
        intro hmem
        rcases List.mem_cons.mp hmem with h' | h'
        · exact hnotin (h' ▸ List.mem_filter.mpr ⟨hx, by simpa using hxne⟩)
        · exact (hcl x (List.mem_cons_of_mem _ hx) hxne).2 h'

/-! ### C6: normaliser output structure -/

theorem sort_and_format_characterization (grouped : ImpGroup → List PyStr) :
    sort_and_format grouped
      = interBlank (([pySorted (grouped ImpGroup.stdlib),
            pySorted (grouped ImpGroup.third_party),
            pySorted (grouped ImpGroup.qiskit),
            pySorted (grouped ImpGroup.loc)]).filter (fun b => b ≠ []))
        ++ (if grouped ImpGroup.third_party ≠ [] ∧ grouped ImpGroup.qiskit ≠ [] ∧
              grouped ImpGroup.loc = [] then [([] : PyStr)] else []) := by
  have e1 := pySorted_nil_iff (grouped ImpGroup.stdlib)
  have e2 := pySorted_nil_iff (grouped ImpGroup.third_party)
  have e3 := pySorted_nil_iff (grouped ImpGroup.qiskit)
  have e4 := pySorted_nil_iff (grouped ImpGroup.loc)
  by_cases h1 : grouped ImpGroup.stdlib = [] <;>
    by_cases h2 : grouped ImpGroup.third_party = [] <;>
      by_cases h3 : grouped ImpGroup.qiskit = [] <;>
        by_cases h4 : grouped ImpGroup.loc = [] <;>
          simp [sort_and_format, format_group, sep_after, interBlank, h1, h2, h3, h4,
            e1, e2, e3, e4, pySorted_nil, List.append_assoc]

theorem interBlank_filter :
    ∀ (blocks : List (List PyStr)), (∀ b ∈ blocks, ∀ x ∈ b, x ≠ []) →
      (interBlank blocks).filter (fun s => s ≠ []) = blocks.flatten := by
  intro blocks
  induction blocks with
  | nil => intro _; rfl
  | cons b bs ih =>
      intro h
      cases bs with
      | nil =>
          show (interBlank [b]).filter (fun s => s ≠ []) = List.flatten [b]
          have h1 : interBlank [b] = b := rfl
          rw [h1, List.flatten_cons, List.flatten_nil, List.append_nil]
          exact List.filter_eq_self.mpr
            (fun a ha => by simpa using h b (List.mem_cons_self _ _) a ha)
      | cons c cs =>
          have h1 : interBlank (b :: c :: cs) = b ++ [([] : PyStr)] ++ interBlank (c :: cs) :=
            rfl
          rw [h1, List.filter_append, List.filter_append]
          rw [List.filter_eq_self.mpr
            (fun a ha => by simpa using h b (List.mem_cons_self _ _) a ha)]
          have h2 : ([([] : PyStr)]).filter (fun s => s ≠ []) = [] := by decide
          rw [h2, List.append_nil, ih (fun x hx => h x (List.mem_cons_of_mem _ hx))]
          simp [List.flatten_cons]

theorem flatten_filter_ne_nil :
    ∀ (blocks : List (List PyStr)),
      (blocks.filter (fun b => b ≠ [])).flatten = blocks.flatten := by
  intro blocks
  induction blocks with
  | nil => rfl
  | cons b bs ih =>
      by_cases hb : b = []
      · subst hb
        rw [List.filter_cons, if_neg (by simp), List.flatten_cons, ih, List.nil_append]
      · rw [List.filter_cons, if_pos (by simpa using hb), List.flatten_cons,
          List.flatten_cons, ih]

theorem map_fixed {f : PyStr → PyStr} :
    ∀ {l : List PyStr}, (∀ x ∈ l, f x = x) → l.map f = l := by
  intro l
  induction l with
  | nil => intro _; rfl
  | cons a as ih =>
      intro h
      rw [List.map_cons, h a (List.mem_cons_self _ _), ih (fun x hx => h x (List.mem_cons_of_mem _ hx))]

theorem bucket_classify (l : List PyStr) (g : ImpGroup) :
    ∀ x ∈ pySorted ((deduplicate l).filter (fun s => classify_import s = g)),
      classify_import x = g := by
  intro x hx
  have h1 := (pySorted_mem _ x).mp hx
  have h2 := List.mem_filter.mp h1
  simpa using h2.2

theorem bucket_nodup (l : List PyStr) (g : ImpGroup) :
    (pySorted ((deduplicate l).filter (fun s => classify_import s = g))).Nodup :=
  pySorted_nodup ((deduplicate_nodup l).filter _)

theorem bucket_facts (l : List PyStr) (g : ImpGroup) :
    ∀ x ∈ pySorted ((deduplicate l).filter (fun s => classify_import s = g)),
      x ≠ [] ∧ pyNormWs x = x := by
  intro x hx
  have h1 := (pySorted_mem _ x).mp hx
  exact deduplicate_facts l x (List.mem_filter.mp h1).1

theorem buckets_flat_nodup (l : List PyStr) :
    (([pySorted ((deduplicate l).filter (fun s => classify_import s = ImpGroup.stdlib)),
        pySorted ((deduplicate l).filter (fun s => classify_import s = ImpGroup.third_party)),
        pySorted ((deduplicate l).filter (fun s => classify_import s = ImpGroup.qiskit)),
        pySorted ((deduplicate l).filter (fun s => classify_import s = ImpGroup.loc))]).flatten).Nodup := by
  have c1 := bucket_classify l ImpGroup.stdlib
  have c2 := bucket_classify l ImpGroup.third_party
  have c3 := bucket_classify l ImpGroup.qiskit
  have c4 := bucket_classify l ImpGroup.loc
  have n1 := bucket_nodup l ImpGroup.stdlib
  have n2 := bucket_nodup l ImpGroup.third_party
  have n3 := bucket_nodup l ImpGroup.qiskit
  have n4 := bucket_nodup l ImpGroup.loc
  have h34 : (pySorted ((deduplicate l).filter (fun s => classify_import s = ImpGroup.qiskit)) ++
      pySorted ((deduplicate l).filter (fun s => classify_import s = ImpGroup.loc))).Nodup := by
    refine n3.append n4 ?_
    intro x hx3 hx4
    have h1 := c3 x hx3
    have h2 := c4 x hx4
    simp [h1] at h2
  have h234 : (pySorted ((deduplicate l).filter (fun s => classify_import s = ImpGroup.third_party)) ++
      (pySorted ((deduplicate l).filter (fun s => classify_import s = ImpGroup.qiskit)) ++
        pySorted ((deduplicate l).filter (fun s => classify_import s = ImpGroup.loc)))).Nodup := by
    refine n2.append h34 ?_
    intro x hx2 hx34
    rcases List.mem_append.mp hx34 with h' | h'
    · have := c3 x h'
      rw [c2 x hx2] at this
      simp at this
    · have := c4 x h'
      rw [c2 x hx2] at this
      simp at this
  have hall : (pySorted ((deduplicate l).filter (fun s => classify_import s = ImpGroup.stdlib)) ++
      (pySorted ((deduplicate l).filter (fun s => classify_import s = ImpGroup.third_party)) ++
        (pySorted ((deduplicate l).filter (fun s => classify_import s = ImpGroup.qiskit)) ++
          pySorted ((deduplicate l).filter (fun s => classify_import s = ImpGroup.loc))))).Nodup := by
    refine n1.append h234 ?_
    intro x hx1 hxr
    rcases List.mem_append.mp hxr with h' | h'
    · have := c2 x h'
      rw [c1 x hx1] at this
      simp at this
    · rcases List.mem_append.mp h' with h'' | h''
      · have := c3 x h''
        rw [c1 x hx1] at this
        simp at this
      · have := c4 x h''
        rw [c1 x hx1] at this
        simp at this
  simpa [List.flatten] using hall

/-- C6 (counterexample): on `["import numpy", "import qiskit"]` the normaliser
appends a trailing blank entry after the last bucket (the separator test of
`_sort_and_format` ignores whether any later group is non-empty once
`third_party` and `qiskit` are both occupied and `local` is empty), so the
output is not just the buckets with blank separators between them as claimed. -/
theorem c6_counterexample :
    normalize_imports [pstr "import numpy", pstr "import qiskit"]
        = [pstr "import numpy", [], pstr "import qiskit", ([] : PyStr)] ∧
      spec_normalize_claimed [pstr "import numpy", pstr "import qiskit"]
        = [pstr "import numpy", [], pstr "import qiskit"] := by
  decide

/-- C6: for every input list, the normaliser's output is the deduplicated,
whitespace-normalised entries partitioned into the four buckets in fixed
priority order, each bucket sorted, with a blank separator between non-empty
buckets — plus (amendment) a trailing blank entry exactly when the third-party
and domain-specific buckets are non-empty while the local bucket is empty; and
no two non-blank output entries are equal after whitespace normalisation. -/
theorem c6_normalize_structure (l : List PyStr) :
    normalize_imports l = spec_normalize_amended l ∧
      (((normalize_imports l).filter (fun s => s ≠ [])).map pyNormWs).Nodup := by
  by_cases hl : l = []
  · subst hl
    exact ⟨by decide, by decide⟩
  · have hA : normalize_imports l = spec_normalize_amended l := by
      show (if l = [] then [] else sort_and_format (group_imports (deduplicate l)))
          = spec_normalize_amended l
      rw [if_neg hl, sort_and_format_characterization]
      rfl
    refine ⟨hA, ?_⟩
    rw [hA]
    have hmem : ∀ b ∈ (spec_buckets l).filter (fun b => b ≠ []), ∀ x ∈ b, x ≠ [] := by
      intro b hb x hx
      have hb' := (List.mem_filter.mp hb).1
      simp only [spec_buckets, List.mem_cons, List.not_mem_nil, or_false] at hb'
      rcases hb' with h | h | h | h <;> subst h <;>
        exact (bucket_facts l _ x hx).1
    have htrail : ∀ (P : Prop) (inst : Decidable P),
        (if P then [([] : PyStr)] else []).filter (fun s => s ≠ []) = [] := by
      intro P inst
      split <;> rfl
    have hfil : (spec_normalize_amended l).filter (fun s => s ≠ [])
        = (spec_buckets l).flatten := by
      simp only [spec_normalize_amended, spec_normalize_claimed, List.filter_append,
        htrail, List.append_nil]
      rw [interBlank_filter _ hmem, flatten_filter_ne_nil]
    rw [hfil]
    have hfix : ((spec_buckets l).flatten).map pyNormWs = (spec_buckets l).flatten := by
      apply map_fixed
      intro x hx
      rcases List.mem_flatten.mp hx with ⟨b, hb, hxb⟩
      simp only [spec_buckets, List.mem_cons, List.not_mem_nil, or_false] at hb
      rcases hb with h | h | h | h <;> subst h <;>
        exact (bucket_facts l _ x hxb).2
    rw [hfix]
    have hnd := buckets_flat_nodup l
    simpa [spec_buckets] using hnd

/-! ### C7: idempotence of the normaliser -/

theorem spec_buckets_facts (l : List PyStr) :
    ∀ b ∈ spec_buckets l, ∀ x ∈ b, x ≠ [] ∧ pyNormWs x = x := by
  intro b hb x hx
  simp only [spec_buckets, List.mem_cons, List.not_mem_nil, or_false] at hb
  rcases hb with h | h | h | h <;> subst h <;> exact bucket_facts l _ x hx

theorem normalize_eq_amended (l : List PyStr) (hl : l ≠ []) :
    normalize_imports l = spec_normalize_amended l := by
  show (if l = [] then [] else sort_and_format (group_imports (deduplicate l)))
      = spec_normalize_amended l
  rw [if_neg hl, sort_and_format_characterization]
  rfl

theorem filter_blank_trailer (P : Prop) [Decidable P] :
    (if P then [([] : PyStr)] else []).filter (fun s => s ≠ []) = [] := by
  split <;> rfl

theorem normalize_filter_blank (l : List PyStr) (hl : l ≠ []) :
    (normalize_imports l).filter (fun s => s ≠ []) = (spec_buckets l).flatten := by
  rw [normalize_eq_amended l hl]
  have hmem : ∀ b ∈ (spec_buckets l).filter (fun b => b ≠ []), ∀ x ∈ b, x ≠ [] :=
    fun b hb x hx => (spec_buckets_facts l b (List.mem_filter.mp hb).1 x hx).1
  simp only [spec_normalize_amended, spec_normalize_claimed, List.filter_append,
    filter_blank_trailer, List.append_nil]
  rw [interBlank_filter _ hmem, flatten_filter_ne_nil]

theorem bucket_sorted_fix (l : List PyStr) (g : ImpGroup) :
    pySorted (pySorted ((deduplicate l).filter (fun s => classify_import s = g)))
      = pySorted ((deduplicate l).filter (fun s => classify_import s = g)) :=
  pySorted_of_sorted (pySorted_sorted _)

theorem bucket_filter_one (l : List PyStr) (g1 g2 : ImpGroup) :
    (pySorted ((deduplicate l).filter (fun s => classify_import s = g1))).filter
        (fun s => classify_import s = g2)
      = if g1 = g2 then pySorted ((deduplicate l).filter (fun s => classify_import s = g1))
        else [] := by
  by_cases h : g1 = g2
  · subst h
    rw [if_pos rfl]
    refine List.filter_eq_self.mpr ?_
    intro a ha
    simpa using bucket_classify l g1 a ha
  · rw [if_neg h]
    refine List.filter_eq_nil_iff.mpr ?_
    intro a ha
    have hc := bucket_classify l g1 a ha
    simp [hc]
    intro h'
    exact h h'

theorem buckets_flatten_filter (l : List PyStr) (g : ImpGroup) :
    ((spec_buckets l).flatten).filter (fun s => classify_import s = g)
      = pySorted ((deduplicate l).filter (fun s => classify_import s = g)) := by
  have hfl : (spec_buckets l).flatten
      = pySorted ((deduplicate l).filter (fun s => classify_import s = ImpGroup.stdlib))
        ++ (pySorted ((deduplicate l).filter (fun s => classify_import s = ImpGroup.third_party))
        ++ (pySorted ((deduplicate l).filter (fun s => classify_import s = ImpGroup.qiskit))
        ++ pySorted ((deduplicate l).filter (fun s => classify_import s = ImpGroup.loc)))) := by
    simp [spec_buckets, List.flatten]
  rw [hfl, List.filter_append, List.filter_append, List.filter_append]
  cases g <;> simp [bucket_filter_one]

/-- C7: import normalisation is idempotent — applying the normaliser to its own
output returns that output unchanged: the output's non-blank entries are
whitespace-normalised, pairwise distinct and already bucket-sorted, blank
entries are dropped by deduplication, and the separator/trailing-blank pattern
is reproduced because each bucket's emptiness is preserved. -/
theorem c7_normalize_idempotent (l : List PyStr) :
    normalize_imports (normalize_imports l) = normalize_imports l := by
  by_cases hl : l = []
  · subst hl; rfl
  by_cases hout : normalize_imports l = []
  · rw [hout]
    rfl
  have hfil : (normalize_imports l).filter (fun s => s ≠ []) = (spec_buckets l).flatten :=
    normalize_filter_blank l hl
  have hndF : ((normalize_imports l).filter (fun s => s ≠ [])).Nodup := by
    rw [hfil]
    simpa [spec_buckets] using buckets_flat_nodup l
  have hcl : ∀ x ∈ normalize_imports l, x ≠ [] →
      pyNormWs x = x ∧ x ∉ ([] : List PyStr) := by
    intro x hx hxne
    refine ⟨?_, by simp⟩
    have hxF : x ∈ (spec_buckets l).flatten := by
      rw [← hfil]
      exact List.mem_filter.mpr ⟨hx, by simpa using hxne⟩
    rcases List.mem_flatten.mp hxF with ⟨b, hb, hxb⟩
    exact (spec_buckets_facts l b hb x hxb).2
  have hdedup : deduplicate (normalize_imports l) = (spec_buckets l).flatten := by
    have h1 := dedupAux_of_clean (normalize_imports l) [] hndF hcl
    show dedupAux [] (normalize_imports l) = _
    rw [h1, hfil]
  have hb : ∀ g : ImpGroup,
      (deduplicate (normalize_imports l)).filter (fun s => classify_import s = g)
        = pySorted ((deduplicate l).filter (fun s => classify_import s = g)) := by
    intro g
    rw [hdedup]
    exact buckets_flatten_filter l g
  have hsb : spec_buckets (normalize_imports l) = spec_buckets l := by
    simp only [spec_buckets]
    rw [hb ImpGroup.stdlib, hb ImpGroup.third_party, hb ImpGroup.qiskit, hb ImpGroup.loc,
      bucket_sorted_fix, bucket_sorted_fix, bucket_sorted_fix, bucket_sorted_fix]
  have hcond : ∀ g : ImpGroup,
      ((deduplicate (normalize_imports l)).filter (fun s => classify_import s = g) = [])
        ↔ ((deduplicate l).filter (fun s => classify_import s = g) = []) := by
    intro g
    rw [hb g]
    exact pySorted_nil_iff _
  rw [normalize_eq_amended _ hout]
  have key : spec_normalize_amended (normalize_imports l) = spec_normalize_amended l := by
    simp only [spec_normalize_amended, spec_normalize_claimed]
    rw [hsb]
    congr 1
    exact if_congr
      (and_congr (not_congr (hcond ImpGroup.third_party))
        (and_congr (not_congr (hcond ImpGroup.qiskit)) (hcond ImpGroup.loc)))
      rfl rfl
  rw [key]
  exact (normalize_eq_amended l hl).symm

/-! ### Dependency resolver lemmas (C1, C2) -/

theorem dedupKeepFirst_mem :
    ∀ (l seen : List PyStr) (x : PyStr),
      x ∈ dedupKeepFirst seen l ↔ x ∈ l ∧ x ∉ seen := by
  intro l
  induction l with
  | nil => intro seen x; simp [dedupKeepFirst]
  | cons a as ih =>
      intro seen x
      by_cases ha : a ∈ seen
      · rw [show dedupKeepFirst seen (a :: as) = dedupKeepFirst seen as from by
          simp only [dedupKeepFirst]; rw [if_pos ha]]
        rw [ih]
        constructor
        · rintro ⟨h1, h2⟩
          exact ⟨List.mem_cons_of_mem _ h1, h2⟩
        · rintro ⟨h1, h2⟩
          rcases List.mem_cons.mp h1 with h | h
          · exact absurd (h ▸ ha) h2
          · exact ⟨h, h2⟩
      · rw [show dedupKeepFirst seen (a :: as) = a :: dedupKeepFirst (a :: seen) as from by
          simp only [dedupKeepFirst]; rw [if_neg ha]]
        constructor
        · intro hx
          rcases List.mem_cons.mp hx with h | h
          · subst h
            exact ⟨List.mem_cons_self _ _, ha⟩
          · have := (ih (a :: seen) x).mp h
            refine ⟨List.mem_cons_of_mem _ this.1, fun hs => this.2 (List.mem_cons_of_mem _ hs)⟩
        · rintro ⟨h1, h2⟩
          by_cases hxa : x = a
          · subst hxa; exact List.mem_cons_self _ _
          · rcases List.mem_cons.mp h1 with h | h
            · exact absurd h hxa
            · refine List.mem_cons_of_mem _ ((ih (a :: seen) x).mpr ⟨h, ?_⟩)
              intro hs
              rcases List.mem_cons.mp hs with h' | h'
              · exact hxa h'
              · exact h2 h'

theorem dedupKeepFirst_nodup :
    ∀ (l seen : List PyStr), (dedupKeepFirst seen l).Nodup := by
  intro l
  induction l with
  | nil => intro seen; simp [dedupKeepFirst]
  | cons a as ih =>
      intro seen
      by_cases ha : a ∈ seen
      · rw [show dedupKeepFirst seen (a :: as) = dedupKeepFirst seen as from by
          simp only [dedupKeepFirst]; rw [if_pos ha]]
        exact ih seen
      · rw [show dedupKeepFirst seen (a :: as) = a :: dedupKeepFirst (a :: seen) as from by
          simp only [dedupKeepFirst]; rw [if_neg ha]]
        refine List.nodup_cons.mpr ⟨?_, ih (a :: seen)⟩
        intro hmem
        exact ((dedupKeepFirst_mem as (a :: seen) a).mp hmem).2 (List.mem_cons_self _ _)

theorem direct_deps_nodup (cards : List ComponentCard) (c : ComponentCard) :
    (direct_deps cards c).Nodup :=
  dedupKeepFirst_nodup _ _

theorem direct_deps_mem (cards : List ComponentCard) (c : ComponentCard) (d : PyStr) :
    d ∈ direct_deps cards c ↔ ∃ p, p ∈ cards ∧ p.name = d ∧ DependsOn c p := by
  show d ∈ dedupKeepFirst [] ((c.needs.map (provider_index cards)).flatten) ↔ _
  rw [dedupKeepFirst_mem]
  simp only [List.not_mem_nil, not_false_iff, and_true]
  rw [List.mem_flatten]
  constructor
  · rintro ⟨b, hb, hdb⟩
    obtain ⟨r, hr, rfl⟩ := List.mem_map.mp hb
    obtain ⟨p, hp, rfl⟩ := List.mem_map.mp hdb
    obtain ⟨hpc, hrp⟩ := List.mem_filter.mp hp
    exact ⟨p, hpc, rfl, r, hr, by simpa using hrp⟩
  · rintro ⟨p, hp, rfl, r, hr, hrp⟩
    refine ⟨provider_index cards r, List.mem_map_of_mem _ hr, ?_⟩
    exact List.mem_map_of_mem _ (List.mem_filter.mpr ⟨hp, by simpa using hrp⟩)

theorem card_name_inj {cards : List ComponentCard}
    (hnodup : (cards.map (fun c => c.name)).Nodup) :
    ∀ a ∈ cards, ∀ b ∈ cards, a.name = b.name → a = b :=
  fun _ ha _ hb h => List.inj_on_of_nodup_map hnodup ha hb h

theorem indegGet_map (g : ComponentCard → Nat) :
    ∀ (L : List ComponentCard), (L.map (fun c => c.name)).Nodup →
      ∀ c ∈ L, indegGet (L.map (fun c' => (c'.name, g c'))) c.name = g c := by
  intro L
  induction L with
  | nil => intro _ c hc; cases hc
  | cons a as ih =>
      intro hnd c hc
      rcases List.mem_cons.mp hc with h | h
      · subst h
        simp only [indegGet, List.map_cons]
        rw [List.find?_cons_of_pos _ (by simp)]
        simp
      · have hne : a.name ≠ c.name := by
          simp only [List.map_cons, List.nodup_cons] at hnd
          intro he
          exact hnd.1 (he ▸ List.mem_map_of_mem _ h)
        have hnd' : (as.map (fun c => c.name)).Nodup := by
          simp only [List.map_cons, List.nodup_cons] at hnd
          exact hnd.2
        simp only [indegGet, List.map_cons]
        rw [List.find?_cons_of_neg _ (by simp [hne])]
        exact ih hnd' c h

theorem filter_out_snoc_mem {L R : List PyStr} {d : PyStr} (hnd : L.Nodup)
    (hdL : d ∈ L) (hdR : d ∉ R) :
    (L.filter (fun x => x ∉ R ++ [d])).length = (L.filter (fun x => x ∉ R)).length - 1 := by
  have h1 : L.filter (fun x => decide (x ∉ R ++ [d]))
      = (L.filter (fun x => decide (x ∉ R))).filter (fun x => decide (x ≠ d)) := by
    rw [List.filter_filter]
    apply List.filter_congr
    intro x _
    by_cases h2 : x = d
    · subst h2; simp [hdR]
    · by_cases h3 : x ∈ R <;> simp [h2, h3]
  have hMnd : (L.filter (fun x => decide (x ∉ R))).Nodup := (List.filter_sublist L).nodup hnd
  have hdM : d ∈ L.filter (fun x => decide (x ∉ R)) :=
    List.mem_filter.mpr ⟨hdL, by simpa using hdR⟩
  have hfe : (fun x : PyStr => decide (x ≠ d)) = (fun x => x != d) := by
    funext x
    by_cases hx : x = d <;> simp [hx]
  show (L.filter (fun x => decide (x ∉ R ++ [d]))).length = _
  rw [h1, hfe, ← hMnd.erase_eq_filter d, List.length_erase_of_mem hdM]

theorem filter_out_snoc_notmem {L R : List PyStr} {d : PyStr} (hdL : d ∉ L) :
    L.filter (fun x => x ∉ R ++ [d]) = L.filter (fun x => x ∉ R) := by
  apply List.filter_congr
  intro x hx
  have hxd : x ≠ d := fun h => hdL (h ▸ hx)
  by_cases h3 : x ∈ R <;> simp [h3, hxd]

theorem mem_take_exists_get :
    ∀ (l : List PyStr) (k : Nat) (x : PyStr), x ∈ l.take k →
      ∃ i, ∃ (hi : i < l.length), i < k ∧ l.get ⟨i, hi⟩ = x := by
  intro l
  induction l with
  | nil => intro k x hx; simp at hx
  | cons a as ih =>
      intro k x hx
      cases k with
      | zero => simp at hx
      | succ k =>
          rw [List.take_succ_cons] at hx
          rcases List.mem_cons.mp hx with h | h
          · exact ⟨0, by simp, Nat.succ_pos k, by simpa using h.symm⟩
          · obtain ⟨i, hi, hik, hg⟩ := ih k x h
            exact ⟨i + 1, by simpa using Nat.succ_lt_succ hi, Nat.succ_lt_succ hik,
              by simpa using hg⟩

theorem nodup_covers {A B : List PyStr} (hA : A.Nodup) (hB : B.Nodup)
    (hsub : ∀ x ∈ A, x ∈ B) (hlen : B.length ≤ A.length) : ∀ x ∈ B, x ∈ A := by
  have h1 : A.toFinset ⊆ B.toFinset := by
    intro x hx
    rw [List.mem_toFinset] at *
    exact hsub x hx
  have h2 : A.toFinset = B.toFinset := by
    apply Finset.eq_of_subset_of_card_le h1
    rw [List.toFinset_card_of_nodup hA, List.toFinset_card_of_nodup hB]
    exact hlen
  intro x hx
  rw [← List.mem_toFinset, h2, List.mem_toFinset]
  exact hx

theorem kahn_loop_spec (cards : List ComponentCard)
    (hnodup : (cards.map (fun c => c.name)).Nodup) :
    ∀ (fuel : Nat) (m : List (PyStr × Nat)) (q R : List PyStr),
      cards.length ≤ fuel + R.length →
      m = cards.map (fun c => (c.name,
          ((direct_deps cards c).filter (fun x => x ∉ R)).length)) →
      (R ++ q).Nodup →
      (∀ x ∈ R ++ q, x ∈ cards.map (fun c => c.name)) →
      (∀ c ∈ cards, c.name ∈ q → ∀ x ∈ direct_deps cards c, x ∈ R) →
      (∀ c ∈ cards, (∀ x ∈ direct_deps cards c, x ∈ R) → c.name ∈ R ++ q) →
      (∀ c ∈ cards, ∀ k, ∀ (hk : k < R.length), R.get ⟨k, hk⟩ = c.name →
          ∀ x ∈ direct_deps cards c, x ∈ R.take k) →
      (kahn_loop cards fuel m q R).Nodup ∧
        (∀ x ∈ kahn_loop cards fuel m q R, x ∈ cards.map (fun c => c.name)) ∧
        (∀ c ∈ cards, ∀ k, ∀ (hk : k < (kahn_loop cards fuel m q R).length),
            (kahn_loop cards fuel m q R).get ⟨k, hk⟩ = c.name →
            ∀ x ∈ direct_deps cards c, x ∈ (kahn_loop cards fuel m q R).take k) ∧
        (∀ c ∈ cards, (∀ x ∈ direct_deps cards c, x ∈ kahn_loop cards fuel m q R) →
            c.name ∈ kahn_loop cards fuel m q R) := by
  intro fuel
  induction fuel with
  | zero =>
      intro m q R hfl hm hnd hsub hqs hqc hord
      rw [show kahn_loop cards 0 m q R = R from rfl]
      have hnds := List.nodup_append.mp hnd
      have hRsub : ∀ x ∈ R, x ∈ cards.map (fun c => c.name) :=
        fun x hx => hsub x (List.mem_append_left _ hx)
      have hcov : ∀ x ∈ cards.map (fun c => c.name), x ∈ R := by
        apply nodup_covers hnds.1 hnodup hRsub
        rw [List.length_map]
        omega
      refine ⟨hnds.1, hRsub, hord, ?_⟩
      intro c hc _
      exact hcov c.name (List.mem_map_of_mem _ hc)
  | succ fuel ih =>
      intro m q R hfl hm hnd hsub hqs hqc hord
      cases q with
      | nil =>
          rw [show kahn_loop cards (fuel + 1) m [] R = R from rfl]
          have hnds := List.nodup_append.mp hnd
          have hRsub : ∀ x ∈ R, x ∈ cards.map (fun c => c.name) :=
            fun x hx => hsub x (List.mem_append_left _ hx)
          refine ⟨hnds.1, hRsub, hord, ?_⟩
          intro c hc hdeps
          have := hqc c hc hdeps
          simpa using this
      | cons d q0 =>
          have hdR : d ∉ R := by
            rw [List.nodup_append] at hnd
            intro hmem
            exact hnd.2.2 hmem (List.mem_cons_self _ _)
          have hany : ∀ c ∈ cards,
              ((cards.any (fun c' => c'.name = c.name ∧ d ∈ direct_deps cards c')) = true
                ↔ d ∈ direct_deps cards c) := by
            intro c hc
            rw [List.any_eq_true]
            constructor
            · rintro ⟨c', hc', hp⟩
              rw [decide_eq_true_eq] at hp
              obtain ⟨hname, hdd⟩ := hp
              have hcc : c' = c := card_name_inj hnodup c' hc' c hc hname
              exact hcc ▸ hdd
            · intro hd
              exact ⟨c, hc, by rw [decide_eq_true_eq]; exact ⟨rfl, hd⟩⟩
          have hm' : (scan_decrement cards d m).1 = cards.map (fun c => (c.name,
              ((direct_deps cards c).filter (fun x => x ∉ R ++ [d])).length)) := by
            show m.map (fun p =>
                if cards.any (fun c => c.name = p.1 ∧ d ∈ direct_deps cards c)
                then (p.1, p.2 - 1) else p) = _
            rw [hm, List.map_map]
            apply List.map_congr_left
            intro c hc
            simp only [Function.comp_apply]
            by_cases hd : d ∈ direct_deps cards c
            · rw [if_pos ((hany c hc).mpr hd)]
              rw [filter_out_snoc_mem (direct_deps_nodup cards c) hd hdR]
            · rw [if_neg (fun h => hd ((hany c hc).mp h))]
              rw [filter_out_snoc_notmem hd]
          have h2 : (scan_decrement cards d m).2
              = (cards.filter
                  (fun c => d ∈ direct_deps cards c ∧ indegGet m c.name = 1)).map
                  (fun c => c.name) := rfl
          have hindeg : ∀ c ∈ cards, indegGet m c.name
              = ((direct_deps cards c).filter (fun x => x ∉ R)).length := by
            intro c hc
            rw [hm]
            exact indegGet_map _ cards hnodup c hc
          have hnew_ex : ∀ x ∈ (scan_decrement cards d m).2, ∃ c, c ∈ cards ∧ c.name = x ∧
              d ∈ direct_deps cards c ∧
              ((direct_deps cards c).filter (fun y => y ∉ R)).length = 1 := by
            intro x hx
            rw [h2] at hx
            obtain ⟨c, hcf, rfl⟩ := List.mem_map.mp hx
            obtain ⟨hc, hprop⟩ := List.mem_filter.mp hcf
            rw [decide_eq_true_eq] at hprop
            exact ⟨c, hc, rfl, hprop.1, by rw [← hindeg c hc]; exact hprop.2⟩
          have hnew_of : ∀ c ∈ cards, d ∈ direct_deps cards c →
              ((direct_deps cards c).filter (fun y => y ∉ R)).length = 1 →
              c.name ∈ (scan_decrement cards d m).2 := by
            intro c hc h1' h2'
            rw [h2]
            refine List.mem_map_of_mem _ (List.mem_filter.mpr ⟨hc, ?_⟩)
            rw [decide_eq_true_eq]
            exact ⟨h1', by rw [hindeg c hc]; exact h2'⟩
          have hRsound : ∀ c ∈ cards, c.name ∈ R → ∀ y ∈ direct_deps cards c, y ∈ R := by
            intro c hc hr y hy
            obtain ⟨i, hget⟩ := List.mem_iff_get.mp hr
            exact List.mem_of_mem_take (hord c hc i.val i.isLt hget y hy)
          have hfilter_one : ∀ c ∈ cards, d ∈ direct_deps cards c →
              (∀ y ∈ direct_deps cards c, y ∈ R ++ [d]) →
              (direct_deps cards c).filter (fun y => y ∉ R) = [d] := by
            intro c hc hd hsub'
            have hnd2 : ((direct_deps cards c).filter (fun y => y ∉ R)).Nodup :=
              (List.filter_sublist _).nodup (direct_deps_nodup cards c)
            have hdin : d ∈ (direct_deps cards c).filter (fun y => y ∉ R) :=
              List.mem_filter.mpr ⟨hd, by simpa using hdR⟩
            have hall : ∀ y ∈ (direct_deps cards c).filter (fun y => y ∉ R), y = d := by
              intro y hy
              obtain ⟨hy1, hy2⟩ := List.mem_filter.mp hy
              have hy2' : y ∉ R := by simpa using hy2
              rcases List.mem_append.mp (hsub' y hy1) with h | h
              · exact absurd h hy2'
              · simpa using h
            revert hdin hall hnd2
            generalize (direct_deps cards c).filter (fun y => y ∉ R) = M
            intro hnd2 hdin hall
            cases M with
            | nil => cases hdin
            | cons a t =>
                have ha : a = d := hall a (List.mem_cons_self _ _)
                cases t with
                | nil => rw [ha]
                | cons b t2 =>
                    have hb : b = d := hall b (List.mem_cons_of_mem _ (List.mem_cons_self _ _))
                    rw [List.nodup_cons] at hnd2
                    exact (hnd2.1 (by rw [ha, hb]; exact List.mem_cons_self _ _)).elim
          have hone_sub : ∀ c ∈ cards, d ∈ direct_deps cards c →
              ((direct_deps cards c).filter (fun y => y ∉ R)).length = 1 →
              ∀ y ∈ direct_deps cards c, y ∈ R ++ [d] := by
            intro c hc hd hlen y hy
            obtain ⟨a, ha⟩ := List.length_eq_one.mp hlen
            have hda : d = a := by
              have hdin : d ∈ (direct_deps cards c).filter (fun y => y ∉ R) :=
                List.mem_filter.mpr ⟨hd, by simpa using hdR⟩
              rw [ha] at hdin
              simpa using hdin
            by_cases hyR : y ∈ R
            · exact List.mem_append_left _ hyR
            · have hyin : y ∈ (direct_deps cards c).filter (fun y => y ∉ R) :=
                List.mem_filter.mpr ⟨hy, by simpa using hyR⟩
              rw [ha] at hyin
              have hya : y = a := by simpa using hyin
              rw [hya, ← hda]
              exact List.mem_append_right _ (List.mem_cons_self _ _)
          have hqs' : ∀ c ∈ cards, c.name ∈ q0 ++ (scan_decrement cards d m).2 →
              ∀ y ∈ direct_deps cards c, y ∈ R ++ [d] := by
            intro c hc hq' y hy
            rcases List.mem_append.mp hq' with h | h
            · exact List.mem_append_left _ (hqs c hc (List.mem_cons_of_mem _ h) y hy)
            · obtain ⟨c2, hc2, hname, hd2, hlen2⟩ := hnew_ex _ h
              have hcc : c2 = c := card_name_inj hnodup c2 hc2 c hc hname
              subst hcc
              exact hone_sub c2 hc2 hd2 hlen2 y hy
          have hqc' : ∀ c ∈ cards, (∀ y ∈ direct_deps cards c, y ∈ R ++ [d]) →
              c.name ∈ (R ++ [d]) ++ (q0 ++ (scan_decrement cards d m).2) := by
            intro c hc hsub'
            by_cases hall : ∀ y ∈ direct_deps cards c, y ∈ R
            · have hmem := hqc c hc hall
              rcases List.mem_append.mp hmem with h | h
              · exact List.mem_append_left _ (List.mem_append_left _ h)
              · rcases List.mem_cons.mp h with h' | h'
                · refine List.mem_append_left _ ?_
                  rw [h']
                  exact List.mem_append_right _ (List.mem_cons_self _ _)
                · exact List.mem_append_right _ (List.mem_append_left _ h')
            · push_neg at hall
              obtain ⟨y, hy, hyR⟩ := hall
              have hyd : y = d := by
                rcases List.mem_append.mp (hsub' y hy) with h | h
                · exact absurd h hyR
                · simpa using h
              have hd' : d ∈ direct_deps cards c := hyd ▸ hy
              have hlen1 : ((direct_deps cards c).filter (fun z => z ∉ R)).length = 1 := by
                rw [hfilter_one c hc hd' hsub']
                rfl
              exact List.mem_append_right _
                (List.mem_append_right _ (hnew_of c hc hd' hlen1))
          have hfresh : ∀ x ∈ (scan_decrement cards d m).2, x ∉ R ++ d :: q0 := by
            intro x hx hmem
            obtain ⟨c, hc, rfl, hd2, hlen2⟩ := hnew_ex x hx
            have hne : ∃ y ∈ direct_deps cards c, y ∉ R := by
              obtain ⟨a, ha⟩ := List.length_eq_one.mp hlen2
              have hain : a ∈ (direct_deps cards c).filter (fun y => y ∉ R) := by
                rw [ha]
                exact List.mem_cons_self _ _
              obtain ⟨h1', h2'⟩ := List.mem_filter.mp hain
              exact ⟨a, h1', by simpa using h2'⟩
            obtain ⟨y, hy, hyR⟩ := hne
            rcases List.mem_append.mp hmem with h | h
            · exact hyR (hRsound c hc h y hy)
            · exact hyR (hqs c hc h y hy)
          have hnew_nodup : (scan_decrement cards d m).2.Nodup := by
            rw [h2]
            exact ((List.filter_sublist cards).map (fun c => c.name)).nodup hnodup
          have hnd' : ((R ++ [d]) ++ (q0 ++ (scan_decrement cards d m).2)).Nodup := by
            have heq : (R ++ [d]) ++ (q0 ++ (scan_decrement cards d m).2)
                = (R ++ d :: q0) ++ (scan_decrement cards d m).2 := by simp
            rw [heq]
            exact hnd.append hnew_nodup (fun a ha hb => hfresh a hb ha)
          have hsub' : ∀ x ∈ (R ++ [d]) ++ (q0 ++ (scan_decrement cards d m).2),
              x ∈ cards.map (fun c => c.name) := by
            intro x hx
            rcases List.mem_append.mp hx with h | h
            · rcases List.mem_append.mp h with h' | h'
              · exact hsub x (List.mem_append_left _ h')
              · have hxd : x = d := by simpa using h'
                exact hxd ▸ hsub d (List.mem_append_right _ (List.mem_cons_self _ _))
            · rcases List.mem_append.mp h with h' | h'
              · exact hsub x (List.mem_append_right _ (List.mem_cons_of_mem _ h'))
              · obtain ⟨c, hc, rfl, _, _⟩ := hnew_ex x h'
                exact List.mem_map_of_mem _ hc
          have hord' : ∀ c ∈ cards, ∀ k, ∀ (hk : k < (R ++ [d]).length),
              (R ++ [d]).get ⟨k, hk⟩ = c.name →
              ∀ y ∈ direct_deps cards c, y ∈ (R ++ [d]).take k := by
            intro c hc k hk hget y hy
            rcases Nat.lt_or_ge k R.length with hlt | hge
            · have hget' : R.get ⟨k, hlt⟩ = c.name := by
                rw [← hget]
                rw [List.get_eq_getElem, List.get_eq_getElem]
                exact (List.getElem_append_left hlt).symm
              have hmem := hord c hc k hlt hget' y hy
              rw [List.take_append_of_le_length (Nat.le_of_lt hlt)]
              exact hmem
            · have hklen : k < R.length + 1 := by simpa using hk
              have hkeq : k = R.length := by omega
              subst hkeq
              have hgetd : (R ++ [d]).get ⟨R.length, hk⟩ = d := by
                rw [List.get_eq_getElem]
                exact List.getElem_concat_length R d R.length rfl hk
              have hcd : c.name = d := by rw [← hget, hgetd]
              have hyR : y ∈ R := by
                refine hqs c hc ?_ y hy
                rw [hcd]
                exact List.mem_cons_self _ _
              rw [List.take_left]
              exact hyR
          have hfuel' : cards.length ≤ fuel + (R ++ [d]).length := by
            rw [List.length_append]
            simp only [List.length_cons, List.length_nil]
            omega
          rw [show kahn_loop cards (fuel + 1) m (d :: q0) R
              = kahn_loop cards fuel (scan_decrement cards d m).1
                  (q0 ++ (scan_decrement cards d m).2) (R ++ [d]) from rfl]
          exact ih (scan_decrement cards d m).1 (q0 ++ (scan_decrement cards d m).2)
            (R ++ [d]) hfuel' hm' hnd' hsub' hqs' hqc' hord'

theorem kahn_spec (cards : List ComponentCard)
    (hnodup : (cards.map (fun c => c.name)).Nodup) :
    (kahn cards).Nodup ∧
      (∀ x ∈ kahn cards, x ∈ cards.map (fun c => c.name)) ∧
      (∀ c ∈ cards, ∀ k, ∀ (hk : k < (kahn cards).length),
          (kahn cards).get ⟨k, hk⟩ = c.name →
          ∀ x ∈ direct_deps cards c, x ∈ (kahn cards).take k) ∧
      (∀ c ∈ cards, (∀ x ∈ direct_deps cards c, x ∈ kahn cards) →
          c.name ∈ kahn cards) := by
  have h := kahn_loop_spec cards hnodup cards.length (initial_indeg cards)
    (initial_queue cards) []
  have hinit_m : initial_indeg cards = cards.map (fun c => (c.name,
      ((direct_deps cards c).filter (fun x => x ∉ ([] : List PyStr))).length)) := by
    show cards.map _ = _
    apply List.map_congr_left
    intro c _
    have hfe : (direct_deps cards c).filter (fun x => x ∉ ([] : List PyStr))
        = direct_deps cards c :=
      List.filter_eq_self.mpr (fun a _ => by simp)
    rw [hfe]
  have hq_nodup : (([] : List PyStr) ++ initial_queue cards).Nodup := by
    rw [List.nil_append]
    exact ((List.filter_sublist cards).map (fun c => c.name)).nodup hnodup
  have hq_sub : ∀ x ∈ ([] : List PyStr) ++ initial_queue cards,
      x ∈ cards.map (fun c => c.name) := by
    intro x hx
    rw [List.nil_append] at hx
    obtain ⟨c, hcf, rfl⟩ := List.mem_map.mp hx
    exact List.mem_map_of_mem _ (List.mem_filter.mp hcf).1
  have hq_sound : ∀ c ∈ cards, c.name ∈ initial_queue cards →
      ∀ x ∈ direct_deps cards c, x ∈ ([] : List PyStr) := by
    intro c hc hq x hx
    obtain ⟨c2, hcf, hname⟩ := List.mem_map.mp hq
    obtain ⟨hc2, hprop⟩ := List.mem_filter.mp hcf
    rw [decide_eq_true_eq] at hprop
    have hcc : c2 = c := card_name_inj hnodup c2 hc2 c hc hname
    rw [hcc] at hprop
    rw [hprop] at hx
    cases hx
  have hq_complete : ∀ c ∈ cards, (∀ x ∈ direct_deps cards c, x ∈ ([] : List PyStr)) →
      c.name ∈ ([] : List PyStr) ++ initial_queue cards := by
    intro c hc hdeps
    rw [List.nil_append]
    refine List.mem_map_of_mem _ (List.mem_filter.mpr ⟨hc, ?_⟩)
    rw [decide_eq_true_eq]
    exact List.eq_nil_iff_forall_not_mem.mpr (fun a ha => by cases hdeps a ha)
  have hres := h (by simp) hinit_m hq_nodup hq_sub hq_sound hq_complete
    (by intro c hc k hk; simp at hk)
  exact hres

theorem kahn_dep_before (cards : List ComponentCard)
    (hnodup : (cards.map (fun c => c.name)).Nodup)
    {a b : ComponentCard} (ha : a ∈ cards) (hb : b ∈ cards) (hdep : DependsOn a b)
    {j : Nat} (hj : j < (kahn cards).length)
    (hget : (kahn cards).get ⟨j, hj⟩ = a.name) :
    ∃ i, ∃ (hi : i < (kahn cards).length),
      i < j ∧ (kahn cards).get ⟨i, hi⟩ = b.name := by
  obtain ⟨_, _, hord, _⟩ := kahn_spec cards hnodup
  have hbdep : b.name ∈ direct_deps cards a :=
    (direct_deps_mem cards a b.name).mpr ⟨b, hb, rfl, hdep⟩
  exact mem_take_exists_get _ _ _ (hord a ha j hj hget b.name hbdep)

theorem cycle_succ {cards : List ComponentCard} {l : List ComponentCard}
    (hcyc : IsDepCycle cards l) : ∀ c ∈ l, ∃ c2 ∈ l, DependsOn c c2 := by
  intro c hc
  obtain ⟨i, hget⟩ := List.mem_iff_get.mp hc
  refine ⟨l.get ⟨(i.val + 1) % l.length,
      Nat.mod_lt _ (Nat.lt_of_le_of_lt (Nat.zero_le i.val) i.isLt)⟩,
    List.get_mem _ _ _, ?_⟩
  exact hget ▸ hcyc.2.2 i

theorem cycle_unscheduled (cards : List ComponentCard)
    (hnodup : (cards.map (fun c => c.name)).Nodup)
    {l : List ComponentCard} (hcyc : IsDepCycle cards l) :
    ∀ c ∈ l, c.name ∉ kahn cards := by
  have main : ∀ n, ∀ c ∈ l,
      (∃ j, ∃ (h : j < (kahn cards).length),
        j < n ∧ (kahn cards).get ⟨j, h⟩ = c.name) → False := by
    intro n
    induction n with
    | zero =>
        rintro c hc ⟨j, h, hlt, _⟩
        omega
    | succ n ihn =>
        rintro c hc ⟨j, hjlen, hjlt, hget⟩
        obtain ⟨c2, hc2, hdep⟩ := cycle_succ hcyc c hc
        obtain ⟨i, hi, hij, hgeti⟩ := kahn_dep_before cards hnodup
          (hcyc.2.1 c hc) (hcyc.2.1 c2 hc2) hdep hjlen hget
        exact ihn c2 hc2 ⟨i, hi, by omega, hgeti⟩
  intro c hc hmem
  obtain ⟨j, hget⟩ := List.mem_iff_get.mp hmem
  exact main (j.val + 1) c hc ⟨j.val, j.isLt, Nat.lt_succ_self _, hget⟩

theorem unscheduled_cycle (cards : List ComponentCard)
    (hnodup : (cards.map (fun c => c.name)).Nodup)
    {c0 : ComponentCard} (hc0 : c0 ∈ cards) (hun : c0.name ∉ kahn cards) :
    ∃ l, IsDepCycle cards l := by
  classical
  obtain ⟨_, _, _, hcomp⟩ := kahn_spec cards hnodup
  have hstep : ∀ c, c ∈ cards ∧ c.name ∉ kahn cards →
      ∃ p, (p ∈ cards ∧ p.name ∉ kahn cards) ∧ DependsOn c p := by
    rintro c ⟨hc, hcn⟩
    by_contra hnone
    push_neg at hnone
    have hall : ∀ x ∈ direct_deps cards c, x ∈ kahn cards := by
      intro x hx
      by_contra hxn
      obtain ⟨p, hp, rfl, hdep⟩ := (direct_deps_mem cards c x).mp hx
      exact hnone p ⟨hp, hxn⟩ hdep
    exact hcn (hcomp c hc hall)
  let f : ComponentCard → ComponentCard := fun c =>
    if h : c ∈ cards ∧ c.name ∉ kahn cards then (hstep c h).choose else c
  have hf : ∀ c (h : c ∈ cards ∧ c.name ∉ kahn cards),
      (f c ∈ cards ∧ (f c).name ∉ kahn cards) ∧ DependsOn c (f c) := by
    intro c h
    have hfc : f c = (hstep c h).choose := dif_pos h
    rw [hfc]
    exact (hstep c h).choose_spec
  have hS : ∀ n, f^[n] c0 ∈ cards ∧ (f^[n] c0).name ∉ kahn cards := by
    intro n
    induction n with
    | zero => exact ⟨hc0, hun⟩
    | succ n ihn =>
        rw [Function.iterate_succ_apply']
        exact (hf _ ihn).1
  have hSdep : ∀ n, DependsOn (f^[n] c0) (f^[n + 1] c0) := by
    intro n
    rw [Function.iterate_succ_apply']
    exact (hf _ (hS n)).2
  have hgetL : ∀ (t : Nat) (ht : t < ((List.range (cards.length + 1)).map
      (fun n => f^[n] c0)).length),
      ((List.range (cards.length + 1)).map (fun n => f^[n] c0)).get ⟨t, ht⟩
        = f^[t] c0 := by
    intro t ht
    rw [List.get_eq_getElem, List.getElem_map, List.getElem_range]
  have hLnodup : ¬ ((List.range (cards.length + 1)).map (fun n => f^[n] c0)).Nodup := by
    intro hndL
    have h1 : ((List.range (cards.length + 1)).map (fun n => f^[n] c0)).toFinset.card
        = cards.length + 1 := by
      rw [List.toFinset_card_of_nodup hndL]
      simp
    have h2 : ((List.range (cards.length + 1)).map (fun n => f^[n] c0)).toFinset
        ⊆ cards.toFinset := by
      intro x hx
      rw [List.mem_toFinset] at hx
      obtain ⟨n, _, rfl⟩ := List.mem_map.mp hx
      rw [List.mem_toFinset]
      exact (hS n).1
    have h3 := Finset.card_le_card h2
    have h4 := List.toFinset_card_le cards
    omega
  have hrep : ∃ i j : Nat, i < j ∧ j ≤ cards.length + 1 ∧ f^[i] c0 = f^[j] c0 := by
    rw [List.nodup_iff_injective_get] at hLnodup
    simp only [Function.Injective] at hLnodup
    push_neg at hLnodup
    obtain ⟨a, b, hab, hne⟩ := hLnodup
    obtain ⟨av, ahlt⟩ := a
    obtain ⟨bv, bhlt⟩ := b
    rw [hgetL av ahlt, hgetL bv bhlt] at hab
    have halen : av < cards.length + 1 := by
      have h' := ahlt
      simp only [List.length_map, List.length_range] at h'
      exact h'
    have hblen : bv < cards.length + 1 := by
      have h' := bhlt
      simp only [List.length_map, List.length_range] at h'
      exact h'
    rcases Nat.lt_trichotomy av bv with hlt | heq | hgt
    · exact ⟨av, bv, hlt, by omega, hab⟩
    · exact absurd (Fin.ext heq) hne
    · exact ⟨bv, av, hgt, by omega, hab.symm⟩
  obtain ⟨i, j, hij, hjle, hrepeq⟩ := hrep
  have hlen : ((List.range (j - i)).map (fun k => f^[i + k] c0)).length = j - i := by
    simp
  have hget : ∀ (t : Nat) (ht : t < ((List.range (j - i)).map
      (fun k => f^[i + k] c0)).length),
      ((List.range (j - i)).map (fun k => f^[i + k] c0)).get ⟨t, ht⟩
        = f^[i + t] c0 := by
    intro t ht
    rw [List.get_eq_getElem, List.getElem_map, List.getElem_range]
  refine ⟨(List.range (j - i)).map (fun k => f^[i + k] c0), ?_, ?_, ?_⟩
  · intro hnil
    have hl0 := congrArg List.length hnil
    simp at hl0
    omega
  · intro x hx
    obtain ⟨k, _, rfl⟩ := List.mem_map.mp hx
    exact (hS (i + k)).1
  · intro idx
    obtain ⟨t, ht⟩ := idx
    have ht' : t < j - i := by
      have h' := ht
      rw [hlen] at h'
      exact h'
    have hpos : 0 < ((List.range (j - i)).map (fun k => f^[i + k] c0)).length := by
      omega
    have hmlt : (t + 1) % ((List.range (j - i)).map (fun k => f^[i + k] c0)).length
        < ((List.range (j - i)).map (fun k => f^[i + k] c0)).length :=
      Nat.mod_lt _ hpos
    rw [hget t ht, hget _ hmlt]
    rcases Nat.lt_or_ge (t + 1) (j - i) with hlt | hge
    · have hmod : (t + 1) % ((List.range (j - i)).map
          (fun k => f^[i + k] c0)).length = t + 1 := by
        rw [hlen]
        exact Nat.mod_eq_of_lt hlt
      rw [hmod]
      have harith : i + (t + 1) = (i + t) + 1 := by omega
      rw [harith]
      exact hSdep (i + t)
    · have heq1 : t + 1 = j - i := by omega
      have hmod : (t + 1) % ((List.range (j - i)).map
          (fun k => f^[i + k] c0)).length = 0 := by
        rw [hlen, heq1]
        exact Nat.mod_self _
      rw [hmod]
      have h0 : f^[i + 0] c0 = f^[(i + t) + 1] c0 := by
        have harith : (i + t) + 1 = j := by omega
        rw [harith]
        simpa using hrepeq
      rw [h0]
      exact hSdep (i + t)

/-- C1: for every input whose card names are distinct and in which no
needs/provides dependency cycle exists, resolution succeeds and the computed
execution order places every component strictly after every component that
provides any resource it needs (the resolver is modelled from spec §4.1, the
source delegating the sort to an external reasoning service). -/
theorem c1_resolve_acyclic_order (cards : List ComponentCard)
    (hnodup : (cards.map (fun c => c.name)).Nodup)
    (hacyc : ¬ ∃ l, IsDepCycle cards l) :
    resolve cards = Except.ok (kahn cards) ∧
      ∀ a ∈ cards, ∀ b ∈ cards, DependsOn a b →
        ∃ i j, ∃ (hi : i < (kahn cards).length) (hj : j < (kahn cards).length),
          i < j ∧ (kahn cards).get ⟨i, hi⟩ = b.name ∧
            (kahn cards).get ⟨j, hj⟩ = a.name := by
  have hcov : ∀ c ∈ cards, c.name ∈ kahn cards := by
    intro c hc
    by_contra hun
    exact hacyc (unscheduled_cycle cards hnodup hc hun)
  have hlen : cards.length ≤ (kahn cards).length := by
    have hssub : (cards.map (fun c => c.name)).toFinset ⊆ (kahn cards).toFinset := by
      intro x hx
      rw [List.mem_toFinset] at hx
      obtain ⟨c, hc, rfl⟩ := List.mem_map.mp hx
      rw [List.mem_toFinset]
      exact hcov c hc
    have h2 := Finset.card_le_card hssub
    rw [List.toFinset_card_of_nodup hnodup] at h2
    have h3 := List.toFinset_card_le (kahn cards)
    have h4 : (cards.map (fun c => c.name)).length = cards.length := List.length_map _ _
    omega
  constructor
  · show (if (kahn cards).length < cards.length then _ else _) = _
    rw [if_neg (by omega)]
  · intro a ha b hb hdep
    obtain ⟨jf, hgetj⟩ := List.mem_iff_get.mp (hcov a ha)
    obtain ⟨i, hi, hij, hgeti⟩ := kahn_dep_before cards hnodup ha hb hdep jf.isLt hgetj
    exact ⟨i, jf.val, hi, jf.isLt, hij, hgeti, hgetj⟩

/-- C1 witness: spec test scenario 1 — `A` provides `"x"`, `B` needs `"x"` —
has distinct names and no cycle, and resolution orders `A` before `B`. -/
theorem c1_witness :
    (([cardW_A, cardW_B].map (fun c => c.name)).Nodup ∧
        ¬ ∃ l, IsDepCycle [cardW_A, cardW_B] l) ∧
      (resolve [cardW_A, cardW_B] = Except.ok (kahn [cardW_A, cardW_B]) ∧
        ∀ a ∈ [cardW_A, cardW_B], ∀ b ∈ [cardW_A, cardW_B], DependsOn a b →
          ∃ i j, ∃ (hi : i < (kahn [cardW_A, cardW_B]).length)
              (hj : j < (kahn [cardW_A, cardW_B]).length),
            i < j ∧ (kahn [cardW_A, cardW_B]).get ⟨i, hi⟩ = b.name ∧
              (kahn [cardW_A, cardW_B]).get ⟨j, hj⟩ = a.name) := by
  have hacyc : ¬ ∃ l, IsDepCycle [cardW_A, cardW_B] l := by
    rintro ⟨l, hne, hmem, hcyc⟩
    have hA : ∀ x ∈ l, x = cardW_B := by
      intro x hx
      rcases List.mem_cons.mp (hmem x hx) with h | h
      · exfalso
        obtain ⟨c2, _, hdep⟩ := cycle_succ ⟨hne, hmem, hcyc⟩ x hx
        obtain ⟨r, hr1, _⟩ := hdep
        rw [h] at hr1
        simp [cardW_A] at hr1
      · simpa using h
    obtain ⟨c, hcl⟩ := List.exists_mem_of_ne_nil l hne
    obtain ⟨c2, hc2l, hdep⟩ := cycle_succ ⟨hne, hmem, hcyc⟩ c hcl
    rw [hA c hcl, hA c2 hc2l] at hdep
    obtain ⟨r, hr1, hr2⟩ := hdep
    simp [cardW_B] at hr1 hr2
    rw [hr1] at hr2
    exact absurd hr2 (by decide)
  exact ⟨⟨by decide, hacyc⟩, c1_resolve_acyclic_order [cardW_A, cardW_B] (by decide) hacyc⟩

theorem cycle_pred {cards : List ComponentCard} {l : List ComponentCard}
    (hcyc : IsDepCycle cards l) : ∀ c ∈ l, ∃ c1 ∈ l, DependsOn c1 c := by
  intro c hc
  obtain ⟨k, hget⟩ := List.mem_iff_get.mp hc
  have hpos : 0 < l.length := Nat.lt_of_le_of_lt (Nat.zero_le _) k.isLt
  have hplt : (k.val + l.length - 1) % l.length < l.length := Nat.mod_lt _ hpos
  have hsucc : (((k.val + l.length - 1) % l.length) + 1) % l.length = k.val := by
    rw [Nat.mod_add_mod]
    have h1 : k.val + l.length - 1 + 1 = k.val + l.length := by omega
    rw [h1, Nat.add_mod_right]
    exact Nat.mod_eq_of_lt k.isLt
  have hd := hcyc.2.2 ⟨(k.val + l.length - 1) % l.length, hplt⟩
  obtain ⟨r, hr1, hr2⟩ := hd
  refine ⟨l.get ⟨(k.val + l.length - 1) % l.length, hplt⟩, List.get_mem _ _ _, r, hr1, ?_⟩
  convert hr2 using 2
  rw [← hget]
  congr 1
  exact (Fin.ext hsucc).symm

/-- C2 (counterexample): with `A` needs `"y"`/provides `"x"`, `B` needs
`"x"`/provides `"y"` and a bystander `C` that needs `"x"` but provides
nothing, the only dependency cycles lie inside `{A, B}` — `C` belongs to no
cycle since nothing provides to it is needed — yet the raised error reports
`{A, B, C}`, a strict superset of the cycle set. -/
theorem c2_counterexample :
    resolve [cardC_A, cardC_B, cardC_C]
        = Except.error ⟨[pstr ("A"), pstr ("B"), pstr ("C")]⟩ ∧
      IsDepCycle [cardC_A, cardC_B, cardC_C] [cardC_A, cardC_B] ∧
      (∀ l, IsDepCycle [cardC_A, cardC_B, cardC_C] l →
        ∀ c ∈ l, c.name ≠ pstr ("C")) := by
  refine ⟨by rfl, by decide, ?_⟩
  rintro l ⟨hne, hmem, hcyc⟩ c hcl hname
  obtain ⟨c1, hc1l, hdep⟩ := cycle_pred ⟨hne, hmem, hcyc⟩ c hcl
  rcases List.mem_cons.mp (hmem c hcl) with h | h'
  · rw [h] at hname
    exact absurd hname (by decide)
  · rcases List.mem_cons.mp h' with h | h''
    · rw [h] at hname
      exact absurd hname (by decide)
    · have hcC : c = cardC_C := by simpa using h''
      obtain ⟨r, _, hr2⟩ := hdep
      rw [hcC] at hr2
      simp [cardC_C] at hr2

/-- C2 (amended): for any distinctly-named input containing a dependency cycle
`l`, resolution never returns an order — it raises `CycleDetected` — and every
cycle member's name appears in the reported remaining set; the set can be a
strict superset of the cycle, since components that merely depend on the cycle
are also left unscheduled (the resolver is modelled from spec §4.1). -/
theorem c2_cycle_error_superset (cards : List ComponentCard)
    (hnodup : (cards.map (fun c => c.name)).Nodup)
    (l : List ComponentCard) (hcyc : IsDepCycle cards l) :
    ∃ e : CycleDetected, resolve cards = Except.error e ∧
      ∀ c ∈ l, c.name ∈ e.remaining := by
  have hun := cycle_unscheduled cards hnodup hcyc
  obtain ⟨c0, hc0⟩ := List.exists_mem_of_ne_nil l hcyc.1
  have hc0cards := hcyc.2.1 c0 hc0
  have hlt : (kahn cards).length < cards.length := by
    obtain ⟨hnd, hsub, _, _⟩ := kahn_spec cards hnodup
    by_contra hge
    push_neg at hge
    have hcov := nodup_covers hnd hnodup hsub
      (by rw [List.length_map]; exact hge)
    exact hun c0 hc0 (hcov c0.name (List.mem_map_of_mem _ hc0cards))
  refine ⟨⟨(cards.map (fun c => c.name)).filter (fun nm => nm ∉ kahn cards)⟩, ?_, ?_⟩
  · show (if (kahn cards).length < cards.length then _ else _) = _
    rw [if_pos hlt]
  · intro c hc
    show c.name ∈ (cards.map (fun c => c.name)).filter (fun nm => nm ∉ kahn cards)
    exact List.mem_filter.mpr
      ⟨List.mem_map_of_mem _ (hcyc.2.1 c hc), by simpa using hun c hc⟩

/-- C2 witness: on the concrete three-card input the amended theorem applies —
the `A`/`B` cycle is reported inside the remaining set. -/
theorem c2_witness :
    ∃ e : CycleDetected, resolve [cardC_A, cardC_B, cardC_C] = Except.error e ∧
      ∀ c ∈ [cardC_A, cardC_B], c.name ∈ e.remaining :=
  c2_cycle_error_superset [cardC_A, cardC_B, cardC_C] (by decide)
    [cardC_A, cardC_B] (by decide)

/-! ### Conflict-resolution string lemmas (C3) -/

theorem splitFirst_first_at {sep : PyStr} {c : Char} {tail : PyStr}
    (hsep : sep = c :: tail) :
    ∀ (a b : PyStr), c ∉ a → splitFirst sep (a ++ sep ++ b) = some (a, b) := by
  intro a
  induction a with
  | nil =>
      intro b _
      have hcons : ([] : PyStr) ++ sep ++ b = c :: (tail ++ b) := by
        rw [hsep]
        rfl
      rw [hcons]
      have hpre : sep.isPrefixOf (c :: (tail ++ b)) = true := by
        rw [hsep]
        exact List.isPrefixOf_iff_prefix.mpr ⟨b, rfl⟩
      show (if sep.isPrefixOf (c :: (tail ++ b)) = true then _ else _) = _
      rw [if_pos hpre]
      have hdrop : (c :: (tail ++ b)).drop sep.length = b := by
        rw [hsep]
        simp only [List.length_cons, List.drop_succ_cons]
        exact List.drop_left tail b
      rw [hdrop]
  | cons x xs ih =>
      intro b hca
      have hxne : ¬ c = x := fun h => hca (h ▸ List.mem_cons_self x xs)
      have hcons : (x :: xs) ++ sep ++ b = x :: (xs ++ sep ++ b) := rfl
      rw [hcons]
      have hpre : sep.isPrefixOf (x :: (xs ++ sep ++ b)) = false := by
        rw [hsep]
        simp [List.isPrefixOf, hxne]
      show (if sep.isPrefixOf (x :: (xs ++ sep ++ b)) = true then _ else _) = _
      rw [if_neg (by rw [hpre]; exact Bool.false_ne_true)]
      rw [ih b (fun h => hca (List.mem_cons_of_mem _ h))]
      rfl

theorem takeBefore_first_at {sep : PyStr} {c : Char} {tail : PyStr}
    (hsep : sep = c :: tail) {a : PyStr} (b : PyStr) (hca : c ∉ a) :
    takeBefore sep (a ++ sep ++ b) = a := by
  unfold takeBefore
  rw [splitFirst_first_at hsep a b hca]

theorem alnum_char_facts {c : Char} (h : pyIsAlnumChar c = true) :
    pyIsSpace c = false ∧ c ≠ '(' ∧ c ≠ ')' ∧ c ≠ '=' ∧ c ≠ '_' := by
  refine ⟨?_, ?_, ?_, ?_, ?_⟩
  · by_contra hsp
    rw [Bool.not_eq_false] at hsp
    simp only [pyIsSpace, Bool.or_eq_true, decide_eq_true_eq] at hsp
    rcases hsp with ((((h1 | h1) | h1) | h1) | h1) | h1 <;> (subst h1; revert h; decide)
  · intro he; subst he; revert h; decide
  · intro he; subst he; revert h; decide
  · intro he; subst he; revert h; decide
  · intro he; subst he; revert h; decide

theorem pyStrip_id {s : PyStr} (h : ∀ c ∈ s, pyIsSpace c = false) : pyStrip s = s := by
  unfold pyStrip pyStripLeft pyStripRight
  rw [dropWhile_of_all_neg h]
  rw [dropWhile_of_all_neg (fun c hc => h c (List.mem_reverse.mp hc))]
  exact List.reverse_reverse s

theorem pyStripLeft_cons_of {c : Char} {r : PyStr} (h : pyIsSpace c = false) :
    pyStripLeft (c :: r) = c :: r := by
  unfold pyStripLeft
  rw [List.dropWhile_cons]
  simp [h]

theorem pyStripRight_of_last {s : PyStr} {c : Char} (h : pyIsSpace c = false) :
    pyStripRight (s ++ [c]) = s ++ [c] := by
  unfold pyStripRight
  rw [List.reverse_append]
  show ((c :: s.reverse).dropWhile pyIsSpace).reverse = _
  rw [List.dropWhile_cons]
  simp [h]

theorem not_def_leading {n : PyStr} (rhs : PyStr) (hne : n ≠ []) (hndef : n ≠ pstr ("def"))
    (hn : ∀ c ∈ n, pyIsSpace c = false) :
    (pstr ("def ")).isPrefixOf (n ++ pstr (" = ") ++ rhs) = false := by
  by_contra h
  rw [Bool.not_eq_false] at h
  obtain ⟨t, ht⟩ := List.isPrefixOf_iff_prefix.mp h
  have heq : pstr ("def ") ++ t = n ++ (pstr (" = ") ++ rhs) := by
    rw [ht]
    simp [List.append_assoc]
  rcases List.append_eq_append_iff.mp heq with ⟨a', ha1, _⟩ | ⟨c', hc1, hc2⟩
  · have hm : ' ' ∈ n := by
      rw [ha1]
      exact List.mem_append_left _ (by decide)
    exact absurd (hn ' ' hm) (by decide)
  · cases n with
    | nil => exact hne rfl
    | cons a n1 =>
        rw [show pstr ("def ") = 'd' :: 'e' :: 'f' :: ' ' :: [] from rfl] at hc1
        have hc1' : 'd' :: 'e' :: 'f' :: ' ' :: [] = a :: (n1 ++ c') := by
          rw [hc1]
          rfl
        injection hc1' with had htail
        cases n1 with
        | nil =>
            have hc' : c' = 'e' :: 'f' :: ' ' :: [] := by simpa using htail.symm
            rw [hc', show pstr (" = ") = ' ' :: '=' :: ' ' :: [] from rfl] at hc2
            have hc2' : ' ' :: ('=' :: ' ' :: rhs) = 'e' :: ('f' :: ' ' :: t) := by
              simpa using hc2
            injection hc2' with hh _
            exact absurd hh (by decide)
        | cons b n2 =>
            injection htail with hbe htail2
            cases n2 with
            | nil =>
                have hc' : c' = 'f' :: ' ' :: [] := by simpa using htail2.symm
                rw [hc', show pstr (" = ") = ' ' :: '=' :: ' ' :: [] from rfl] at hc2
                have hc2' : ' ' :: ('=' :: ' ' :: rhs) = 'f' :: (' ' :: t) := by
                  simpa using hc2
                injection hc2' with hh _
                exact absurd hh (by decide)
            | cons c3 n3 =>
                injection htail2 with hcf htail3
                cases n3 with
                | nil =>
                    subst had
                    subst hbe
                    subst hcf
                    exact hndef rfl
                | cons c4 n4 =>
                    injection htail3 with hsp _
                    subst hsp
                    exact absurd (hn ' ' (by simp)) (by decide)

theorem splitFirst_none {sep : PyStr} {c : Char} {tail : PyStr} (hsep : sep = c :: tail) :
    ∀ {a : PyStr}, c ∉ a → splitFirst sep a = none := by
  intro a
  induction a with
  | nil =>
      intro _
      show (if sep.isPrefixOf ([] : PyStr) = true then _ else _) = _
      rw [if_neg (by rw [hsep]; simp [List.isPrefixOf])]
  | cons x xs ih =>
      intro hca
      have hxne : ¬ c = x := fun h => hca (h ▸ List.mem_cons_self x xs)
      have hpre : sep.isPrefixOf (x :: xs) = false := by
        rw [hsep]
        simp [List.isPrefixOf, hxne]
      show (if sep.isPrefixOf (x :: xs) = true then _ else _) = _
      rw [if_neg (by rw [hpre]; exact Bool.false_ne_true)]
      rw [ih (fun h => hca (List.mem_cons_of_mem _ h))]
      rfl

theorem splitAll_head {a : PyStr} (b : PyStr) (hca : ('\n') ∉ a) :
    ∃ rest, splitAll (pstr ("\n")) (a ++ pstr ("\n") ++ b) = a :: rest := by
  refine ⟨splitAllAux (pstr ("\n")) (a.length + b.length) b, ?_⟩
  have hlen : (a ++ pstr ("\n") ++ b).length = a.length + b.length + 1 := by
    simp only [List.length_append]
    have : (pstr ("\n")).length = 1 := rfl
    omega
  unfold splitAll
  rw [hlen]
  simp only [splitAllAux]
  rw [splitFirst_first_at (show pstr ("\n") = ('\n') :: [] from rfl) a b hca]

theorem first_line_join {a : PyStr} (rest : List PyStr) (hca : ('\n') ∉ a) :
    first_line (pyJoin (pstr ("\n")) (a :: rest)) = a := by
  cases rest with
  | nil =>
      show takeBefore (pstr ("\n")) a = a
      unfold takeBefore
      rw [splitFirst_none (show pstr ("\n") = ('\n') :: [] from rfl) hca]
  | cons y ys =>
      show takeBefore (pstr ("\n")) (a ++ pstr ("\n") ++ pyJoin (pstr ("\n")) (y :: ys)) = a
      exact takeBefore_first_at (show pstr ("\n") = ('\n') :: [] from rfl) _ hca

theorem insert_typing_loop_head (imps : List PyStr) :
    ∀ (x : PyStr) (l : List PyStr) (n : Nat),
      ∃ l', (insert_typing_loop (x :: l, n) imps).1 = x :: l' := by
  induction imps with
  | nil => intro x l _; exact ⟨l, rfl⟩
  | cons t ts ih =>
      intro x l n
      obtain ⟨l', hl'⟩ := ih x (pyInsert n t l) (n + 1)
      refine ⟨l', ?_⟩
      simp only [insert_typing_loop, List.foldl_cons] at hl' ⊢
      exact hl'

theorem first_line_add_typing {a : PyStr} {b : PyStr} (hca : ('\n') ∉ a) :
    first_line (add_typing_imports (a ++ pstr ("\n") ++ b)) = a := by
  by_cases hneed : needed_typing_imports (a ++ pstr ("\n") ++ b) = []
  · simp only [add_typing_imports]
    rw [if_pos hneed]
    exact takeBefore_first_at (show pstr ("\n") = ('\n') :: [] from rfl) _ hca
  · simp only [add_typing_imports]
    rw [if_neg hneed]
    obtain ⟨rest, hsplit⟩ := splitAll_head b hca
    rw [hsplit]
    obtain ⟨l', hl'⟩ := insert_typing_loop_head
      (pySorted (needed_typing_imports (a ++ pstr ("\n") ++ b))) a rest
      (last_import_idx (a :: rest))
    rw [hl']
    exact first_line_join l' hca

theorem banner_line_no_newline {g q al : PyStr} (hq : ('\n') ∉ q) (ha : ('\n') ∉ al)
    (hg : ('\n') ∉ g) : ('\n') ∉ banner_line g q al := by
  intro h
  simp only [banner_line, List.append_assoc, List.mem_append] at h
  rcases h with h | h | h | h | h | h
  · exact absurd h (by decide)
  · exact hq h
  · exact absurd h (by decide)
  · exact ha h
  · exact absurd h (by decide)
  · exact hg h

theorem assemble_first_line (amb : Ambient) (memory : List CodeCell)
    (plan : PipelinePlanDict) (task_card : TaskCardDict) (param_map : ParamMapDict)
    (out : PyStr)
    (hq : ('\n') ∉ task_card.problem.getD (pstr ("Unknown query")))
    (ha : ('\n') ∉ pyUpper (task_card.algorithm.getD (pstr ("VQE"))))
    (hg : ('\n') ∉ amb.gen_time)
    (hok : assemble amb memory plan task_card param_map = Except.ok out) :
    first_line out = banner_line amb.gen_time
      (task_card.problem.getD (pstr ("Unknown query")))
      (pyUpper (task_card.algorithm.getD (pstr ("VQE")))) := by
  simp only [assemble] at hok
  by_cases hE : (memory_export memory).isEmpty = true
  · rw [if_pos hE] at hok
    simp at hok
  · rw [if_neg hE] at hok
    injection hok with hout
    rw [← hout]
    simp only [create_complete_program]
    exact first_line_add_typing (banner_line_no_newline hq ha hg)

/-- C4: assembly is deterministic only relative to the ambient run state. Two
successful runs over identical arguments agree whenever the ambient state
(generation time, hash seed, helper loader) coincides; conversely each output's
first line is exactly the banner carrying that run's generation time, so runs
whose generation times differ can never emit byte-identical texts. -/
theorem c4_determinism_relative_to_gen_time
    (amb1 amb2 : Ambient) (memory : List CodeCell) (plan : PipelinePlanDict)
    (task_card : TaskCardDict) (param_map : ParamMapDict) (out1 out2 : PyStr)
    (hq : ('\n') ∉ task_card.problem.getD (pstr ("Unknown query")))
    (ha : ('\n') ∉ pyUpper (task_card.algorithm.getD (pstr ("VQE"))))
    (hg1 : ('\n') ∉ amb1.gen_time) (hg2 : ('\n') ∉ amb2.gen_time)
    (h1 : assemble amb1 memory plan task_card param_map = Except.ok out1)
    (h2 : assemble amb2 memory plan task_card param_map = Except.ok out2) :
    (amb1 = amb2 → out1 = out2) ∧
    first_line out1 = banner_line amb1.gen_time
      (task_card.problem.getD (pstr ("Unknown query")))
      (pyUpper (task_card.algorithm.getD (pstr ("VQE")))) ∧
    (out1 = out2 → amb1.gen_time = amb2.gen_time) := by
  have f1 := assemble_first_line amb1 memory plan task_card param_map out1 hq ha hg1 h1
  have f2 := assemble_first_line amb2 memory plan task_card param_map out2 hq ha hg2 h2
  refine ⟨?_, f1, ?_⟩
  · intro h
    subst h
    rw [h1] at h2
    injection h2
  · intro h
    rw [h] at f1
    have hban := f1.symm.trans f2
    simp only [banner_line, List.append_assoc] at hban
    exact List.append_cancel_left (List.append_cancel_left (List.append_cancel_left
      (List.append_cancel_left (List.append_cancel_left hban))))

/-- C4 counterexample: two runs of `assemble` over identical, structurally
equal arguments but performed at different generation times produce different
output texts, refuting byte-identical determinism over the inputs alone. -/
theorem c4_counterexample :
    (assemble ⟨pstr ("2025-01-01T00:00:00"), fun _ => 0, fun hs => hs⟩
        [⟨pstr ("c"), [], [], [], [], []⟩] ⟨[], [], []⟩
        ⟨pstr ("d"), Option.none, Option.none, pstr ("b"), []⟩
        ⟨Option.none, [], [], []⟩).toOption ≠
    (assemble ⟨pstr ("2025-01-02T00:00:00"), fun _ => 0, fun hs => hs⟩
        [⟨pstr ("c"), [], [], [], [], []⟩] ⟨[], [], []⟩
        ⟨pstr ("d"), Option.none, Option.none, pstr ("b"), []⟩
        ⟨Option.none, [], [], []⟩).toOption := by
  decide

/-- C4 witness: at a concrete one-cell memory and two ambient states, both runs
succeed and the relative-determinism theorem applies: the first output's first
line is the first run's banner, and equal outputs force equal generation
times. -/
theorem c4_witness :
    (((⟨pstr ("2025-01-01T00:00:00"), fun _ => 0, fun hs => hs⟩ : Ambient)
        = ⟨pstr ("2025-01-02T00:00:00"), fun _ => 0, fun hs => hs⟩) →
      ((assemble ⟨pstr ("2025-01-01T00:00:00"), fun _ => 0, fun hs => hs⟩
        [⟨pstr ("c"), [], [], [], [], []⟩] ⟨[], [], []⟩
        ⟨pstr ("d"), Option.none, Option.none, pstr ("b"), []⟩
        ⟨Option.none, [], [], []⟩).toOption.getD []
       = (assemble ⟨pstr ("2025-01-02T00:00:00"), fun _ => 0, fun hs => hs⟩
        [⟨pstr ("c"), [], [], [], [], []⟩] ⟨[], [], []⟩
        ⟨pstr ("d"), Option.none, Option.none, pstr ("b"), []⟩
        ⟨Option.none, [], [], []⟩).toOption.getD [])) ∧
    first_line ((assemble ⟨pstr ("2025-01-01T00:00:00"), fun _ => 0, fun hs => hs⟩
        [⟨pstr ("c"), [], [], [], [], []⟩] ⟨[], [], []⟩
        ⟨pstr ("d"), Option.none, Option.none, pstr ("b"), []⟩
        ⟨Option.none, [], [], []⟩).toOption.getD [])
      = banner_line (pstr ("2025-01-01T00:00:00")) (pstr ("Unknown query"))
          (pyUpper (pstr ("VQE"))) ∧
    (((assemble ⟨pstr ("2025-01-01T00:00:00"), fun _ => 0, fun hs => hs⟩
        [⟨pstr ("c"), [], [], [], [], []⟩] ⟨[], [], []⟩
        ⟨pstr ("d"), Option.none, Option.none, pstr ("b"), []⟩
        ⟨Option.none, [], [], []⟩).toOption.getD []
       = (assemble ⟨pstr ("2025-01-02T00:00:00"), fun _ => 0, fun hs => hs⟩
        [⟨pstr ("c"), [], [], [], [], []⟩] ⟨[], [], []⟩
        ⟨pstr ("d"), Option.none, Option.none, pstr ("b"), []⟩
        ⟨Option.none, [], [], []⟩).toOption.getD []) →
      pstr ("2025-01-01T00:00:00") = pstr ("2025-01-02T00:00:00")) :=
  c4_determinism_relative_to_gen_time
    ⟨pstr ("2025-01-01T00:00:00"), fun _ => 0, fun hs => hs⟩
    ⟨pstr ("2025-01-02T00:00:00"), fun _ => 0, fun hs => hs⟩
    [⟨pstr ("c"), [], [], [], [], []⟩] ⟨[], [], []⟩
    ⟨pstr ("d"), Option.none, Option.none, pstr ("b"), []⟩
    ⟨Option.none, [], [], []⟩ _ _
    (by decide) (by decide) (by decide) (by decide) rfl rfl

/-! ### C3: identifier-name facts and the combined `name__cellId` decomposition -/

theorem ident_char_facts {c : Char} (h : pyIsIdentChar c = true) :
    pyIsSpace c = false ∧ c ≠ '(' ∧ c ≠ ')' ∧ c ≠ '=' := by
  have h' : pyIsAlnumChar c = true ∨ c = '_' := by
    simpa [pyIsIdentChar] using h
  rcases h' with h' | h'
  · have hf := alnum_char_facts h'
    exact ⟨hf.1, hf.2.1, hf.2.2.1, hf.2.2.2.1⟩
  · subst h'
    exact ⟨by decide, by decide, by decide, by decide⟩

theorem ident_name_facts {n : PyStr} (h : IdentName n = true) :
    n ≠ [] ∧ (∀ c ∈ n, pyIsIdentChar c = true) ∧ occursIn (pstr ("__")) n = false ∧
      (pstr ("_")).isPrefixOf n = false ∧ (pstr ("_")).isSuffixOf n = false := by
  simp only [IdentName, Bool.and_eq_true, decide_eq_true_eq, List.all_eq_true,
    Bool.not_eq_true'] at h
  exact ⟨h.1.1.1.1, h.1.1.1.2, h.1.1.2, h.1.2, h.2⟩

theorem ident_no_space {n : PyStr} (h : IdentName n = true) :
    ∀ c ∈ n, pyIsSpace c = false :=
  fun c hc => (ident_char_facts ((ident_name_facts h).2.1 c hc)).1

theorem ident_no_paren {n : PyStr} (h : IdentName n = true) : ('(') ∉ n :=
  fun hc => (ident_char_facts ((ident_name_facts h).2.1 '(' hc)).2.1 rfl

theorem ident_no_eq {n : PyStr} (h : IdentName n = true) : ('=') ∉ n :=
  fun hc => (ident_char_facts ((ident_name_facts h).2.1 '=' hc)).2.2.2 rfl

theorem combined_ne_nil {n cid : PyStr} (hne : n ≠ []) : n ++ pstr ("__") ++ cid ≠ [] := by
  intro h
  rcases List.append_eq_nil.mp h with ⟨h1, _⟩
  rcases List.append_eq_nil.mp h1 with ⟨h2, _⟩
  exact hne h2

theorem combined_ident_chars {n cid : PyStr} (hn : IdentName n = true)
    (hcid : IdentName cid = true) :
    ∀ c ∈ n ++ pstr ("__") ++ cid, pyIsIdentChar c = true := by
  intro c hc
  rcases List.mem_append.mp hc with h | h
  · rcases List.mem_append.mp h with h' | h'
    · exact (ident_name_facts hn).2.1 c h'
    · have hu : c = '_' := by
        rw [show pstr ("__") = ['_', '_'] from rfl] at h'
        rcases List.mem_cons.mp h' with h'' | h''
        · exact h''
        · rcases List.mem_cons.mp h'' with h3 | h3
          · exact h3
          · cases h3
      subst hu
      decide
  · exact (ident_name_facts hcid).2.1 c h

theorem combined_no_space {n cid : PyStr} (hn : IdentName n = true)
    (hcid : IdentName cid = true) :
    ∀ c ∈ n ++ pstr ("__") ++ cid, pyIsSpace c = false :=
  fun c hc => (ident_char_facts (combined_ident_chars hn hcid c hc)).1

theorem combined_no_paren {n cid : PyStr} (hn : IdentName n = true)
    (hcid : IdentName cid = true) :
    ('(') ∉ n ++ pstr ("__") ++ cid :=
  fun hc => (ident_char_facts (combined_ident_chars hn hcid '(' hc)).2.1 rfl

theorem combined_has_uu (n cid : PyStr) :
    occursIn (pstr ("__")) (n ++ pstr ("__") ++ cid) = true :=
  occursIn_intro _ n cid

theorem base_ne_combined {b n cid : PyStr} (hb : IdentName b = true) :
    b ≠ n ++ pstr ("__") ++ cid := by
  intro h
  have h1 := (ident_name_facts hb).2.2.1
  rw [h, combined_has_uu] at h1
  cases h1

theorem combined_ne_def {n cid : PyStr} : n ++ pstr ("__") ++ cid ≠ pstr ("def") := by
  intro h
  have hm : '_' ∈ pstr ("def") := by
    rw [← h]
    exact List.mem_append_left _ (List.mem_append_right _ (by decide))
  exact absurd hm (by decide)

theorem combined_split_aux {b1 b2 c1 c2 a2 : PyStr} (h2 : IdentName b2 = true)
    (ha1 : b2 = b1 ++ a2) (ha2 : pstr ("__") ++ c1 = a2 ++ (pstr ("__") ++ c2)) :
    a2 = [] := by
  cases a2 with
  | nil => rfl
  | cons x a3 =>
      rw [show pstr ("__") ++ c1 = '_' :: ('_' :: c1) from rfl, List.cons_append] at ha2
      injection ha2 with hx htail
      subst hx
      cases a3 with
      | nil =>
          exfalso
          have hs : (pstr ("_")).isSuffixOf b2 = true :=
            List.isSuffixOf_iff_suffix.mpr ⟨b1, by rw [ha1]; exact rfl⟩
          rw [(ident_name_facts h2).2.2.2.2] at hs
          cases hs
      | cons y a4 =>
          rw [List.cons_append] at htail
          injection htail with hy _
          subst hy
          exfalso
          have hocc : occursIn (pstr ("__")) b2 = true := by
            rw [ha1, show b1 ++ '_' :: '_' :: a4 = b1 ++ pstr ("__") ++ a4 from by
              rw [List.append_assoc]; rfl]
            exact occursIn_intro _ b1 a4
          rw [(ident_name_facts h2).2.2.1] at hocc
          cases hocc

theorem combined_inj {b1 b2 c1 c2 : PyStr} (h1 : IdentName b1 = true)
    (h2 : IdentName b2 = true)
    (heq : b1 ++ pstr ("__") ++ c1 = b2 ++ pstr ("__") ++ c2) :
    b1 = b2 ∧ c1 = c2 := by
  have heqA : b1 ++ (pstr ("__") ++ c1) = b2 ++ (pstr ("__") ++ c2) := by
    rw [← List.append_assoc, ← List.append_assoc]
    exact heq
  rcases List.append_eq_append_iff.mp heqA with ⟨a2, ha1, ha2⟩ | ⟨a2, ha1, ha2⟩
  · have ha0 := combined_split_aux h2 ha1 ha2
    subst ha0
    rw [List.append_nil] at ha1
    subst ha1
    exact ⟨rfl, List.append_cancel_left (List.append_cancel_left heqA)⟩
  · have ha0 := combined_split_aux h1 ha1 ha2
    subst ha0
    rw [List.append_nil] at ha1
    subst ha1
    exact ⟨rfl, List.append_cancel_left (List.append_cancel_left heqA)⟩

/-! ### C3: stripping and name extraction with arbitrary signature tails -/

theorem pyStripRight_snoc_append (x y : PyStr) {c : Char} (hc : pyIsSpace c = false) :
    pyStripRight ((x ++ [c]) ++ y) = (x ++ [c]) ++ pyStripRight y := by
  unfold pyStripRight
  rw [List.reverse_append, List.reverse_append, List.reverse_singleton,
    List.singleton_append, List.dropWhile_append]
  by_cases hE : (y.reverse.dropWhile pyIsSpace).isEmpty
  · rw [if_pos hE]
    have hnil : y.reverse.dropWhile pyIsSpace = [] := by
      simpa [List.isEmpty_iff] using hE
    rw [hnil, List.dropWhile_cons, hc]
    simp
  · rw [if_neg hE]
    rw [List.reverse_append, List.reverse_cons]
    simp

theorem pyStripRight_cons_ne {a : Char} {l : PyStr} (h : pyStripRight l ≠ []) :
    pyStripRight (a :: l) = a :: pyStripRight l := by
  unfold pyStripRight at h ⊢
  rw [List.reverse_cons, List.dropWhile_append]
  have hE : (l.reverse.dropWhile pyIsSpace).isEmpty = false := by
    rcases hq : l.reverse.dropWhile pyIsSpace with _ | ⟨q, qs⟩
    · exact absurd (by rw [hq]; rfl) h
    · rfl
  rw [hE]
  simp

theorem stripRight_ne_of_nonspace {s : PyStr} (h : ∃ c ∈ s, pyIsSpace c = false) :
    pyStripRight s ≠ [] := by
  obtain ⟨c, hc, hcs⟩ := h
  intro hnil
  unfold pyStripRight at hnil
  have hdrop : s.reverse.dropWhile pyIsSpace = [] := by
    rw [← List.reverse_eq_nil_iff]
    exact hnil
  have hall := List.dropWhile_eq_nil_iff.mp hdrop
  have := hall c (List.mem_reverse.mpr hc)
  rw [hcs] at this
  cases this

theorem helper_assoc (n rest : PyStr) :
    pstr ("def ") ++ n ++ pstr ("(") ++ rest = ((pstr ("def ") ++ n) ++ ['(']) ++ rest := by
  rw [show pstr ("(") = ['('] from rfl]

theorem def_assoc (n rhs : PyStr) :
    n ++ pstr (" = ") ++ rhs = ((n ++ [' ']) ++ ['=']) ++ (' ' :: rhs) := by
  rw [show pstr (" = ") = ' ' :: '=' :: ' ' :: [] from rfl]
  simp [List.append_assoc]

theorem helper_strip {n : PyStr} (rest : PyStr) (hn : ∀ c ∈ n, pyIsSpace c = false) :
    pyStrip (pstr ("def ") ++ n ++ pstr ("(") ++ rest)
      = pstr ("def ") ++ n ++ pstr ("(") ++ pyStripRight rest := by
  unfold pyStrip
  have hL : pyStripLeft (pstr ("def ") ++ n ++ pstr ("(") ++ rest)
      = pstr ("def ") ++ n ++ pstr ("(") ++ rest := by
    show pyStripLeft ('d' :: (pstr ("ef ") ++ n ++ pstr ("(") ++ rest)) = _
    rw [pyStripLeft_cons_of (by decide)]
    rfl
  rw [hL, helper_assoc, pyStripRight_snoc_append _ _ (by decide)]
  rw [helper_assoc n (pyStripRight rest)]

theorem def_strip {n : PyStr} (rhs : PyStr) (hne : n ≠ [])
    (hn : ∀ c ∈ n, pyIsSpace c = false) :
    pyStrip (n ++ pstr (" = ") ++ rhs)
      = ((n ++ [' ']) ++ ['=']) ++ pyStripRight (' ' :: rhs) := by
  unfold pyStrip
  have hL : pyStripLeft (n ++ pstr (" = ") ++ rhs) = n ++ pstr (" = ") ++ rhs := by
    cases n with
    | nil => exact absurd rfl hne
    | cons c0 n1 =>
        show pyStripLeft (c0 :: (n1 ++ pstr (" = ") ++ rhs)) = _
        rw [pyStripLeft_cons_of (hn c0 (List.mem_cons_self _ _))]
        rfl
  rw [hL, def_assoc, pyStripRight_snoc_append _ _ (by decide)]

theorem not_def_before_space {n : PyStr} (z : PyStr) (hne : n ≠ [])
    (hndef : n ≠ pstr ("def")) (hn : ∀ c ∈ n, pyIsSpace c = false) :
    (pstr ("def ")).isPrefixOf (n ++ ' ' :: z) = false := by
  by_contra h
  rw [Bool.not_eq_false] at h
  obtain ⟨t, ht⟩ := List.isPrefixOf_iff_prefix.mp h
  rcases List.append_eq_append_iff.mp ht with ⟨a', ha1, _⟩ | ⟨c', hc1, hc2⟩
  · have hm : ' ' ∈ n := by
      rw [ha1]
      exact List.mem_append_left _ (by decide)
    exact absurd (hn ' ' hm) (by decide)
  · cases n with
    | nil => exact hne rfl
    | cons a n1 =>
        rw [show pstr ("def ") = 'd' :: 'e' :: 'f' :: ' ' :: [] from rfl] at hc1
        have hc1' : 'd' :: 'e' :: 'f' :: ' ' :: [] = a :: (n1 ++ c') := by
          rw [hc1]
          rfl
        injection hc1' with had htail
        cases n1 with
        | nil =>
            have hc' : c' = 'e' :: 'f' :: ' ' :: [] := by simpa using htail.symm
            rw [hc'] at hc2
            have hc2' : ' ' :: z = 'e' :: ('f' :: ' ' :: t) := by
              simpa using hc2
            injection hc2' with hh _
            exact absurd hh (by decide)
        | cons b n2 =>
            injection htail with hbe htail2
            cases n2 with
            | nil =>
                have hc' : c' = 'f' :: ' ' :: [] := by simpa using htail2.symm
                rw [hc'] at hc2
                have hc2' : ' ' :: z = 'f' :: (' ' :: t) := by
                  simpa using hc2
                injection hc2' with hh _
                exact absurd hh (by decide)
            | cons c3 n3 =>
                injection htail2 with hcf htail3
                cases n3 with
                | nil =>
                    subst had
                    subst hbe
                    subst hcf
                    exact hndef rfl
                | cons c4 n4 =>
                    injection htail3 with hsp _
                    subst hsp
                    exact absurd (hn ' ' (by simp)) (by decide)

theorem extract_fn_gen {n : PyStr} (rest : PyStr) (hne : n ≠ [])
    (hn : ∀ c ∈ n, pyIsSpace c = false) (hp : ('(') ∉ n) :
    extract_function_name (pstr ("def ") ++ n ++ pstr ("(") ++ rest) = n := by
  show (let s := pyStrip (pstr ("def ") ++ n ++ pstr ("(") ++ rest);
    if (pstr ("def ")).isPrefixOf s then pyStrip (takeBefore (pstr ("(")) (s.drop 4))
    else []) = n
  rw [helper_strip rest hn]
  have hpre : (pstr ("def ")).isPrefixOf
      (pstr ("def ") ++ n ++ pstr ("(") ++ pyStripRight rest) = true := by
    apply List.isPrefixOf_iff_prefix.mpr
    exact ⟨n ++ pstr ("(") ++ pyStripRight rest, by simp [List.append_assoc]⟩
  rw [if_pos hpre]
  have hdrop : (pstr ("def ") ++ n ++ pstr ("(") ++ pyStripRight rest).drop 4
      = n ++ pstr ("(") ++ pyStripRight rest := by
    have hform : pstr ("def ") ++ n ++ pstr ("(") ++ pyStripRight rest
        = pstr ("def ") ++ (n ++ pstr ("(") ++ pyStripRight rest) := by
      simp [List.append_assoc]
    rw [hform]
    show List.drop (pstr ("def ")).length
        (pstr ("def ") ++ (n ++ pstr ("(") ++ pyStripRight rest))
        = n ++ pstr ("(") ++ pyStripRight rest
    exact List.drop_left _ _
  rw [hdrop]
  rw [takeBefore_first_at (show pstr ("(") = '(' :: [] from rfl) (pyStripRight rest) hp]
  exact pyStrip_id hn

theorem extract_dn_gen {n : PyStr} {rhs : PyStr} (hne : n ≠ []) (hndef : n ≠ pstr ("def"))
    (hn : ∀ c ∈ n, pyIsSpace c = false) (hrs : ∃ c ∈ rhs, pyIsSpace c = false) :
    extract_definition_name (n ++ pstr (" = ") ++ rhs) = n := by
  have hR : pyStripRight rhs ≠ [] := stripRight_ne_of_nonspace hrs
  have hstrip : pyStrip (n ++ pstr (" = ") ++ rhs)
      = n ++ pstr (" = ") ++ pyStripRight rhs := by
    rw [def_strip rhs hne hn, pyStripRight_cons_ne hR]
    rw [← def_assoc n (pyStripRight rhs)]
  show (let s := pyStrip (n ++ pstr (" = ") ++ rhs);
    if occursIn (pstr (" = ")) s = true ∧ ¬ (pstr ("def ")).isPrefixOf s = true then
      pyStrip (takeBefore (pstr (" = ")) s)
    else []) = n
  rw [hstrip]
  have hocc : occursIn (pstr (" = ")) (n ++ pstr (" = ") ++ pyStripRight rhs) = true :=
    occursIn_intro _ n (pyStripRight rhs)
  have hnp := not_def_leading (pyStripRight rhs) hne hndef hn
  rw [if_pos ⟨hocc, by rw [hnp]; exact Bool.false_ne_true⟩]
  rw [takeBefore_first_at (show pstr (" = ") = ' ' :: ('=' :: ' ' :: []) from rfl)
    (pyStripRight rhs) (fun hm => absurd (hn ' ' hm) (by decide))]
  exact pyStrip_id hn

theorem extract_fn_nil_def {n : PyStr} (rhs : PyStr) (hne : n ≠ [])
    (hndef : n ≠ pstr ("def")) (hn : ∀ c ∈ n, pyIsSpace c = false) :
    extract_function_name (n ++ pstr (" = ") ++ rhs) = [] := by
  show (let s := pyStrip (n ++ pstr (" = ") ++ rhs);
    if (pstr ("def ")).isPrefixOf s then pyStrip (takeBefore (pstr ("(")) (s.drop 4))
    else []) = []
  have hstrip : pyStrip (n ++ pstr (" = ") ++ rhs)
      = n ++ ' ' :: ('=' :: pyStripRight (' ' :: rhs)) := by
    rw [def_strip rhs hne hn]
    simp [List.append_assoc]
  rw [hstrip]
  rw [if_neg (by
    rw [not_def_before_space ('=' :: pyStripRight (' ' :: rhs)) hne hndef hn]
    exact Bool.false_ne_true)]

/-! ### C3: positional analysis of the four `replace` passes -/

theorem suffix_cons_lift {t a2 : PyStr} {c : Char} (h : t <:+ a2) : t <:+ (c :: a2) := by
  obtain ⟨w, hw⟩ := h
  exact ⟨c :: w, by rw [List.cons_append, hw]⟩

theorem suffix_append_cases {t x y : PyStr} (h : t <:+ x ++ y) :
    t <:+ y ∨ ∃ tp, tp <:+ x ∧ tp ≠ [] ∧ t = tp ++ y := by
  obtain ⟨w, hw⟩ := h
  by_cases hlen : x.length ≤ w.length
  · left
    have h1 : (w ++ t).take x.length = w.take x.length :=
      List.take_append_of_le_length hlen
    rw [hw, List.take_left] at h1
    have hsplit : w = x ++ w.drop x.length := by
      conv_lhs => rw [← List.take_append_drop x.length w]
      rw [← h1]
    rw [hsplit, List.append_assoc] at hw
    exact ⟨w.drop x.length, List.append_cancel_left hw⟩
  · right
    push_neg at hlen
    have h1 : (w ++ t).take w.length = (x ++ y).take w.length := by rw [hw]
    rw [List.take_left, List.take_append_of_le_length (Nat.le_of_lt hlen)] at h1
    have hx : x = w ++ x.drop w.length := by
      conv_lhs => rw [← List.take_append_drop w.length x]
      rw [← h1]
    refine ⟨x.drop w.length, List.drop_suffix _ _, ?_, ?_⟩
    · intro h0
      have := congrArg List.length h0
      rw [List.length_drop] at this
      simp at this
      omega
    · have hw2 : w ++ t = (w ++ x.drop w.length) ++ y := by rw [← hx, hw]
      rw [List.append_assoc] at hw2
      exact List.append_cancel_left hw2

theorem prefix_snoc_eq {x y : PyStr} {c : Char} (h : (x ++ [c]) <+: (y ++ [c]))
    (hc : c ∉ y) : x = y := by
  have hlen : x.length ≤ y.length := by
    have := h.length_le
    simp only [List.length_append, List.length_cons, List.length_nil] at this
    omega
  have hxy : x <+: y ++ [c] := (List.prefix_append x [c]).trans h
  have hx : x = (y ++ [c]).take x.length := by
    obtain ⟨r, hr⟩ := hxy
    rw [← hr, List.take_left]
  rw [List.take_append_of_le_length hlen] at hx
  have hxpre : x <+: y := hx ▸ List.take_prefix _ _
  obtain ⟨w, hw⟩ := hxpre
  obtain ⟨r, hr⟩ := h
  rw [← hw, List.append_assoc, List.append_assoc] at hr
  have hr2 := List.append_cancel_left hr
  cases w with
  | nil => rw [← hw, List.append_nil]
  | cons d w2 =>
      exfalso
      rw [List.cons_append] at hr2
      injection hr2 with hd _
      apply hc
      rw [← hw]
      exact List.mem_append_right _ (hd ▸ List.mem_cons_self _ _)

theorem isPrefixOf_cons_ne {a b : Char} {x y : PyStr} (h : a ≠ b) :
    (a :: x).isPrefixOf (b :: y) = false := by
  simp [List.isPrefixOf, h]

theorem replaceAllAux_skip (old new : PyStr) :
    ∀ (a b : PyStr) (fuel : Nat),
      (∀ t, t <:+ a → t ≠ [] → old.isPrefixOf (t ++ b) = false) →
      replaceAllAux old new fuel (a ++ b)
        = a ++ replaceAllAux old new (fuel - a.length) b := by
  intro a
  induction a with
  | nil =>
      intro b fuel _
      simp
  | cons c a2 ih =>
      intro b fuel hcond
      cases fuel with
      | zero =>
          have hz : replaceAllAux old new 0 b = b := by
            cases b <;> rfl
          show c :: (a2 ++ b) = (c :: a2) ++ replaceAllAux old new (0 - (c :: a2).length) b
          rw [Nat.zero_sub, hz]
          rfl
      | succ f =>
          have hpre : old.isPrefixOf (c :: (a2 ++ b)) = false :=
            hcond (c :: a2) (List.suffix_refl _) (List.cons_ne_nil _ _)
          show (if old ≠ [] ∧ old.isPrefixOf (c :: (a2 ++ b)) = true then
              new ++ replaceAllAux old new f ((a2 ++ b).drop (old.length - 1))
            else c :: replaceAllAux old new f (a2 ++ b))
            = (c :: a2) ++ replaceAllAux old new ((f + 1) - (c :: a2).length) b
          rw [if_neg (fun hcj => absurd hcj.2 (by rw [hpre]; exact Bool.false_ne_true))]
          rw [ih b f (fun t ht hne => hcond t (suffix_cons_lift ht) hne)]
          simp [Nat.succ_sub_succ]

theorem replaceAllAux_hit {old : PyStr} (new : PyStr) (hne : old ≠ []) :
    ∀ (a b : PyStr) (fuel : Nat), a.length < fuel →
      (∀ t, t <:+ a → t ≠ [] → old.isPrefixOf (t ++ (old ++ b)) = false) →
      replaceAllAux old new fuel (a ++ old ++ b)
        = a ++ new ++ replaceAllAux old new (fuel - a.length - 1) b := by
  intro a
  induction a with
  | nil =>
      intro b fuel hf _
      cases fuel with
      | zero => omega
      | succ f =>
          cases old with
          | nil => exact absurd rfl hne
          | cons oc or2 =>
              have hpre : (oc :: or2).isPrefixOf (oc :: (or2 ++ b)) = true := by
                apply List.isPrefixOf_iff_prefix.mpr
                exact ⟨b, rfl⟩
              show (if (oc :: or2) ≠ [] ∧ (oc :: or2).isPrefixOf (oc :: (or2 ++ b)) = true then
                  new ++ replaceAllAux (oc :: or2) new f
                    ((or2 ++ b).drop ((oc :: or2).length - 1))
                else oc :: replaceAllAux (oc :: or2) new f (or2 ++ b))
                = [] ++ new ++ replaceAllAux (oc :: or2) new ((f + 1) - [].length - 1) b
              rw [if_pos ⟨hne, hpre⟩]
              have hdrop : (or2 ++ b).drop ((oc :: or2).length - 1) = b := by
                show (or2 ++ b).drop ((or2.length + 1) - 1) = b
                rw [Nat.add_sub_cancel]
                exact List.drop_left _ _
              rw [hdrop]
              simp
  | cons c a2 ih =>
      intro b fuel hf hcond
      cases fuel with
      | zero => omega
      | succ f =>
          have hpre : old.isPrefixOf (c :: (a2 ++ old ++ b)) = false := by
            have := hcond (c :: a2) (List.suffix_refl _) (List.cons_ne_nil _ _)
            simpa [List.append_assoc] using this
          show (if old ≠ [] ∧ old.isPrefixOf (c :: (a2 ++ old ++ b)) = true then
              new ++ replaceAllAux old new f ((a2 ++ old ++ b).drop (old.length - 1))
            else c :: replaceAllAux old new f (a2 ++ old ++ b))
            = (c :: a2) ++ new ++ replaceAllAux old new ((f + 1) - (c :: a2).length - 1) b
          rw [if_neg (fun hcj => absurd hcj.2 (by rw [hpre]; exact Bool.false_ne_true))]
          rw [ih b f (by simp at hf ⊢; omega)
            (fun t ht hne2 => hcond t (suffix_cons_lift ht) hne2)]
          simp [Nat.succ_sub_succ, List.append_assoc]

theorem replaceAll_skip {old : PyStr} (new : PyStr) {a b : PyStr}
    (hcond : ∀ t, t <:+ a → t ≠ [] → old.isPrefixOf (t ++ b) = false) :
    replaceAll old new (a ++ b) = a ++ replaceAll old new b := by
  unfold replaceAll
  rw [replaceAllAux_skip old new a b (a ++ b).length hcond]
  have harith : (a ++ b).length - a.length = b.length := by simp
  rw [harith]

theorem replaceAll_hit {old : PyStr} (new : PyStr) (hne : old ≠ []) {a b : PyStr}
    (hcond : ∀ t, t <:+ a → t ≠ [] → old.isPrefixOf (t ++ (old ++ b)) = false) :
    ∃ fuel2, replaceAll old new (a ++ old ++ b)
      = a ++ new ++ replaceAllAux old new fuel2 b := by
  refine ⟨(a ++ old ++ b).length - a.length - 1, ?_⟩
  unfold replaceAll
  refine replaceAllAux_hit new hne a b _ ?_ hcond
  have hop : 0 < old.length := List.length_pos.mpr hne
  simp only [List.length_append]
  omega

theorem rAA_head_space {old new : PyStr} {o2 n2 : PyStr} (ho : old = ' ' :: o2)
    (hn : new = ' ' :: n2) :
    ∀ (fuel : Nat) (s : PyStr), ∃ s2, replaceAllAux old new fuel (' ' :: s) = ' ' :: s2 := by
  intro fuel s
  cases fuel with
  | zero => exact ⟨s, rfl⟩
  | succ f =>
      by_cases hc : old ≠ [] ∧ old.isPrefixOf (' ' :: s) = true
      · refine ⟨n2 ++ replaceAllAux old new f (s.drop (old.length - 1)), ?_⟩
        show (if old ≠ [] ∧ old.isPrefixOf (' ' :: s) = true then
            new ++ replaceAllAux old new f (s.drop (old.length - 1))
          else ' ' :: replaceAllAux old new f s) = _
        rw [if_pos hc, hn]
        rfl
      · refine ⟨replaceAllAux old new f s, ?_⟩
        show (if old ≠ [] ∧ old.isPrefixOf (' ' :: s) = true then
            new ++ replaceAllAux old new f (s.drop (old.length - 1))
          else ' ' :: replaceAllAux old new f s) = _
        rw [if_neg hc]

theorem rAA_head_keep {old new : PyStr} {oc : Char} {o2 : PyStr} (ho : old = oc :: o2)
    {c : Char} (hnc : oc ≠ c) :
    ∀ (fuel : Nat) (s : PyStr), ∃ s2, replaceAllAux old new fuel (c :: s) = c :: s2 := by
  intro fuel s
  cases fuel with
  | zero => exact ⟨s, rfl⟩
  | succ f =>
      refine ⟨replaceAllAux old new f s, ?_⟩
      show (if old ≠ [] ∧ old.isPrefixOf (c :: s) = true then
          new ++ replaceAllAux old new f (s.drop (old.length - 1))
        else c :: replaceAllAux old new f s) = _
      rw [if_neg (fun hcj => absurd hcj.2
        (by rw [ho, isPrefixOf_cons_ne hnc]; exact Bool.false_ne_true))]

theorem rAA_nonspace {old new : PyStr} (hnew : ∃ c ∈ new, pyIsSpace c = false) :
    ∀ (fuel : Nat) (s : PyStr), (∃ c ∈ s, pyIsSpace c = false) →
      ∃ c ∈ replaceAllAux old new fuel s, pyIsSpace c = false := by
  intro fuel
  induction fuel with
  | zero =>
      intro s hs
      cases s with
      | nil => simpa using hs
      | cons c r => exact hs
  | succ f ih =>
      intro s hs
      cases s with
      | nil => simpa using hs
      | cons c r =>
          show ∃ x ∈ (if old ≠ [] ∧ old.isPrefixOf (c :: r) = true then
              new ++ replaceAllAux old new f (r.drop (old.length - 1))
            else c :: replaceAllAux old new f r), pyIsSpace x = false
          by_cases hc : old ≠ [] ∧ old.isPrefixOf (c :: r) = true
          · rw [if_pos hc]
            obtain ⟨w, hw, hwn⟩ := hnew
            exact ⟨w, List.mem_append_left _ hw, hwn⟩
          · rw [if_neg hc]
            by_cases hcs : pyIsSpace c = false
            · exact ⟨c, List.mem_cons_self _ _, hcs⟩
            · obtain ⟨w, hw, hwn⟩ := hs
              have hwr : w ∈ r := by
                rcases List.mem_cons.mp hw with h | h
                · exfalso
                  rw [h] at hwn
                  exact hcs hwn
                · exact h
              obtain ⟨w2, hw2, hw2n⟩ := ih r ⟨w, hwr, hwn⟩
              exact ⟨w2, List.mem_cons_of_mem _ hw2, hw2n⟩

/-! ### C3: no-match certificates for the rename patterns -/

theorem suffix_singleton {t : PyStr} {c : Char} (h : t <:+ [c]) (hne : t ≠ []) : t = [c] := by
  obtain ⟨w, hw⟩ := h
  cases w with
  | nil => simpa using hw
  | cons a w2 =>
      exfalso
      rw [List.cons_append] at hw
      injection hw with h1 h2
      exact hne (List.append_eq_nil.mp h2).2

theorem suffix_snoc_mem {t x : PyStr} {c : Char} (h : t <:+ x ++ [c]) (hne : t ≠ []) :
    c ∈ t := by
  rcases suffix_append_cases h with h' | ⟨tp, _, _, heq⟩
  · rw [suffix_singleton h' hne]
    exact List.mem_cons_self _ _
  · rw [heq]
    exact List.mem_append_right _ (List.mem_cons_self _ _)

theorem combined_no_eq {n cid : PyStr} (hn : IdentName n = true)
    (hcid : IdentName cid = true) :
    ('=') ∉ n ++ pstr ("__") ++ cid :=
  fun hc => (ident_char_facts (combined_ident_chars hn hcid '=' hc)).2.2.2 rfl

theorem skip_two_cert {A0 : PyStr} {c0 : Char} {old : PyStr} {e : Char}
    (he_old : e ∈ old) (he_A : e ∉ A0 ++ [c0]) (hc0_old : c0 ∉ old) :
    ∀ t, t <:+ (A0 ++ [c0]) → t ≠ [] → ∀ b, old.isPrefixOf (t ++ b) = false := by
  intro t ht htne b
  by_contra h
  rw [Bool.not_eq_false] at h
  have hpre : old <+: t ++ b := List.isPrefixOf_iff_prefix.mp h
  have htpre : t <+: t ++ b := List.prefix_append t b
  rcases List.prefix_or_prefix_of_prefix hpre htpre with h1 | h1
  · exact he_A (List.IsSuffix.subset ht (h1.subset he_old))
  · exact hc0_old (h1.subset (suffix_snoc_mem ht htne))

theorem def_name_not_suffix {n NN : PyStr} (hNN : ∀ c ∈ NN, pyIsSpace c = false)
    (hlen : n.length < NN.length) :
    ¬ (pstr ("def ") ++ n) <:+ (pstr ("def ") ++ NN) := by
  intro hs
  obtain ⟨w, hw⟩ := hs
  cases w with
  | nil =>
      rw [List.nil_append] at hw
      have heq := List.append_cancel_left hw
      rw [heq] at hlen
      exact Nat.lt_irrefl _ hlen
  | cons w0 w1 =>
      rw [List.cons_append,
        show pstr ("def ") ++ NN = 'd' :: ('e' :: 'f' :: ' ' :: NN) from rfl] at hw
      injection hw with h0 hw1
      cases w1 with
      | nil =>
          rw [List.nil_append,
            show pstr ("def ") ++ n = 'd' :: ('e' :: 'f' :: ' ' :: n) from rfl] at hw1
          injection hw1 with h1 _
          exact absurd h1 (by decide)
      | cons u0 u1 =>
          rw [List.cons_append] at hw1
          injection hw1 with h1 hw2
          cases u1 with
          | nil =>
              rw [List.nil_append,
                show pstr ("def ") ++ n = 'd' :: ('e' :: 'f' :: ' ' :: n) from rfl] at hw2
              injection hw2 with h2 _
              exact absurd h2 (by decide)
          | cons v0 v1 =>
              rw [List.cons_append] at hw2
              injection hw2 with h2 hw3
              cases v1 with
              | nil =>
                  rw [List.nil_append,
                    show pstr ("def ") ++ n = 'd' :: ('e' :: 'f' :: ' ' :: n) from rfl] at hw3
                  injection hw3 with h3 _
                  exact absurd h3 (by decide)
              | cons z0 z1 =>
                  rw [List.cons_append] at hw3
                  injection hw3 with h3 hw4
                  have hm : ' ' ∈ NN := by
                    rw [← hw4]
                    exact List.mem_append_right _
                      (List.mem_append_left _ (by decide))
                  exact absurd (hNN ' ' hm) (by decide)

theorem hit_cond_helper_o1 {n : PyStr} :
    ∀ t, t <:+ pstr ("def") → t ≠ [] →
      ∀ b2, (pstr (" ") ++ n ++ pstr ("(")).isPrefixOf (t ++ b2) = false := by
  intro t ht htne b2
  cases t with
  | nil => exact absurd rfl htne
  | cons c t2 =>
      have hc : c ∈ pstr ("def") := (List.IsSuffix.subset ht) (List.mem_cons_self _ _)
      have hc2 : c ∈ ['d', 'e', 'f'] := hc
      have hcne : c ≠ ' ' := by
        rcases (by simpa using hc2 : c = 'd' ∨ c = 'e' ∨ c = 'f') with rfl | rfl | rfl <;> decide
      show (pstr (" ") ++ n ++ pstr ("(")).isPrefixOf (c :: (t2 ++ b2)) = false
      rw [show pstr (" ") ++ n ++ pstr ("(") = ' ' :: (n ++ pstr ("(")) from rfl]
      exact isPrefixOf_cons_ne (fun h => hcne h.symm)

theorem skip_cond_helper_o2 {n cid : PyStr} (hn : IdentName n = true)
    (hcid : IdentName cid = true) :
    ∀ t, t <:+ ((pstr ("def ") ++ (n ++ pstr ("__") ++ cid)) ++ ['(']) → t ≠ [] →
      ∀ b, (pstr ("def ") ++ n ++ pstr ("(")).isPrefixOf (t ++ b) = false := by
  intro t ht htne b
  by_contra hcon
  rw [Bool.not_eq_false] at hcon
  have hpre : (pstr ("def ") ++ n ++ pstr ("(")) <+: t ++ b :=
    List.isPrefixOf_iff_prefix.mp hcon
  have htpre : t <+: t ++ b := List.prefix_append t b
  have ho2 : pstr ("def ") ++ n ++ pstr ("(") = (pstr ("def ") ++ n) ++ ['('] := by
    rw [show pstr ("(") = ['('] from rfl]
  have hparen_body : ('(') ∉ pstr ("def ") ++ (n ++ pstr ("__") ++ cid) := by
    intro hm
    rcases List.mem_append.mp hm with h | h
    · exact absurd h (by decide)
    · exact combined_no_paren hn hcid h
  have hparen_o2body : ('(') ∉ pstr ("def ") ++ n := by
    intro hm
    rcases List.mem_append.mp hm with h | h
    · exact absurd h (by decide)
    · exact ident_no_paren hn h
  have hNNsp : ∀ c ∈ n ++ pstr ("__") ++ cid, pyIsSpace c = false :=
    combined_no_space hn hcid
  have hlenNN : n.length < (n ++ pstr ("__") ++ cid).length := by
    have h1 : 0 < cid.length := List.length_pos.mpr (ident_name_facts hcid).1
    simp only [List.length_append]
    have h2 : (pstr ("__")).length = 2 := rfl
    omega
  rcases suffix_append_cases ht with h2 | ⟨tp, htp, htpne, rfl⟩
  · have hts := suffix_singleton h2 htne
    rcases List.prefix_or_prefix_of_prefix hpre htpre with h1 | h1
    · have hl1 := h1.length_le
      rw [hts] at hl1
      have hno : 1 ≤ n.length := List.length_pos.mpr (ident_name_facts hn).1
      rw [ho2] at hl1
      simp only [List.length_append, List.length_cons, List.length_nil] at hl1
      have h4 : (pstr ("def ")).length = 4 := rfl
      omega
    · rw [hts, ho2] at h1
      obtain ⟨r, hr⟩ := h1
      have hr2 : ('(' : Char) :: r = 'd' :: (pstr ("ef ") ++ (n ++ ['('])) := hr
      injection hr2 with hx _
      exact absurd hx (by decide)
  · rcases List.prefix_or_prefix_of_prefix hpre htpre with h1 | h1
    · rw [ho2] at h1
      have htpeq := (prefix_snoc_eq h1 (fun hm =>
        hparen_body (List.IsSuffix.subset htp hm))).symm
      rw [htpeq] at htp
      exact def_name_not_suffix hNNsp hlenNN htp
    · rw [ho2] at h1
      have htpeq := prefix_snoc_eq h1 hparen_o2body
      rw [htpeq] at htp
      exact def_name_not_suffix hNNsp hlenNN htp

theorem skip_cond_def_o3 {n : PyStr} (hn : IdentName n = true) :
    ∀ t, t <:+ (n ++ [' ']) ++ ['='] → t ≠ [] →
      ∀ b, (pstr (" ") ++ n ++ pstr (" =")).isPrefixOf (t ++ b) = false := by
  intro t ht htne b
  by_contra hcon
  rw [Bool.not_eq_false] at hcon
  have hpre : (pstr (" ") ++ n ++ pstr (" =")) <+: t ++ b :=
    List.isPrefixOf_iff_prefix.mp hcon
  have htpre : t <+: t ++ b := List.prefix_append t b
  have ho3len : (pstr (" ") ++ n ++ pstr (" =")).length = n.length + 3 := by
    simp only [List.length_append]
    have h1 : (pstr (" ")).length = 1 := rfl
    have h2 : (pstr (" =")).length = 2 := rfl
    omega
  have htlen : t.length ≤ n.length + 2 := by
    have := ht.length_le
    simp only [List.length_append, List.length_cons, List.length_nil] at this
    omega
  rcases List.prefix_or_prefix_of_prefix hpre htpre with h1 | h1
  · have := h1.length_le
    rw [ho3len] at this
    omega
  · rcases suffix_append_cases ht with h2 | ⟨tp, htp, htpne, rfl⟩
    · have hts := suffix_singleton h2 htne
      rw [hts] at h1
      obtain ⟨r, hr⟩ := h1
      rw [List.cons_append, show pstr (" ") ++ n ++ pstr (" =")
        = ' ' :: (n ++ pstr (" =")) from rfl] at hr
      injection hr with hx _
      exact absurd hx (by decide)
    · have ho3 : pstr (" ") ++ n ++ pstr (" =") = (([' '] ++ n) ++ [' ']) ++ ['='] := by
        rw [show pstr (" =") = [' '] ++ ['='] from rfl,
          show pstr (" ") = [' '] from rfl]
        simp [List.append_assoc]
      rw [ho3] at h1
      have heqnc : ('=') ∉ ([' '] ++ n) ++ [' '] := by
        intro hm
        rcases List.mem_append.mp hm with h | h
        · rcases List.mem_append.mp h with h' | h'
          · exact absurd h' (by decide)
          · exact ident_no_eq hn h'
        · exact absurd h (by decide)
      have htpeq := prefix_snoc_eq h1 heqnc
      have hlentp : tp.length ≤ n.length + 1 := by
        have := htp.length_le
        simpa using this
      rw [htpeq] at hlentp
      simp only [List.length_append, List.length_cons, List.length_nil] at hlentp
      omega

/-! ### C3: the renamer on well-shaped lines -/

theorem replaceAll_head_space {old new : PyStr} {o2 n2 : PyStr} (ho : old = ' ' :: o2)
    (hn : new = ' ' :: n2) (s : PyStr) :
    ∃ s2, replaceAll old new (' ' :: s) = ' ' :: s2 := by
  unfold replaceAll
  exact rAA_head_space ho hn _ s

theorem replaceAll_head_keep {old new : PyStr} {oc : Char} {o2 : PyStr} (ho : old = oc :: o2)
    {c : Char} (hnc : oc ≠ c) (s : PyStr) :
    ∃ s2, replaceAll old new (c :: s) = c :: s2 := by
  unfold replaceAll
  exact rAA_head_keep ho hnc _ s

theorem replaceAll_nonspace {old new : PyStr} (hnew : ∃ c ∈ new, pyIsSpace c = false)
    {s : PyStr} (hs : ∃ c ∈ s, pyIsSpace c = false) :
    ∃ c ∈ replaceAll old new s, pyIsSpace c = false := by
  unfold replaceAll
  exact rAA_nonspace hnew _ s hs

theorem rAA_nonspace_wrap {old new : PyStr} (hnew : ∃ c ∈ new, pyIsSpace c = false)
    (fuel : Nat) {s : PyStr} (hs : ∃ c ∈ s, pyIsSpace c = false) :
    ∃ c ∈ replaceAllAux old new fuel s, pyIsSpace c = false :=
  rAA_nonspace hnew fuel s hs

theorem replaceAll_hit0 {old : PyStr} (new : PyStr) (hne : old ≠ []) (b : PyStr) :
    ∃ fuel2, replaceAll old new (old ++ b) = new ++ replaceAllAux old new fuel2 b := by
  obtain ⟨f2, h2⟩ := replaceAll_hit new hne (a := ([] : PyStr)) (b := b)
    (fun t ht htne => absurd (List.eq_nil_of_suffix_nil ht) htne)
  exact ⟨f2, by simpa using h2⟩

theorem resolve_helper_name {n rest cid : PyStr} (used : List PyStr)
    (hn : IdentName n = true) (hcid : IdentName cid = true) :
    extract_function_name (resolve_naming_conflict
        (pstr ("def ") ++ n ++ pstr ("(") ++ rest) used cid)
      = if n ∈ used then n ++ pstr ("__") ++ cid else n := by
  have hnfacts := ident_name_facts hn
  have hfn : extract_function_name (pstr ("def ") ++ n ++ pstr ("(") ++ rest) = n :=
    extract_fn_gen rest hnfacts.1 (ident_no_space hn) (ident_no_paren hn)
  simp only [resolve_naming_conflict, hfn]
  rw [if_pos hnfacts.1]
  by_cases hu : n ∈ used
  · rw [if_pos ⟨hnfacts.1, hu⟩, if_pos hu]
    have hshape1 : pstr ("def ") ++ n ++ pstr ("(") ++ rest
        = pstr ("def") ++ (pstr (" ") ++ n ++ pstr ("(")) ++ rest := by
      rw [show pstr ("def ") = pstr ("def") ++ pstr (" ") from rfl]
      simp [List.append_assoc]
    rw [hshape1]
    have hone : pstr (" ") ++ n ++ pstr ("(") ≠ [] :=
      (List.cons_ne_nil ' ' (n ++ pstr ("(")) :
        (' ' :: (n ++ pstr ("("))) ≠ [])
    obtain ⟨f1, hl1⟩ := replaceAll_hit
      (pstr (" ") ++ (n ++ pstr ("__") ++ cid) ++ pstr ("(")) hone
      (a := pstr ("def")) (b := rest)
      (fun t ht htne => hit_cond_helper_o1 t ht htne _)
    rw [hl1]
    have hA1 : pstr ("def") ++ (pstr (" ") ++ (n ++ pstr ("__") ++ cid) ++ pstr ("(")) ++
        replaceAllAux (pstr (" ") ++ n ++ pstr ("("))
          (pstr (" ") ++ (n ++ pstr ("__") ++ cid) ++ pstr ("(")) f1 rest
        = ((pstr ("def ") ++ (n ++ pstr ("__") ++ cid)) ++ ['(']) ++
          replaceAllAux (pstr (" ") ++ n ++ pstr ("("))
            (pstr (" ") ++ (n ++ pstr ("__") ++ cid) ++ pstr ("(")) f1 rest := by
      rw [show pstr ("def ") = pstr ("def") ++ pstr (" ") from rfl,
        show pstr ("(") = ['('] from rfl]
      simp [List.append_assoc]
    rw [hA1]
    rw [replaceAll_skip _ (fun t ht htne => skip_cond_helper_o2 hn hcid t ht htne _)]
    rw [replaceAll_skip _ (fun t ht htne => skip_two_cert
      (List.mem_append_right _ (by decide : ('=') ∈ pstr (" =")))
      (fun hm => by
        rcases List.mem_append.mp hm with h | h
        · rcases List.mem_append.mp h with h' | h'
          · exact absurd h' (by decide)
          · exact combined_no_eq hn hcid h'
        · exact absurd h (by decide))
      (fun hm => by
        rcases List.mem_append.mp hm with h | h
        · rcases List.mem_append.mp h with h' | h'
          · exact absurd h' (by decide)
          · exact ident_no_paren hn h'
        · exact absurd h (by decide))
      t ht htne _)]
    rw [replaceAll_skip _ (fun t ht htne => skip_two_cert
      (List.mem_append_right _ (by decide : ('=') ∈ pstr (" =")))
      (fun hm => by
        rcases List.mem_append.mp hm with h | h
        · rcases List.mem_append.mp h with h' | h'
          · exact absurd h' (by decide)
          · exact combined_no_eq hn hcid h'
        · exact absurd h (by decide))
      (fun hm => by
        rcases List.mem_append.mp hm with h | h
        · exact ident_no_paren hn h
        · exact absurd h (by decide))
      t ht htne _)]
    have hback : ∀ z : PyStr, ((pstr ("def ") ++ (n ++ pstr ("__") ++ cid)) ++ ['(']) ++ z
        = pstr ("def ") ++ (n ++ pstr ("__") ++ cid) ++ pstr ("(") ++ z := by
      intro z
      rw [show pstr ("(") = ['('] from rfl]
    rw [hback]
    exact extract_fn_gen _ (combined_ne_nil hnfacts.1) (combined_no_space hn hcid)
      (combined_no_paren hn hcid)
  · rw [if_neg (fun hj => hu hj.2), if_neg hu]
    exact hfn

theorem resolve_def_name {n rhs cid : PyStr} (used : List PyStr)
    (hn : IdentName n = true) (hcid : IdentName cid = true) (hndef : n ≠ pstr ("def"))
    (hrs : ∃ c ∈ rhs, pyIsSpace c = false) :
    extract_definition_name (resolve_naming_conflict (n ++ pstr (" = ") ++ rhs) used cid)
      = if n ∈ used then n ++ pstr ("__") ++ cid else n := by
  have hnfacts := ident_name_facts hn
  have hfn0 : extract_function_name (n ++ pstr (" = ") ++ rhs) = [] :=
    extract_fn_nil_def rhs hnfacts.1 hndef (ident_no_space hn)
  have hdn : extract_definition_name (n ++ pstr (" = ") ++ rhs) = n :=
    extract_dn_gen hnfacts.1 hndef (ident_no_space hn) hrs
  simp only [resolve_naming_conflict, hfn0, hdn]
  rw [show (if ([] : PyStr) ≠ [] then ([] : PyStr) else n) = n from by
    rw [if_neg (fun h => h rfl)]]
  by_cases hu : n ∈ used
  · rw [if_pos ⟨hnfacts.1, hu⟩, if_pos hu]
    rw [def_assoc n rhs]
    rw [replaceAll_skip _ (fun t ht htne => skip_two_cert
      (List.mem_append_right _ (by decide : ('(') ∈ pstr ("(")))
      (fun hm => by
        rcases List.mem_append.mp hm with h | h
        · rcases List.mem_append.mp h with h' | h'
          · exact ident_no_paren hn h'
          · exact absurd h' (by decide)
        · exact absurd h (by decide))
      (fun hm => by
        rcases List.mem_append.mp hm with h | h
        · rcases List.mem_append.mp h with h' | h'
          · exact absurd h' (by decide)
          · exact ident_no_eq hn h'
        · exact absurd h (by decide))
      t ht htne _)]
    obtain ⟨s1, hs1⟩ := replaceAll_head_space
      (show pstr (" ") ++ n ++ pstr ("(") = ' ' :: (n ++ pstr ("(")) from rfl)
      (show pstr (" ") ++ (n ++ pstr ("__") ++ cid) ++ pstr ("(")
        = ' ' :: ((n ++ pstr ("__") ++ cid) ++ pstr ("(")) from rfl) rhs
    have hns1 : ∃ c ∈ ' ' :: s1, pyIsSpace c = false := by
      rw [← hs1]
      refine replaceAll_nonspace ?_ ?_
      · exact ⟨'(', List.mem_append_right _ (by decide), by decide⟩
      · obtain ⟨w, hw, hwn⟩ := hrs
        exact ⟨w, List.mem_cons_of_mem _ hw, hwn⟩
    rw [hs1]
    rw [replaceAll_skip _ (fun t ht htne => skip_two_cert
      (List.mem_append_right _ (by decide : ('(') ∈ pstr ("(")))
      (fun hm => by
        rcases List.mem_append.mp hm with h | h
        · rcases List.mem_append.mp h with h' | h'
          · exact ident_no_paren hn h'
          · exact absurd h' (by decide)
        · exact absurd h (by decide))
      (fun hm => by
        rcases List.mem_append.mp hm with h | h
        · rcases List.mem_append.mp h with h' | h'
          · exact absurd h' (by decide)
          · exact ident_no_eq hn h'
        · exact absurd h (by decide))
      t ht htne _)]
    obtain ⟨s2, hs2⟩ := @replaceAll_head_keep
      (pstr ("def ") ++ n ++ pstr ("("))
      (pstr ("def ") ++ (n ++ pstr ("__") ++ cid) ++ pstr ("(")) 'd'
      (pstr ("ef ") ++ n ++ pstr ("(")) rfl ' ' (by decide) s1
    have hns2 : ∃ c ∈ ' ' :: s2, pyIsSpace c = false := by
      rw [← hs2]
      refine replaceAll_nonspace ?_ hns1
      exact ⟨'(', List.mem_append_right _ (by decide), by decide⟩
    rw [hs2]
    rw [replaceAll_skip _ (fun t ht htne => skip_cond_def_o3 hn t ht htne _)]
    obtain ⟨s3, hs3⟩ := replaceAll_head_space
      (show pstr (" ") ++ n ++ pstr (" =") = ' ' :: (n ++ pstr (" =")) from rfl)
      (show pstr (" ") ++ (n ++ pstr ("__") ++ cid) ++ pstr (" =")
        = ' ' :: ((n ++ pstr ("__") ++ cid) ++ pstr (" =")) from rfl) s2
    have hns3 : ∃ c ∈ ' ' :: s3, pyIsSpace c = false := by
      rw [← hs3]
      refine replaceAll_nonspace ?_ hns2
      exact ⟨'=', List.mem_append_right _ (by decide), by decide⟩
    rw [hs3]
    have hreassoc : (n ++ [' ']) ++ ['='] = n ++ pstr (" =") := by
      rw [List.append_assoc]
      rfl
    rw [hreassoc]
    obtain ⟨f4, h4⟩ := replaceAll_hit0 ((n ++ pstr ("__") ++ cid) ++ pstr (" ="))
      (show n ++ pstr (" =") ≠ [] from by
        intro h0
        exact hnfacts.1 (List.append_eq_nil.mp h0).1) (' ' :: s3)
    rw [h4]
    obtain ⟨c0, n1, hn1⟩ : ∃ c0 n1, n = c0 :: n1 := by
      cases hq : n with
      | nil => exact absurd hq hnfacts.1
      | cons c0 n1 => exact ⟨c0, n1, rfl⟩
    have hc0 : c0 ≠ ' ' := by
      have := ident_no_space hn c0 (hn1 ▸ List.mem_cons_self _ _)
      intro h0
      rw [h0] at this
      exact absurd this (by decide)
    obtain ⟨s4, hs4⟩ := @rAA_head_keep (n ++ pstr (" ="))
      ((n ++ pstr ("__") ++ cid) ++ pstr (" =")) c0 (n1 ++ pstr (" ="))
      (by rw [hn1]; rfl) ' ' hc0 f4 s3
    have hns4 : ∃ c ∈ s4, pyIsSpace c = false := by
      have hin : ∃ c ∈ ' ' :: s4, pyIsSpace c = false := by
        rw [← hs4]
        refine rAA_nonspace_wrap ?_ f4 hns3
        exact ⟨'=', List.mem_append_right _ (by decide), by decide⟩
      obtain ⟨w, hw, hwn⟩ := hin
      rcases List.mem_cons.mp hw with h | h
      · exfalso
        rw [h] at hwn
        exact absurd hwn (by decide)
      · exact ⟨w, h, hwn⟩
    rw [hs4]
    have hform4 : ((n ++ pstr ("__") ++ cid) ++ pstr (" =")) ++ (' ' :: s4)
        = (n ++ pstr ("__") ++ cid) ++ pstr (" = ") ++ s4 := by
      simp only [List.append_assoc]
      rfl
    rw [hform4]
    exact extract_dn_gen (combined_ne_nil hnfacts.1) combined_ne_def
      (combined_no_space hn hcid) hns4
  · rw [if_neg (fun hj => hu hj.2), if_neg hu]
    exact hdn

/-! ### C3: the helper and definition loops -/

theorem helper_extract_ident {cell_helpers : List PyStr}
    (hH : ∀ h ∈ cell_helpers, HelperLine h) :
    ∀ h ∈ cell_helpers, IdentName (extract_function_name h) = true := by
  intro h hm
  obtain ⟨n2, rest2, heq2, hn2⟩ := hH h hm
  rw [heq2, extract_fn_gen rest2 (ident_name_facts hn2).1 (ident_no_space hn2)
    (ident_no_paren hn2)]
  exact hn2

theorem def_extract_ident {cell_defs : List PyStr}
    (hD : ∀ d ∈ cell_defs, DefLine d) :
    ∀ d ∈ cell_defs, IdentName (extract_definition_name d) = true := by
  intro d hm
  obtain ⟨n2, rhs2, heq2, hn2, hndef2, hrs2⟩ := hD d hm
  rw [heq2, extract_dn_gen (ident_name_facts hn2).1 hndef2 (ident_no_space hn2) hrs2]
  exact hn2

theorem process_helpers_spec (cid : PyStr) (hcid : IdentName cid = true) :
    ∀ (hs : List PyStr) (used : List PyStr),
      (∀ h ∈ hs, HelperLine h) →
      (hs.map extract_function_name).Nodup →
      (∀ h ∈ hs, extract_function_name h ++ pstr ("__") ++ cid ∉ used) →
      ∃ names : List PyStr,
        (process_helpers cid used hs).1.map extract_function_name = names ∧
        (process_helpers cid used hs).2 = names.reverse ++ used ∧
        names.Nodup ∧ (∀ x ∈ names, x ∉ used) ∧ (∀ x ∈ names, x ≠ []) ∧
        (∀ x ∈ names, ∃ h ∈ hs, x = extract_function_name h ∨
            (IdentName (extract_function_name h) = true ∧
              x = extract_function_name h ++ pstr ("__") ++ cid)) := by
  intro hs
  induction hs with
  | nil =>
      intro used _ _ _
      exact ⟨[], rfl, rfl, List.nodup_nil, by simp, by simp, by simp⟩
  | cons h hs' ih =>
      intro used hshape hnd hfresh
      obtain ⟨n, rest, heq, hn⟩ := hshape h (List.mem_cons_self _ _)
      subst heq
      have hnfacts := ident_name_facts hn
      have hfn : extract_function_name (pstr ("def ") ++ n ++ pstr ("(") ++ rest) = n :=
        extract_fn_gen rest hnfacts.1 (ident_no_space hn) (ident_no_paren hn)
      have hnd' : (hs'.map extract_function_name).Nodup := by
        rw [List.map_cons] at hnd
        exact (List.nodup_cons.mp hnd).2
      have hn_notin : n ∉ hs'.map extract_function_name := by
        rw [List.map_cons, hfn] at hnd
        exact (List.nodup_cons.mp hnd).1
      have hres := @resolve_helper_name n rest cid used hn hcid
      by_cases hu : n ∈ used
      · rw [if_pos hu] at hres
        have hnewne : n ++ pstr ("__") ++ cid ≠ [] := combined_ne_nil hnfacts.1
        have hfr : ∀ h ∈ hs', extract_function_name h ++ pstr ("__") ++ cid
            ∉ (n ++ pstr ("__") ++ cid) :: used := by
          intro h hm hmem
          rcases List.mem_cons.mp hmem with hcase | hcase
          · obtain ⟨n2, rest2, heq2, hn2⟩ := hshape h (List.mem_cons_of_mem _ hm)
            have hfn2 : extract_function_name h = n2 := by
              rw [heq2]
              exact extract_fn_gen rest2 (ident_name_facts hn2).1
                (ident_no_space hn2) (ident_no_paren hn2)
            rw [hfn2] at hcase
            have heqn := (combined_inj hn2 hn hcase).1
            apply hn_notin
            rw [← heqn, ← hfn2]
            exact List.mem_map_of_mem _ hm
          · exact hfresh h (List.mem_cons_of_mem _ hm) hcase
        obtain ⟨names', h1, h2, h3, h4, h5, h6⟩ := ih ((n ++ pstr ("__") ++ cid) :: used)
          (fun h hm => hshape h (List.mem_cons_of_mem _ hm)) hnd' hfr
        refine ⟨(n ++ pstr ("__") ++ cid) :: names', ?_, ?_, ?_, ?_, ?_, ?_⟩
        · simp only [process_helpers, List.map_cons]
          rw [hres, if_pos hnewne, h1]
        · simp only [process_helpers]
          rw [hres, if_pos hnewne, h2]
          simp
        · refine List.nodup_cons.mpr ⟨?_, h3⟩
          intro hmem
          exact h4 _ hmem (List.mem_cons_self _ _)
        · intro x hx
          rcases List.mem_cons.mp hx with hcase | hcase
          · subst hcase
            have hh := hfresh _ (List.mem_cons_self _ _)
            rw [hfn] at hh
            exact hh
          · exact fun hmem => h4 x hcase (List.mem_cons_of_mem _ hmem)
        · intro x hx
          rcases List.mem_cons.mp hx with hcase | hcase
          · subst hcase
            exact hnewne
          · exact h5 x hcase
        · intro x hx
          rcases List.mem_cons.mp hx with hcase | hcase
          · exact ⟨_, List.mem_cons_self _ _, Or.inr ⟨by rw [hfn]; exact hn, by rw [hfn, hcase]⟩⟩
          · obtain ⟨h', hm', hor⟩ := h6 x hcase
            exact ⟨h', List.mem_cons_of_mem _ hm', hor⟩
      · rw [if_neg hu] at hres
        have hfr2 : ∀ h ∈ hs', extract_function_name h ++ pstr ("__") ++ cid
            ∉ n :: used := by
          intro h hm hmem
          rcases List.mem_cons.mp hmem with hcase | hcase
          · obtain ⟨n2, rest2, heq2, hn2⟩ := hshape h (List.mem_cons_of_mem _ hm)
            have hfn2 : extract_function_name h = n2 := by
              rw [heq2]
              exact extract_fn_gen rest2 (ident_name_facts hn2).1
                (ident_no_space hn2) (ident_no_paren hn2)
            rw [hfn2] at hcase
            exact base_ne_combined hn hcase.symm
          · exact hfresh h (List.mem_cons_of_mem _ hm) hcase
        obtain ⟨names', h1, h2, h3, h4, h5, h6⟩ := ih (n :: used)
          (fun h hm => hshape h (List.mem_cons_of_mem _ hm)) hnd' hfr2
        refine ⟨n :: names', ?_, ?_, ?_, ?_, ?_, ?_⟩
        · simp only [process_helpers, List.map_cons]
          rw [hres, if_pos hnfacts.1, h1]
        · simp only [process_helpers]
          rw [hres, if_pos hnfacts.1, h2]
          simp
        · refine List.nodup_cons.mpr ⟨?_, h3⟩
          intro hmem
          exact h4 _ hmem (List.mem_cons_self _ _)
        · intro x hx
          rcases List.mem_cons.mp hx with hcase | hcase
          · subst hcase
            exact hu
          · exact fun hmem => h4 x hcase (List.mem_cons_of_mem _ hmem)
        · intro x hx
          rcases List.mem_cons.mp hx with hcase | hcase
          · subst hcase
            exact hnfacts.1
          · exact h5 x hcase
        · intro x hx
          rcases List.mem_cons.mp hx with hcase | hcase
          · exact ⟨_, List.mem_cons_self _ _, Or.inl (by rw [hfn, hcase])⟩
          · obtain ⟨h', hm', hor⟩ := h6 x hcase
            exact ⟨h', List.mem_cons_of_mem _ hm', hor⟩

theorem process_defs_spec (cid : PyStr) (hcid : IdentName cid = true) :
    ∀ (ds : List PyStr) (used : List PyStr),
      (∀ d ∈ ds, DefLine d) →
      (ds.map extract_definition_name).Nodup →
      (∀ d ∈ ds, extract_definition_name d ++ pstr ("__") ++ cid ∉ used) →
      ∃ names : List PyStr,
        (process_defs cid used ds).1.map extract_definition_name = names ∧
        (process_defs cid used ds).2 = names.reverse ++ used ∧
        names.Nodup ∧ (∀ x ∈ names, x ∉ used) ∧ (∀ x ∈ names, x ≠ []) ∧
        (∀ x ∈ names, ∃ d ∈ ds, x = extract_definition_name d ∨
            (IdentName (extract_definition_name d) = true ∧
              x = extract_definition_name d ++ pstr ("__") ++ cid)) := by
  intro ds
  induction ds with
  | nil =>
      intro used _ _ _
      exact ⟨[], rfl, rfl, List.nodup_nil, by simp, by simp, by simp⟩
  | cons d ds' ih =>
      intro used hshape hnd hfresh
      have hnd' : (ds'.map extract_definition_name).Nodup := by
        rw [List.map_cons] at hnd
        exact (List.nodup_cons.mp hnd).2
      by_cases hkeep : is_definition_not_invoke d = true
      · obtain ⟨n, rhs, heq, hn, hndef, hrs⟩ := hshape d (List.mem_cons_self _ _)
        subst heq
        have hnfacts := ident_name_facts hn
        have hdn : extract_definition_name (n ++ pstr (" = ") ++ rhs) = n :=
          extract_dn_gen hnfacts.1 hndef (ident_no_space hn) hrs
        have hn_notin : n ∉ ds'.map extract_definition_name := by
          rw [List.map_cons, hdn] at hnd
          exact (List.nodup_cons.mp hnd).1
        have hres := @resolve_def_name n rhs cid used hn hcid hndef hrs
        by_cases hu : n ∈ used
        · rw [if_pos hu] at hres
          have hnewne : n ++ pstr ("__") ++ cid ≠ [] := combined_ne_nil hnfacts.1
          have hfr : ∀ d ∈ ds', extract_definition_name d ++ pstr ("__") ++ cid
              ∉ (n ++ pstr ("__") ++ cid) :: used := by
            intro d hm hmem
            rcases List.mem_cons.mp hmem with hcase | hcase
            · obtain ⟨n2, rhs2, heq2, hn2, hndef2, hrs2⟩ :=
                hshape d (List.mem_cons_of_mem _ hm)
              have hdn2 : extract_definition_name d = n2 := by
                rw [heq2]
                exact extract_dn_gen (ident_name_facts hn2).1 hndef2
                  (ident_no_space hn2) hrs2
              rw [hdn2] at hcase
              have heqn := (combined_inj hn2 hn hcase).1
              apply hn_notin
              rw [← heqn, ← hdn2]
              exact List.mem_map_of_mem _ hm
            · exact hfresh d (List.mem_cons_of_mem _ hm) hcase
          obtain ⟨names', h1, h2, h3, h4, h5, h6⟩ := ih ((n ++ pstr ("__") ++ cid) :: used)
            (fun d hm => hshape d (List.mem_cons_of_mem _ hm)) hnd' hfr
          refine ⟨(n ++ pstr ("__") ++ cid) :: names', ?_, ?_, ?_, ?_, ?_, ?_⟩
          · simp only [process_defs]
            rw [if_pos hkeep]
            rw [List.map_cons, hres, if_pos hnewne, h1]
          · simp only [process_defs]
            rw [if_pos hkeep, hres, if_pos hnewne, h2]
            simp
          · refine List.nodup_cons.mpr ⟨?_, h3⟩
            intro hmem
            exact h4 _ hmem (List.mem_cons_self _ _)
          · intro x hx
            rcases List.mem_cons.mp hx with hcase | hcase
            · subst hcase
              have hh := hfresh _ (List.mem_cons_self _ _)
              rw [hdn] at hh
              exact hh
            · exact fun hmem => h4 x hcase (List.mem_cons_of_mem _ hmem)
          · intro x hx
            rcases List.mem_cons.mp hx with hcase | hcase
            · subst hcase
              exact hnewne
            · exact h5 x hcase
          · intro x hx
            rcases List.mem_cons.mp hx with hcase | hcase
            · exact ⟨_, List.mem_cons_self _ _,
                Or.inr ⟨by rw [hdn]; exact hn, by rw [hdn, hcase]⟩⟩
            · obtain ⟨d', hm', hor⟩ := h6 x hcase
              exact ⟨d', List.mem_cons_of_mem _ hm', hor⟩
        · rw [if_neg hu] at hres
          have hfr2 : ∀ d ∈ ds', extract_definition_name d ++ pstr ("__") ++ cid
              ∉ n :: used := by
            intro d hm hmem
            rcases List.mem_cons.mp hmem with hcase | hcase
            · obtain ⟨n2, rhs2, heq2, hn2, hndef2, hrs2⟩ :=
                hshape d (List.mem_cons_of_mem _ hm)
              have hdn2 : extract_definition_name d = n2 := by
                rw [heq2]
                exact extract_dn_gen (ident_name_facts hn2).1 hndef2
                  (ident_no_space hn2) hrs2
              rw [hdn2] at hcase
              exact base_ne_combined hn hcase.symm
            · exact hfresh d (List.mem_cons_of_mem _ hm) hcase
          obtain ⟨names', h1, h2, h3, h4, h5, h6⟩ := ih (n :: used)
            (fun d hm => hshape d (List.mem_cons_of_mem _ hm)) hnd' hfr2
          refine ⟨n :: names', ?_, ?_, ?_, ?_, ?_, ?_⟩
          · simp only [process_defs]
            rw [if_pos hkeep]
            rw [List.map_cons, hres, if_pos hnfacts.1, h1]
          · simp only [process_defs]
            rw [if_pos hkeep, hres, if_pos hnfacts.1, h2]
            simp
          · refine List.nodup_cons.mpr ⟨?_, h3⟩
            intro hmem
            exact h4 _ hmem (List.mem_cons_self _ _)
          · intro x hx
            rcases List.mem_cons.mp hx with hcase | hcase
            · subst hcase
              exact hu
            · exact fun hmem => h4 x hcase (List.mem_cons_of_mem _ hmem)
          · intro x hx
            rcases List.mem_cons.mp hx with hcase | hcase
            · subst hcase
              exact hnfacts.1
            · exact h5 x hcase
          · intro x hx
            rcases List.mem_cons.mp hx with hcase | hcase
            · exact ⟨_, List.mem_cons_self _ _, Or.inl (by rw [hdn, hcase])⟩
            · obtain ⟨d', hm', hor⟩ := h6 x hcase
              exact ⟨d', List.mem_cons_of_mem _ hm', hor⟩
      · simp only [process_defs]
        rw [if_neg hkeep]
        obtain ⟨names', h1, h2, h3, h4, h5, h6⟩ := ih used
          (fun d2 hm => hshape d2 (List.mem_cons_of_mem _ hm)) hnd'
          (fun d2 hm => hfresh d2 (List.mem_cons_of_mem _ hm))
        refine ⟨names', h1, h2, h3, h4, h5, ?_⟩
        intro x hx
        obtain ⟨d2, hm2, hor⟩ := h6 x hx
        exact ⟨d2, List.mem_cons_of_mem _ hm2, hor⟩

/-! ### C3: the per-cell merge step and the cell loop -/

theorem merge_cell_spec (cell : CodeCell) (hcid : IdentName cell.id = true)
    (hH : ∀ h ∈ cell.helpers, HelperLine h)
    (hD : ∀ d ∈ cell.definitions, DefLine d)
    (hjoint : (cell.helpers.map extract_function_name
        ++ cell.definitions.map extract_definition_name).Nodup)
    (used : List PyStr)
    (hfresh : ∀ b ∈ cell.helpers.map extract_function_name
        ++ cell.definitions.map extract_definition_name,
        b ++ pstr ("__") ++ cell.id ∉ used) :
    ∃ hN dN, (merge_cell used cell).1.map extract_function_name = hN ∧
      (merge_cell used cell).2.1.map extract_definition_name = dN ∧
      (merge_cell used cell).2.2 = (hN ++ dN).reverse ++ used ∧
      (hN ++ dN).Nodup ∧ (∀ x ∈ hN ++ dN, x ∉ used) ∧ (∀ x ∈ hN ++ dN, x ≠ []) ∧
      (∀ x ∈ hN ++ dN, IdentName x = true ∨
        ∃ b, IdentName b = true ∧ x = b ++ pstr ("__") ++ cell.id) := by
  have hndH : (cell.helpers.map extract_function_name).Nodup :=
    (List.nodup_append.mp hjoint).1
  have hndD : (cell.definitions.map extract_definition_name).Nodup :=
    (List.nodup_append.mp hjoint).2.1
  have hdisj := (List.nodup_append.mp hjoint).2.2
  obtain ⟨hN, a1, a2, a3, a4, a5, a6⟩ := process_helpers_spec cell.id hcid
    cell.helpers used hH hndH
    (fun h hm => hfresh _ (List.mem_append_left _ (List.mem_map_of_mem _ hm)))
  have hfreshD : ∀ d ∈ cell.definitions,
      extract_definition_name d ++ pstr ("__") ++ cell.id
        ∉ hN.reverse ++ used := by
    intro d hm hmem
    rcases List.mem_append.mp hmem with hcase | hcase
    · have hx := List.mem_reverse.mp hcase
      obtain ⟨h, hmh, hor⟩ := a6 _ hx
      rcases hor with heqb | ⟨hib, heqb⟩
      · have hid := def_extract_ident hD d hm
        exact base_ne_combined (helper_extract_ident hH h hmh)
          (by rw [← heqb])
      · have heq2 := (combined_inj (def_extract_ident hD d hm)
          hib heqb).1
        exact hdisj (List.mem_map_of_mem _ hmh)
          (heq2 ▸ List.mem_map_of_mem _ hm)
    · exact hfresh _ (List.mem_append_right _ (List.mem_map_of_mem _ hm)) hcase
  obtain ⟨dN, b1, b2, b3, b4, b5, b6⟩ := process_defs_spec cell.id hcid
    cell.definitions (hN.reverse ++ used) hD hndD hfreshD
  have hmc1 : (merge_cell used cell).1
      = (process_helpers cell.id used cell.helpers).1 := rfl
  have hmc2 : (merge_cell used cell).2.1
      = (process_defs cell.id (process_helpers cell.id used cell.helpers).2
          cell.definitions).1 := rfl
  have hmc3 : (merge_cell used cell).2.2
      = (process_defs cell.id (process_helpers cell.id used cell.helpers).2
          cell.definitions).2 := rfl
  refine ⟨hN, dN, ?_, ?_, ?_, ?_, ?_, ?_, ?_⟩
  · rw [hmc1, a1]
  · rw [hmc2, a2, b1]
  · rw [hmc3, a2, b2, List.reverse_append]
    rw [List.append_assoc]
  · refine List.Nodup.append a3 b3 ?_
    intro y hy hmem
    apply b4 y hmem
    exact List.mem_append_left _ (List.mem_reverse.mpr hy)
  · intro x hx
    rcases List.mem_append.mp hx with h | h
    · exact a4 x h
    · intro hmem
      exact b4 x h (List.mem_append_right _ hmem)
  · intro x hx
    rcases List.mem_append.mp hx with h | h
    · exact a5 x h
    · exact b5 x h
  · intro x hx
    rcases List.mem_append.mp hx with h | h
    · obtain ⟨h2, hm2, hor⟩ := a6 x h
      rcases hor with heqb | ⟨hib, heqb⟩
      · exact Or.inl (heqb ▸ helper_extract_ident hH h2 hm2)
      · exact Or.inr ⟨_, hib, heqb⟩
    · obtain ⟨d2, hm2, hor⟩ := b6 x h
      rcases hor with heqb | ⟨hib, heqb⟩
      · exact Or.inl (heqb ▸ def_extract_ident hD d2 hm2)
      · exact Or.inr ⟨_, hib, heqb⟩

theorem merge_loop_spec :
    ∀ (cells : List CodeCell) (used : List PyStr),
      (∀ cell ∈ cells, IdentName cell.id = true) →
      ((cells.map (fun c => c.id)).Nodup) →
      (∀ cell ∈ cells, ∀ h ∈ cell.helpers, HelperLine h) →
      (∀ cell ∈ cells, ∀ d ∈ cell.definitions, DefLine d) →
      (∀ cell ∈ cells, (cell.helpers.map extract_function_name
          ++ cell.definitions.map extract_definition_name).Nodup) →
      (∀ u ∈ used, IdentName u = true ∨
          ∃ b c2, IdentName b = true ∧ u = b ++ pstr ("__") ++ c2 ∧
            c2 ∉ cells.map (fun c => c.id)) →
      ∃ HN DN : List PyStr,
        (merge_loop used cells).1.map extract_function_name = HN ∧
        (merge_loop used cells).2.map extract_definition_name = DN ∧
        (HN ++ DN).Nodup ∧ (∀ x ∈ HN ++ DN, x ∉ used) ∧ (∀ x ∈ HN ++ DN, x ≠ []) ∧
        (∀ x ∈ HN ++ DN, IdentName x = true ∨
            ∃ b c2, IdentName b = true ∧ x = b ++ pstr ("__") ++ c2 ∧
              c2 ∈ cells.map (fun c => c.id)) := by
  intro cells
  induction cells with
  | nil =>
      intro used _ _ _ _ _ _
      exact ⟨[], [], rfl, rfl, List.nodup_nil, by simp, by simp, by simp⟩
  | cons c cs ih =>
      intro used hids hidnd hH hD hjoint hcls
      have hcid : IdentName c.id = true := hids c (List.mem_cons_self _ _)
      have hfresh : ∀ b ∈ c.helpers.map extract_function_name
          ++ c.definitions.map extract_definition_name,
          b ++ pstr ("__") ++ c.id ∉ used := by
        intro b hb hmem
        have hbal : IdentName b = true := by
          rcases List.mem_append.mp hb with h | h
          · obtain ⟨h', hm', rfl⟩ := List.mem_map.mp h
            exact helper_extract_ident (hH c (List.mem_cons_self _ _)) h' hm'
          · obtain ⟨d', hm', rfl⟩ := List.mem_map.mp h
            exact def_extract_ident (hD c (List.mem_cons_self _ _)) d' hm'
        rcases hcls _ hmem with h | ⟨b', c2, hb', hequ, hc2⟩
        · have h2 := (ident_name_facts h).2.2.1
          rw [combined_has_uu] at h2
          cases h2
        · have := (combined_inj hbal hb' hequ).2
          apply hc2
          rw [← this]
          exact List.mem_map_of_mem _ (List.mem_cons_self _ _)
      obtain ⟨hN, dN, a1, a2, a3, a4, a5, a6, a7⟩ := merge_cell_spec c hcid
        (hH c (List.mem_cons_self _ _)) (hD c (List.mem_cons_self _ _))
        (hjoint c (List.mem_cons_self _ _)) used hfresh
      have hcid_notin : c.id ∉ cs.map (fun c => c.id) := by
        rw [List.map_cons] at hidnd
        exact (List.nodup_cons.mp hidnd).1
      have hcls1 : ∀ u ∈ (merge_cell used c).2.2, IdentName u = true ∨
          ∃ b c2, IdentName b = true ∧ u = b ++ pstr ("__") ++ c2 ∧
            c2 ∉ cs.map (fun cc => cc.id) := by
        intro u hu
        rw [a3] at hu
        rcases List.mem_append.mp hu with h | h
        · have hx := List.mem_reverse.mp h
          rcases a7 u hx with h' | ⟨b, hb, hequ⟩
          · exact Or.inl h'
          · exact Or.inr ⟨b, c.id, hb, hequ, hcid_notin⟩
        · rcases hcls u h with h' | ⟨b, c2, hb, hequ, hc2⟩
          · exact Or.inl h'
          · refine Or.inr ⟨b, c2, hb, hequ, ?_⟩
            intro hmem
            exact hc2 (by rw [List.map_cons]; exact List.mem_cons_of_mem _ hmem)
      obtain ⟨HN', DN', b1, b2, b3, b4, b5, b6⟩ := ih ((merge_cell used c).2.2)
        (fun cell hm => hids cell (List.mem_cons_of_mem _ hm))
        (by rw [List.map_cons] at hidnd; exact (List.nodup_cons.mp hidnd).2)
        (fun cell hm => hH cell (List.mem_cons_of_mem _ hm))
        (fun cell hm => hD cell (List.mem_cons_of_mem _ hm))
        (fun cell hm => hjoint cell (List.mem_cons_of_mem _ hm))
        hcls1
      have hnotin1 : ∀ x ∈ HN' ++ DN', x ∉ hN ++ dN := by
        intro x hx hmem
        apply b4 x hx
        rw [a3]
        exact List.mem_append_left _ (List.mem_reverse.mpr hmem)
      refine ⟨hN ++ HN', dN ++ DN', ?_, ?_, ?_, ?_, ?_, ?_⟩
      · simp only [merge_loop]
        rw [List.map_append, a1, b1]
      · simp only [merge_loop]
        rw [List.map_append, a2, b2]
      · have hperm : ((hN ++ HN') ++ (dN ++ DN')).Perm ((hN ++ dN) ++ (HN' ++ DN')) := by
          simp only [List.append_assoc]
          refine List.Perm.append_left hN ?_
          rw [← List.append_assoc, ← List.append_assoc]
          exact List.Perm.append_right DN' List.perm_append_comm
        refine (hperm.nodup_iff).mpr ?_
        refine List.Nodup.append a4 b3 ?_
        intro y hy hmem
        exact hnotin1 y hmem hy
      · intro x hx
        have hx' : x ∈ hN ++ dN ∨ x ∈ HN' ++ DN' := by
          rcases List.mem_append.mp hx with h | h
          · rcases List.mem_append.mp h with h' | h'
            · exact Or.inl (List.mem_append_left _ h')
            · exact Or.inr (List.mem_append_left _ h')
          · rcases List.mem_append.mp h with h' | h'
            · exact Or.inl (List.mem_append_right _ h')
            · exact Or.inr (List.mem_append_right _ h')
        rcases hx' with h | h
        · exact a5 x h
        · intro hmem
          apply b4 x h
          rw [a3]
          exact List.mem_append_right _ hmem
      · intro x hx
        have hx' : x ∈ hN ++ dN ∨ x ∈ HN' ++ DN' := by
          rcases List.mem_append.mp hx with h | h
          · rcases List.mem_append.mp h with h' | h'
            · exact Or.inl (List.mem_append_left _ h')
            · exact Or.inr (List.mem_append_left _ h')
          · rcases List.mem_append.mp h with h' | h'
            · exact Or.inl (List.mem_append_right _ h')
            · exact Or.inr (List.mem_append_right _ h')
        rcases hx' with h | h
        · exact a6 x h
        · exact b5 x h
      · intro x hx
        have hx' : x ∈ hN ++ dN ∨ x ∈ HN' ++ DN' := by
          rcases List.mem_append.mp hx with h | h
          · rcases List.mem_append.mp h with h' | h'
            · exact Or.inl (List.mem_append_left _ h')
            · exact Or.inr (List.mem_append_left _ h')
          · rcases List.mem_append.mp h with h' | h'
            · exact Or.inl (List.mem_append_right _ h')
            · exact Or.inr (List.mem_append_right _ h')
        rcases hx' with h | h
        · rcases a7 x h with h' | ⟨b, hb, hequ⟩
          · exact Or.inl h'
          · exact Or.inr ⟨b, c.id, hb, hequ,
              by rw [List.map_cons]; exact List.mem_cons_self _ _⟩
        · rcases b6 x h with h' | ⟨b, c2, hb, hequ, hc2⟩
          · exact Or.inl h'
          · exact Or.inr ⟨b, c2, hb, hequ,
              by rw [List.map_cons]; exact List.mem_cons_of_mem _ hc2⟩

/-- C3: over cells with identifier-shaped, pairwise-distinct ids, helpers
declared as `def name(` with the parenthesis directly after an identifier name,
definition lines `name = value` with a non-blank value, and per-cell distinct
declared base names, one run of symbol conflict resolution in stored cell order
emits no two definitions sharing the same final name; each final name is either
the unchanged base name or a base name carrying a `__<cellId>` suffix for one
of the input cell ids. Signature tails and right-hand sides are arbitrary
(spaces, defaults, quotes), and names may contain single underscores, as the
repository's own symbols do. -/
theorem c3_merge_unique_names
    (cells : List CodeCell)
    (hids : ∀ cell ∈ cells, IdentName cell.id = true)
    (hidnd : (cells.map (fun c => c.id)).Nodup)
    (hH : ∀ cell ∈ cells, ∀ h ∈ cell.helpers, HelperLine h)
    (hD : ∀ cell ∈ cells, ∀ d ∈ cell.definitions, DefLine d)
    (hjoint : ∀ cell ∈ cells, (cell.helpers.map extract_function_name
        ++ cell.definitions.map extract_definition_name).Nodup) :
    (emitted_symbol_names cells).Nodup ∧
    ∀ x ∈ emitted_symbol_names cells, IdentName x = true ∨
      ∃ b cid, IdentName b = true ∧ IdentName cid = true ∧
        x = b ++ pstr ("__") ++ cid ∧ cid ∈ cells.map (fun c => c.id) := by
  obtain ⟨HN, DN, a1, a2, a3, a4, a5, a6⟩ :=
    merge_loop_spec cells [] hids hidnd hH hD hjoint (by simp)
  have f1 : HN.filter (fun n => n ≠ []) = HN :=
    List.filter_eq_self.mpr
      (fun a ha => decide_eq_true (a5 a (List.mem_append_left _ ha)))
  have f2 : DN.filter (fun n => n ≠ []) = DN :=
    List.filter_eq_self.mpr
      (fun a ha => decide_eq_true (a5 a (List.mem_append_right _ ha)))
  have hemit : emitted_symbol_names cells = HN ++ DN := by
    simp only [emitted_symbol_names, merge_code_sections_fixed]
    rw [a1, a2, f1, f2]
  rw [hemit]
  refine ⟨a3, ?_⟩
  intro x hx
  rcases a6 x hx with h | ⟨b, cid, hb, hequ, hcid⟩
  · exact Or.inl h
  · obtain ⟨cell, hcell, hcideq⟩ := List.mem_map.mp hcid
    exact Or.inr ⟨b, cid, hb, hcideq ▸ hids cell hcell, hequ, hcid⟩

/-- C3 counterexample: a single cell that declares the same helper name three
times. The second and third occurrences are both renamed to the same
`f__c`, so the emitted final names collide and the uniqueness clause of the
original claim fails without a per-cell distinctness assumption. -/
theorem c3_counterexample :
    ¬ (emitted_symbol_names
        [⟨pstr ("c"), [], [pstr ("def f():"), pstr ("def f():"), pstr ("def f():")],
          [], [], []⟩]).Nodup ∧
    emitted_symbol_names
        [⟨pstr ("c"), [], [pstr ("def f():"), pstr ("def f():"), pstr ("def f():")],
          [], [], []⟩]
      = [pstr ("f"), pstr ("f__c"), pstr ("f__c")] := by
  constructor
  · decide
  · rfl

/-- C3 witness: a concrete cell shaped like the repository's own content — a
helper with a defaulted multi-parameter signature, an underscore-bearing
constant definition, an underscore-bearing cell id — satisfies every
hypothesis of the uniqueness theorem, and its emitted final names
`[build_tfim_h, PAULI_X]` are pairwise distinct. -/
theorem c3_witness :
    emitted_symbol_names
        [⟨pstr ("Circuit_TFIM_HEA"), [], [pstr ("def build_tfim_h(n, hx, j, boundary=0):")],
          [pstr ("PAULI_X = 2")], [], []⟩]
      = [pstr ("build_tfim_h"), pstr ("PAULI_X")] ∧
    (emitted_symbol_names
        [⟨pstr ("Circuit_TFIM_HEA"), [], [pstr ("def build_tfim_h(n, hx, j, boundary=0):")],
          [pstr ("PAULI_X = 2")], [], []⟩]).Nodup := by
  refine ⟨by decide, (c3_merge_unique_names
    [⟨pstr ("Circuit_TFIM_HEA"), [], [pstr ("def build_tfim_h(n, hx, j, boundary=0):")],
      [pstr ("PAULI_X = 2")], [], []⟩]
    (by decide) (by decide) ?_ ?_ (by decide)).1⟩
  · intro cell hcell h hh
    have hc := List.mem_singleton.mp hcell
    subst hc
    have hh' := List.mem_singleton.mp hh
    subst hh'
    exact ⟨pstr ("build_tfim_h"), pstr ("n, hx, j, boundary=0):"), by decide, by decide⟩
  · intro cell hcell d hd
    have hc := List.mem_singleton.mp hcell
    subst hc
    have hd' := List.mem_singleton.mp hd
    subst hd'
    exact ⟨pstr ("PAULI_X"), pstr ("2"), by decide, by decide, by decide,
      '2', by decide, by decide⟩
